import Mathlib

/-!
Formal model of the fblstner Facebook keyword monitor.

The definitions below are shallow embeddings of the Python sources:
`db_manager.py` (the seen-post store), `app.py` (the monitoring loop and the
keyword commands), `url_cleaner.py` (URL normalisation), and `fb_scraper.py`
(post extraction, author extraction and the post identity hash).

Modelling conventions, used consistently throughout:
* Python `dict`s become association lists that preserve insertion order and
  keep keys unique; Python `set`s become duplicate-free insertion lists.
* `datetime` timestamps become natural numbers; the current time is passed
  to each operation as an explicit argument.
* Sending a Telegram message becomes a `DeliveryEvent` record; its success
  flag is produced by an arbitrary `deliver` function, mirroring the fact
  that `send_alert_to_group` swallows every error and the caller never
  inspects the outcome.
* Python strings are lists of characters (`List Char`), occasionally wrapped
  as `String` for record fields.
-/

set_option maxRecDepth 4000

namespace Fblstner

/-! ### Generic string helpers (Python `str` operations over `List Char`) -/

/-- Python `str.lower`, restricted to the ASCII range that the sources use. -/
def lowerL (s : List Char) : List Char := s.map Char.toLower

/-- Bool test: is `p` a prefix of `s` (Python `str.startswith`)? -/
def isPrefOf : List Char → List Char → Bool
  | [], _ => true
  | _ :: _, [] => false
  | a :: pa, b :: sb => a == b && isPrefOf pa sb

/-- Bool test: does `pat` occur as a contiguous substring of `s`
(Python's `pat in s`)?  The empty pattern occurs in every string. -/
def containsSub (pat : List Char) : List Char → Bool
  | [] => isPrefOf pat []
  | c :: rest => isPrefOf pat (c :: rest) || containsSub pat rest

/-- Python whitespace (`\s` / `str.strip` / `str.isspace`): the ASCII
controls and space plus the Unicode space characters. -/
def isPyWs (c : Char) : Bool :=
  c == ' ' || c == '\t' || c == '\n' || c == '\r' || c == '\x0b' ||
  c == '\x0c' || c == '\x1c' || c == '\x1d' || c == '\x1e' || c == '\x1f' ||
  c == '\x85' || c == '\xa0' || c == '\u1680' ||
  (('\u2000' : Char) ≤ c && c ≤ ('\u200A' : Char)) || c == '\u2028' ||
  c == '\u2029' || c == '\u202F' || c == '\u205F' || c == '\u3000'

/-- Python `str.strip()`. -/
def pstrip (s : List Char) : List Char :=
  ((s.dropWhile isPyWs).reverse.dropWhile isPyWs).reverse

/-! ### `db_manager.py` — `SeenPostsDB`

`self.data["posts"]` is a JSON object mapping a post id to the ISO timestamp
at which it was marked; we model it as an insertion-ordered association list
with unique keys and `Nat` timestamps. -/

/-- The `posts` mapping of `SeenPostsDB`: post id ↦ mark timestamp. -/
abbrev SeenData := List (String × Nat)

/-- `SeenPostsDB.is_seen`: `post_id in self.data["posts"]`. -/
def isSeen (db : SeenData) (postId : String) : Bool :=
  db.any (fun e => e.1 == postId)

/-- `SeenPostsDB.mark_seen`: `self.data["posts"][post_id] = datetime.now().isoformat()`.
A Python dict assignment keeps the key's position when the key exists and
appends otherwise. -/
def markSeen (db : SeenData) (postId : String) (now : Nat) : SeenData :=
  if db.any (fun e => e.1 == postId) then
    db.map (fun e => if e.1 == postId then (postId, now) else e)
  else
    db ++ [(postId, now)]

/-- `SeenPostsDB.mark_multiple_seen`: every id gets the same timestamp. -/
def markMultipleSeen (db : SeenData) (postIds : List String) (now : Nat) : SeenData :=
  postIds.foldl (fun d p => markSeen d p now) db

/-- `SeenPostsDB.cleanup_expired`: removes every entry whose timestamp is
strictly older than the cutoff (`timestamp < cutoff`); in the model every
stored timestamp parses, so the invalid-entry branch never fires. -/
def cleanupExpired (db : SeenData) (cutoff : Nat) : SeenData :=
  db.filter (fun e => decide (cutoff ≤ e.2))

/-- `SeenPostsDB.get_seen_count`. -/
def getSeenCount (db : SeenData) : Nat := db.length

/-! ### `app.py` — decimal rendering and initialization keys

`monitoring_loop` tracks initialization with string keys
`f"{group_id}:{keyword}"`.  We model Python's `str(int)` explicitly (with a
fuel argument so that the definition reduces in the kernel). -/

/-- Decimal digits of `n`, most significant first; `fuel` bounds the
recursion and any `fuel > n` is enough. -/
def natReprAux : Nat → Nat → List Char
  | 0, _ => []
  | fuel + 1, n =>
    if n < 10 then [Nat.digitChar n]
    else natReprAux fuel (n / 10) ++ [Nat.digitChar (n % 10)]

/-- Python `str` of a natural number. -/
def natReprL (n : Nat) : List Char := natReprAux (n + 1) n

/-- Python `str` of an `int`. -/
def intReprL : Int → List Char
  | Int.ofNat n => natReprL n
  | Int.negSucc n => '-' :: natReprL (n + 1)

/-- `app.py`: `init_key = f"{group_id}:{keyword}"`. -/
def initKey (g : Int) (kw : String) : String :=
  String.mk (intReprL g ++ ':' :: kw.data)

/-- Numeric value of a decimal digit character (verification helper used to
invert `natReprL`). -/
def digitVal (c : Char) : Nat := c.toNat - 48

/-- Decimal decoding of a digit string (verification helper, the left
inverse of `natReprL`). -/
def decodeDec (ds : List Char) : Nat := ds.foldl (fun a c => 10 * a + digitVal c) 0

/-! ### `app.py` — the monitoring loop around one keyword search -/

/-- The post dict emitted by `FacebookSearchScraper._extract_posts_by_url_boundaries`. -/
structure Post where
  id : String
  text : String
  keyword : String
  author : String
  postUrl : String
  timestamp : Option String
deriving DecidableEq, Repr

/-- One call of `send_alert_to_group` during the loop: which group was
messaged, for which post id, and whether the Telegram call reported
success.  The loop itself never branches on `ok`. -/
structure DeliveryEvent where
  group : Int
  postId : String
  ok : Bool
deriving DecidableEq, Repr

/-- The mutable monitor state touched by one keyword pass:
`self.seen_db.data`, `self.initialized_keywords`, `self.processed_items`. -/
structure MonState where
  seenDb : SeenData
  initializedKeywords : List String
  processedItems : List (Int × List String)
deriving DecidableEq, Repr

/-- `self.initial_backfill_count = 10`. -/
def initialBackfillCount : Nat := 10

/-- Set-style insertion (`set.add`). -/
def insertOnce (l : List String) (s : String) : List String :=
  if s ∈ l then l else l ++ [s]

/-- `if group_id not in self.processed_items: self.processed_items[group_id] = set()`. -/
def ensureProcessed (pi : List (Int × List String)) (g : Int) : List (Int × List String) :=
  if pi.any (fun e => e.1 == g) then pi else pi ++ [(g, [])]

/-- `self.processed_items[group_id].add(post_id)`. -/
def addProcessed (pi : List (Int × List String)) (g : Int) (postId : String) :
    List (Int × List String) :=
  pi.map (fun e => if e.1 == g then (e.1, if postId ∈ e.2 then e.2 else e.2 ++ [postId]) else e)

/-- `is_first_time = init_key not in self.initialized_keywords`. -/
def isFirstTime (init : List String) (g : Int) (kw : String) : Bool :=
  decide (initKey g kw ∉ init)

/-- One iteration of the backfill loop (`for post in posts_to_send`): skip an
empty id, otherwise mark seen, send the alert, record the processed item.
The global seen-set is not consulted. -/
def backfillStep (deliver : Int → Post → Bool) (now : Nat) (g : Int)
    (acc : MonState × List DeliveryEvent) (p : Post) : MonState × List DeliveryEvent :=
  if p.id == "" then acc
  else
    ({ acc.1 with
        seenDb := markSeen acc.1.seenDb p.id now
        processedItems := addProcessed acc.1.processedItems g p.id },
      acc.2 ++ [⟨g, p.id, deliver g p⟩])

/-- One iteration of the delta loop (`for post in posts` in the regular
branch): skip an empty id or an id already in the global seen-set, otherwise
mark seen, send the alert, record the processed item. -/
def deltaStep (deliver : Int → Post → Bool) (now : Nat) (g : Int)
    (acc : MonState × List DeliveryEvent) (p : Post) : MonState × List DeliveryEvent :=
  if p.id == "" || isSeen acc.1.seenDb p.id then acc
  else
    ({ acc.1 with
        seenDb := markSeen acc.1.seenDb p.id now
        processedItems := addProcessed acc.1.processedItems g p.id },
      acc.2 ++ [⟨g, p.id, deliver g p⟩])

/-- `if group_id not in self.processed_items: ...` applied to the whole
state, at the head of the per-group processing. -/
def pgState (st : MonState) (g : Int) : MonState :=
  { st with processedItems := ensureProcessed st.processedItems g }

/-- The backfill loop of `monitoring_loop`:
`posts_to_send = posts[:self.initial_backfill_count]` followed by the
per-post loop. -/
def backfillRun (deliver : Int → Post → Bool) (now : Nat) (g : Int) (posts : List Post)
    (acc : MonState × List DeliveryEvent) : MonState × List DeliveryEvent :=
  (posts.take initialBackfillCount).foldl (backfillStep deliver now g) (pgState acc.1 g, acc.2)

/-- The delta loop of `monitoring_loop` (`for post in posts` in the regular
branch). -/
def deltaRun (deliver : Int → Post → Bool) (now : Nat) (g : Int) (posts : List Post)
    (acc : MonState × List DeliveryEvent) : MonState × List DeliveryEvent :=
  posts.foldl (deltaStep deliver now g) (pgState acc.1 g, acc.2)

/-- Processing of one target group for one keyword (`app.py` 912–970):
backfill branch (take the first `initial_backfill_count` posts positionally,
then add `init_key` to `initialized_keywords`) when the pair is new, delta
branch otherwise. -/
def processGroup (deliver : Int → Post → Bool) (now : Nat) (kw : String) (posts : List Post)
    (acc : MonState × List DeliveryEvent) (g : Int) : MonState × List DeliveryEvent :=
  if isFirstTime (pgState acc.1 g).initializedKeywords g kw then
    ({ (backfillRun deliver now g posts acc).1 with
        initializedKeywords :=
          insertOnce (backfillRun deliver now g posts acc).1.initializedKeywords (initKey g kw) },
      (backfillRun deliver now g posts acc).2)
  else
    deltaRun deliver now g posts acc

/-- Processing of one keyword in a check cycle (`app.py` 899–970): when the
search returned no posts, every target pair is marked initialized and
nothing is delivered; otherwise each target group is processed in turn. -/
def processKeyword (deliver : Int → Post → Bool) (now : Nat) (kw : String)
    (targetGroups : List Int) (posts : List Post) (st : MonState) :
    MonState × List DeliveryEvent :=
  if posts = [] then
    ({ st with initializedKeywords :=
        targetGroups.foldl (fun ik g => insertOnce ik (initKey g kw)) st.initializedKeywords },
      [])
  else
    targetGroups.foldl (processGroup deliver now kw posts) (st, [])

/-! ### `app.py` — keyword add/remove commands (registry) -/

/-- One entry of `self.groups`. -/
structure GroupInfo where
  name : String
  keywords : List String
  enabled : Bool
deriving DecidableEq, Repr

/-- The bot state touched by the keyword commands. -/
structure BotData where
  groups : List (Int × GroupInfo)
  initializedKeywords : List String
deriving DecidableEq, Repr

def lookupGroup (gs : List (Int × GroupInfo)) (g : Int) : Option GroupInfo :=
  match gs.find? (fun e => e.1 == g) with
  | some e => some e.2
  | none => none

def updateGroup (gs : List (Int × GroupInfo)) (g : Int) (gi : GroupInfo) :
    List (Int × GroupInfo) :=
  gs.map (fun e => if e.1 == g then (e.1, gi) else e)

/-- State change of `removekeyword_command` (`app.py` 745–781): the keyword
(already lower-cased and stripped by argument parsing) is discarded from the
group's keyword set; nothing else changes.  `initialized_keywords` is not
touched anywhere in the command. -/
def removeKeywordCmd (b : BotData) (g : Int) (kw : String) : BotData :=
  match lookupGroup b.groups g with
  | none => b
  | some gi =>
    if kw ∈ gi.keywords then
      { b with groups := updateGroup b.groups g { gi with keywords := gi.keywords.erase kw } }
    else b

/-- State change of `addkeyword_command` (`app.py` 707–743): the keyword is
added to the group's keyword set unless already present; nothing else
changes. -/
def addKeywordCmd (b : BotData) (g : Int) (kw : String) : BotData :=
  match lookupGroup b.groups g with
  | none => b
  | some gi =>
    if kw ∈ gi.keywords then b
    else { b with groups := updateGroup b.groups g { gi with keywords := gi.keywords ++ [kw] } }

/-! ### `url_cleaner.py` — `clean_facebook_url`

The function parses the URL with `urllib.parse.urlparse`, drops every query
parameter whose name contains a tracking fragment (case-insensitive
substring), re-encodes the query with `urlencode(..., doseq=True)`,
reassembles with `urlunparse` and strips one trailing `?`.

The `urllib` machinery is embedded below at the fidelity the sources
exercise, following CPython's `urlsplit`/`urlparse`/`parse_qs`/`urlencode`/
`urlunparse`:
* `\t`, `\r`, `\n` are removed before parsing, scheme detection and
  lower-casing, netloc, fragment and query splitting, and the
  `uses_params` semicolon handling follow CPython;
* percent encoding and decoding is modelled at the character level (one
  `%XX` escape per character below U+0100); the byte-level UTF-8 expansion
  of higher characters is abstracted — such characters pass through both
  directions.  Only non-ASCII inputs are affected;
* the `except` fallback of `clean_facebook_url` is unreachable in the
  model: the embedded parser is total (CPython's parser raises only for
  unbalanced square brackets in the authority, which is not modelled). -/

def trackingParams : List (List Char) :=
  ["__cft__", "__tn__", "__xts__", "__dyn__", "__csr__", "__req__", "__hs__",
    "__hssc__", "__hsfp__", "__hstc__", "fbclid", "ref", "refid", "refsrc",
    "source", "utm_source", "utm_medium", "utm_campaign", "utm_content",
    "utm_term"].map String.data

/-- `any(track in k.lower() for track in tracking_params)`. -/
def isTrackedKey (k : List Char) : Bool :=
  trackingParams.any (fun t => containsSub t (lowerL k))

/-- Split at the first occurrence of `sep`; `none` when absent. -/
def splitFirst (sep : Char) : List Char → Option (List Char × List Char)
  | [] => none
  | c :: r =>
    if c = sep then some ([], r)
    else
      match splitFirst sep r with
      | none => none
      | some (a, b) => some (c :: a, b)

/-- `str.split(sep)`: the result is never empty. -/
def splitOnChar (sep : Char) : List Char → List (List Char)
  | [] => [[]]
  | c :: r =>
    match splitOnChar sep r with
    | [] => [[]]
    | h :: t => if c = sep then [] :: h :: t else (c :: h) :: t

/-- `sep.join(parts)` for a one-character separator. -/
def interCh (sep : Char) : List (List Char) → List Char
  | [] => []
  | [x] => x
  | x :: xs => x ++ sep :: interCh sep xs

def hexVal (c : Char) : Option Nat :=
  if '0' ≤ c ∧ c ≤ '9' then some (c.toNat - 48)
  else if 'a' ≤ c ∧ c ≤ 'f' then some (c.toNat - 87)
  else if 'A' ≤ c ∧ c ≤ 'F' then some (c.toNat - 55)
  else none

/-- The `+` to space replacement of `unquote_plus`. -/
def plusSp (s : List Char) : List Char := s.map (fun c => if c = '+' then ' ' else c)

/-- Decoding of one piece between two `%` signs, CPython style: a leading
valid `%XX` escape becomes the character with that code, otherwise the `%`
is kept literally. -/
def decodePiece (piece : List Char) : List Char :=
  match piece with
  | a :: b :: r =>
    match hexVal a, hexVal b with
    | some x, some y => Char.ofNat (16 * x + y) :: r
    | _, _ => '%' :: piece
  | _ => '%' :: piece

/-- Percent decoding by pieces (CPython's `unquote` on a `%`-split). -/
def unqDec (l : List Char) : List Char :=
  match splitOnChar '%' l with
  | [] => []
  | h :: t => h ++ (t.map decodePiece).flatten

/-- `urllib.parse.unquote_plus`, following CPython's split-on-`%`
algorithm after the `+`-to-space replacement. -/
def unquotePlus (s : List Char) : List Char := unqDec (plusSp s)

/-- CPython's `_ALWAYS_SAFE`: ASCII letters, digits and `_.-~`. -/
def safeChar (c : Char) : Bool :=
  c.isAlpha || c.isDigit || c = '_' || c = '.' || c = '-' || c = '~'

def hexUpDigit (n : Nat) : Char :=
  if n < 10 then Char.ofNat (48 + n) else Char.ofNat (55 + n)

/-- `urllib.parse.quote_plus` with `safe=''`, per character. -/
def quoteChar (c : Char) : List Char :=
  if c = ' ' then ['+']
  else if safeChar c then [c]
  else if c.toNat < 256 then ['%', hexUpDigit (c.toNat / 16), hexUpDigit (c.toNat % 16)]
  else [c]

def quotePlus (s : List Char) : List Char := (s.map quoteChar).flatten

/-- Quoting after the `+`-to-space replacement has been absorbed
(verification helper): space stays a space, every other character is
quoted. -/
def qChunk (c : Char) : List Char := if c = ' ' then [' '] else quoteChar c

/-- Decoding of a single `&`-separated chunk by `parse_qsl` with
`keep_blank_values=True`: empty chunks are dropped, a `=` splits key from
value, otherwise the chunk is a key with a blank value. -/
def qsPiece (chunk : List Char) : Option (List Char × List Char) :=
  if chunk = [] then none
  else
    match splitFirst '=' chunk with
    | some (k, v) => some (unquotePlus k, unquotePlus v)
    | none => some (unquotePlus chunk, [])

/-- `urllib.parse.parse_qsl(query, keep_blank_values=True)`. -/
def parseQsl (q : List Char) : List (List Char × List Char) :=
  (splitOnChar '&' q).filterMap qsPiece

/-- One step of `parse_qs`'s grouping: append the value when the key is
present, append a fresh entry otherwise. -/
def addQsPair (d : List (List Char × List (List Char))) (kv : List Char × List Char) :
    List (List Char × List (List Char)) :=
  if d.any (fun e => e.1 == kv.1) then
    d.map (fun e => if e.1 == kv.1 then (e.1, e.2 ++ [kv.2]) else e)
  else d ++ [(kv.1, [kv.2])]

/-- `urllib.parse.parse_qs(query, keep_blank_values=True)`. -/
def parseQs (q : List Char) : List (List Char × List (List Char)) :=
  (parseQsl q).foldl addQsPair []

/-- The encoded `key=value` chunks of `urlencode(d, doseq=True)`. -/
def qsChunks (d : List (List Char × List (List Char))) : List (List Char) :=
  (d.map (fun kv => kv.2.map (fun v => quotePlus kv.1 ++ '=' :: quotePlus v))).flatten

/-- `urllib.parse.urlencode(d, doseq=True)` (default `quote_via=quote_plus`). -/
def urlencodeQs (d : List (List Char × List (List Char))) : List Char :=
  interCh '&' (qsChunks d)

/-- The multi-dict flattened back to its key/value pairs (verification
helper). -/
def flatkv (d : List (List Char × List (List Char))) :
    List (List Char × List Char) :=
  (d.map (fun kv => kv.2.map (fun v => (kv.1, v)))).flatten

/-- Well-formedness of a `parse_qs` result: distinct keys, no empty value
lists. -/
def qsWf (d : List (List Char × List (List Char))) : Prop :=
  (d.map Prod.fst).Nodup ∧ ∀ kv ∈ d, kv.2 ≠ []

structure UrlParts where
  scheme : List Char
  netloc : List Char
  path : List Char
  params : List Char
  query : List Char
  fragment : List Char
deriving DecidableEq, Repr

/-- CPython first strips leading C0 controls and spaces, then removes
`\t`, `\r`, `\n` everywhere. -/
def removeTabsNl (s : List Char) : List Char :=
  (s.dropWhile (fun c => c.toNat ≤ 32)).filter (fun c => !(c == '\t' || c == '\r' || c == '\n'))

def schemeChar (c : Char) : Bool :=
  c.isAlphanum || c = '+' || c = '-' || c = '.'

/-- Scheme detection of `urlsplit`: a leading ASCII letter followed by
scheme characters up to the first `:`; the scheme is lower-cased. -/
def splitScheme (s : List Char) : List Char × List Char :=
  match splitFirst ':' s with
  | none => ([], s)
  | some (pre, post) =>
    match pre with
    | [] => ([], s)
    | c :: _ => if c.isAlpha && pre.all schemeChar then (lowerL pre, post) else ([], s)

def notNetlocEnd (c : Char) : Bool := !(c == '/' || c == '?' || c == '#')

/-- `_splitnetloc`: after a leading `//`, the netloc runs to the next
`/`, `?` or `#`. -/
def splitNetloc (s : List Char) : List Char × List Char :=
  if s.take 2 = ['/', '/'] then
    ((s.drop 2).takeWhile notNetlocEnd, (s.drop 2).dropWhile notNetlocEnd)
  else ([], s)

/-- Fragment split: everything after the first `#`. -/
def fsplit (z : List Char) : List Char × List Char :=
  match splitFirst '#' z with
  | some ab => ab
  | none => (z, [])

/-- Query split: everything after the first `?`. -/
def qsplit (z : List Char) : List Char × List Char :=
  match splitFirst '?' z with
  | some ab => ab
  | none => (z, [])

/-- `urllib.parse.urlsplit` (scheme, then netloc, then fragment, then
query; `params` left empty). -/
def urlsplitM (url : List Char) : UrlParts :=
  let u0 := removeTabsNl url
  let sp := splitScheme u0
  let np := splitNetloc sp.2
  let fp := fsplit np.2
  let qp := qsplit fp.1
  ⟨sp.1, np.1, qp.1, [], qp.2, fp.2⟩

/-- CPython's `uses_params` list. -/
def usesParams : List (List Char) :=
  ["", "ftp", "hdl", "prospero", "http", "imap", "https", "shttp", "rtsp",
    "rtsps", "rtspu", "sip", "sips", "mms", "sftp", "tel"].map String.data

/-- CPython's `uses_netloc` list. -/
def usesNetloc : List (List Char) :=
  ["", "ftp", "http", "gopher", "nntp", "telnet", "imap", "wais", "file",
    "mms", "https", "shttp", "snews", "prospero", "rtsp", "rtsps", "rtspu",
    "rsync", "svn", "svn+ssh", "sftp", "nfs", "git", "git+ssh", "ws",
    "wss"].map String.data

/-- Index of the last occurrence of `c`. -/
def rfindPos (c : Char) (s : List Char) : Option Nat :=
  match (s.reverse).findIdx? (fun x => x == c) with
  | some i => some (s.length - 1 - i)
  | none => none

/-- Index of the first occurrence of `c` at or after position `start`. -/
def findPosFrom (c : Char) (s : List Char) (start : Nat) : Option Nat :=
  match (s.drop start).findIdx? (fun x => x == c) with
  | some i => some (start + i)
  | none => none

/-- `_splitparams`: split the params off the last path segment. -/
def splitParams (url : List Char) : List Char × List Char :=
  let i? :=
    if '/' ∈ url then
      match rfindPos '/' url with
      | some j => findPosFrom ';' url j
      | none => none
    else findPosFrom ';' url 0
  match i? with
  | some i => (url.take i, url.drop (i + 1))
  | none => (url, [])

/-- The params split as `urlparse` performs it: only for schemes in
`uses_params` and only when the path holds a `;`. -/
def parseParams (s z : List Char) : List Char × List Char :=
  if s ∈ usesParams ∧ ';' ∈ z then splitParams z else (z, [])

/-- `urllib.parse.urlparse`: `urlsplit` plus the params split for schemes
in `uses_params`. -/
def urlparseM (url : List Char) : UrlParts :=
  let p := urlsplitM url
  if p.scheme ∈ usesParams ∧ ';' ∈ p.path then
    let pp := splitParams p.path
    { p with path := pp.1, params := pp.2 }
  else p

/-- How `urlunparse` re-joins path and params. -/
def pjoin (pa pr : List Char) : List Char :=
  if pr ≠ [] then pa ++ ';' :: pr else pa

/-- The path as it comes out of one parse/unparse round: params split off
and re-joined. -/
def pfix (s z : List Char) : List Char :=
  pjoin (parseParams s z).1 (parseParams s z).2

/-- `urllib.parse.urlunsplit` (CPython 3.11): the `//` is re-added when
there is a netloc, or when the scheme is a known netloc-using scheme and
the path does not already begin with `//`. -/
def urlunsplitM (scheme netloc path query fragment : List Char) : List Char :=
  let url1 :=
    if netloc ≠ [] ∨ (scheme ≠ [] ∧ scheme ∈ usesNetloc ∧ path.take 2 ≠ ['/', '/']) then
      ('/' :: '/' :: netloc) ++
        (if path ≠ [] ∧ path.take 1 ≠ ['/'] then '/' :: path else path)
    else path
  let url2 := if scheme ≠ [] then scheme ++ ':' :: url1 else url1
  let url3 := if query ≠ [] then url2 ++ '?' :: query else url2
  if fragment ≠ [] then url3 ++ '#' :: fragment else url3

/-- `urllib.parse.urlunparse`. -/
def urlunparseM (p : UrlParts) : List Char :=
  urlunsplitM p.scheme p.netloc
    (if p.params ≠ [] then p.path ++ ';' :: p.params else p.path) p.query p.fragment

/-- `url_cleaner.clean_facebook_url`: parse, drop tracking parameters,
re-encode, reassemble, strip one trailing `?`. -/
def cleanFacebookUrl (url : List Char) : List Char :=
  if url = [] then url
  else
    let p := urlparseM url
    let cleanedQuery := urlencodeQs ((parseQs p.query).filter (fun kv => !isTrackedKey kv.1))
    let r := urlunparseM { p with query := cleanedQuery }
    if r.getLast? = some '?' then r.dropLast else r

/-! ### `fb_scraper.py` — deterministic post identity

`_extract_posts_by_url_boundaries` computes
`hashlib.sha256((clean_text[:150] + url).encode('utf-8')).hexdigest()[:20]`.
SHA-256 is implemented below over byte lists following FIPS 180-4, with
32-bit words as naturals reduced mod `2^32`. -/

def w32 (n : Nat) : Nat := n % 4294967296

def rotr32 (k x : Nat) : Nat := w32 ((x >>> k) ||| (x <<< (32 - k)))

def sha256K : List Nat :=
  [1116352408, 1899447441, 3049323471, 3921009573, 961987163, 1508970993,
    2453635748, 2870763221, 3624381080, 310598401, 607225278, 1426881987,
    1925078388, 2162078206, 2614888103, 3248222580, 3835390401, 4022224774,
    264347078, 604807628, 770255983, 1249150122, 1555081692, 1996064986,
    2554220882, 2821834349, 2952996808, 3210313671, 3336571891, 3584528711,
    113926993, 338241895, 666307205, 773529912, 1294757372, 1396182291,
    1695183700, 1986661051, 2177026350, 2456956037, 2730485921, 2820302411,
    3259730800, 3345764771, 3516065817, 3600352804, 4094571909, 275423344,
    430227734, 506948616, 659060556, 883997877, 958139571, 1322822218,
    1537002063, 1747873779, 1955562222, 2024104815, 2227730452, 2361852424,
    2428436474, 2756734187, 3204031479, 3329325298]

structure Sha256St where
  a : Nat
  b : Nat
  c : Nat
  d : Nat
  e : Nat
  f : Nat
  g : Nat
  h : Nat
deriving DecidableEq, Repr

def sha256Init : Sha256St :=
  ⟨1779033703, 3144134277, 1013904242, 2773480762,
    1359893119, 2600822924, 528734635, 1541459225⟩

/-- Big-endian 32-bit words of a 64-byte block. -/
def blockWords : List Nat → List Nat
  | b0 :: b1 :: b2 :: b3 :: r => (((b0 * 256 + b1) * 256 + b2) * 256 + b3) :: blockWords r
  | _ => []

/-- Message-schedule extension from 16 to 64 words. -/
def extendWords (w : List Nat) : List Nat :=
  (List.range 48).foldl
    (fun w _ =>
      let n := w.length
      let w15 := w.getD (n - 15) 0
      let w2 := w.getD (n - 2) 0
      let s0 := (rotr32 7 w15) ^^^ (rotr32 18 w15) ^^^ (w15 >>> 3)
      let s1 := (rotr32 17 w2) ^^^ (rotr32 19 w2) ^^^ (w2 >>> 10)
      w ++ [w32 (w.getD (n - 16) 0 + s0 + w.getD (n - 7) 0 + s1)])
    w

def sha256Round (s : Sha256St) (k : Nat) (w : Nat) : Sha256St :=
  let s1 := (rotr32 6 s.e) ^^^ (rotr32 11 s.e) ^^^ (rotr32 25 s.e)
  let ch := (s.e &&& s.f) ^^^ ((s.e ^^^ 4294967295) &&& s.g)
  let t1 := w32 (s.h + s1 + ch + k + w)
  let s0 := (rotr32 2 s.a) ^^^ (rotr32 13 s.a) ^^^ (rotr32 22 s.a)
  let mj := (s.a &&& s.b) ^^^ (s.a &&& s.c) ^^^ (s.b &&& s.c)
  let t2 := w32 (s0 + mj)
  ⟨w32 (t1 + t2), s.a, s.b, s.c, w32 (s.d + t1), s.e, s.f, s.g⟩

def compressBlock (s : Sha256St) (block : List Nat) : Sha256St :=
  let ws := extendWords (blockWords block)
  let r := (sha256K.zip ws).foldl (fun st kw => sha256Round st kw.1 kw.2) s
  ⟨w32 (s.a + r.a), w32 (s.b + r.b), w32 (s.c + r.c), w32 (s.d + r.d),
    w32 (s.e + r.e), w32 (s.f + r.f), w32 (s.g + r.g), w32 (s.h + r.h)⟩

/-- Big-endian 64-bit length field. -/
def be64 (n : Nat) : List Nat :=
  (List.range 8).map (fun i => (n >>> (56 - 8 * i)) % 256)

/-- FIPS 180-4 padding: `0x80`, zeros, then the bit length. -/
def sha256Pad (msg : List Nat) : List Nat :=
  msg ++ 128 :: (List.replicate ((119 - msg.length % 64) % 64) 0 ++ be64 (8 * msg.length))

def chunk64 : Nat → List Nat → List (List Nat)
  | 0, _ => []
  | _, [] => []
  | fuel + 1, bs => bs.take 64 :: chunk64 fuel (bs.drop 64)

def sha256St (msg : List Nat) : Sha256St :=
  (chunk64 (sha256Pad msg).length (sha256Pad msg)).foldl compressBlock sha256Init

def wordHex (w : Nat) : List Char :=
  (List.range 8).map (fun i => Nat.digitChar ((w >>> (28 - 4 * i)) % 16))

/-- `hashlib.sha256(...).hexdigest()`: 64 lowercase hex characters. -/
def sha256Hex (msg : List Nat) : List Char :=
  wordHex (sha256St msg).a ++ wordHex (sha256St msg).b ++ wordHex (sha256St msg).c
    ++ wordHex (sha256St msg).d ++ wordHex (sha256St msg).e ++ wordHex (sha256St msg).f
    ++ wordHex (sha256St msg).g ++ wordHex (sha256St msg).h

/-- UTF-8 encoding of one character (`str.encode('utf-8')`). -/
def utf8Char (c : Char) : List Nat :=
  let n := c.toNat
  if n < 128 then [n]
  else if n < 2048 then [192 + n / 64, 128 + n % 64]
  else if n < 65536 then [224 + n / 4096, 128 + (n / 64) % 64, 128 + n % 64]
  else [240 + n / 262144, 128 + (n / 4096) % 64, 128 + (n / 64) % 64, 128 + n % 64]

def utf8Bytes (s : List Char) : List Nat := (s.map utf8Char).flatten

/-- `fb_scraper.py` 385–388:
`post_id = hashlib.sha256((clean_text[:150] + url).encode('utf-8')).hexdigest()[:20]`. -/
def computeId (cleanText url : List Char) : List Char :=
  (sha256Hex (utf8Bytes (cleanText.take 150 ++ url))).take 20

/-! ### A backtracking regular-expression engine

`fb_scraper.py` and `url_cleaner.py` clean text with `re.sub` / `re.search`
/ `re.match`.  The patterns used are transliterated below over a small
backtracking engine whose alternative ordering mirrors CPython's `re`
(leftmost match, first alternative, greedy/lazy repetition).  Caveats,
stated once here: character classes `\w`, `\d`, `\s` and case folding are
modelled over ASCII (the scraper's patterns are ASCII); `$` is modelled as
end of input (CPython also lets it match before a final newline); a
zero-width match is treated as no match during substitution scans (none of
the translated patterns can match the empty string). -/

inductive Rx where
  | eps
  | bos
  | eos
  | wb
  | cls (p : Char → Bool)
  | seq (a b : Rx)
  | alt (a b : Rx)
  | star (lz : Bool) (a : Rx)

def isWordOpt : Option Char → Bool
  | none => false
  | some c => c.isAlphanum || c == '_'

/-- All ways a repetition can stop, most-preferred first; the fuel is the
remaining length plus one and each step must consume input. -/
def starRun (lz : Bool)
    (mA : Option Char → List Char → List (Option Char × List Char)) :
    Nat → Option Char → List Char → List (Option Char × List Char)
  | 0, pv, r => [(pv, r)]
  | n + 1, pv, r =>
    let deeper := (mA pv r).flatMap (fun s =>
      if s.2.length < r.length then starRun lz mA n s.1 s.2 else [])
    if lz then (pv, r) :: deeper else deeper ++ [(pv, r)]

/-- All match ends of `rx` at the current position (previous character
`pv`, remaining input `r`), in backtracking preference order. -/
def rxRun : Rx → Option Char → List Char → List (Option Char × List Char)
  | .eps, pv, r => [(pv, r)]
  | .bos, pv, r => if pv = none then [(pv, r)] else []
  | .eos, pv, r => if r = [] then [(pv, r)] else []
  | .wb, pv, r => if isWordOpt pv != isWordOpt r.head? then [(pv, r)] else []
  | .cls p, _, r =>
    match r with
    | [] => []
    | c :: r2 => if p c then [(some c, r2)] else []
  | .seq a b, pv, r => (rxRun a pv r).flatMap (fun s => rxRun b s.1 s.2)
  | .alt a b, pv, r => rxRun a pv r ++ rxRun b pv r
  | .star lz a, pv, r => starRun lz (rxRun a) (r.length + 1) pv r

/-- `re.sub(rx, rp, ·)`: scan left to right, replace each leftmost
non-overlapping match. -/
def rsubA (rx : Rx) (rp : List Char) : Nat → Option Char → List Char →
    List Char
  | 0, _, r => r
  | n + 1, pv, r =>
    match r with
    | [] => []
    | c :: r2 =>
      match rxRun rx pv r with
      | s :: _ =>
        if s.2.length < r.length then rp ++ rsubA rx rp n s.1 s.2
        else c :: rsubA rx rp n (some c) r2
      | [] => c :: rsubA rx rp n (some c) r2

def rsub (rx : Rx) (rp : List Char) (s : List Char) : List Char :=
  rsubA rx rp (s.length + 1) none s

/-- `re.search(rx, ·).group()`: the text of the leftmost match. -/
def rfindA (rx : Rx) : Nat → Option Char → List Char → Option (List Char)
  | 0, _, _ => none
  | n + 1, pv, r =>
    match rxRun rx pv r with
    | s :: _ => some (r.take (r.length - s.2.length))
    | [] =>
      match r with
      | [] => none
      | c :: r2 => rfindA rx n (some c) r2

def rfind (rx : Rx) (s : List Char) : Option (List Char) :=
  rfindA rx (s.length + 1) none s

/-- Truthiness of `re.match(rx, ·)` (anchored at the start). -/
def rxAccepts (rx : Rx) (s : List Char) : Bool :=
  match rxRun rx none s with
  | [] => false
  | _ => true

def lit (s : String) : Rx :=
  s.data.foldr (fun c a => Rx.seq (Rx.cls (fun x => x == c)) a) Rx.eps

/-- Case-insensitive literal (`re.IGNORECASE`, ASCII folding). -/
def liti (s : String) : Rx :=
  s.data.foldr (fun c a =>
    Rx.seq (Rx.cls (fun x => x.toLower == c.toLower)) a) Rx.eps

def rxRep : Nat → Rx → Rx → Rx
  | 0, _, t => t
  | n + 1, r, t => Rx.seq r (rxRep n r t)

/-- `r{n,}`. -/
def atLeast (n : Nat) (r : Rx) : Rx := rxRep n r (Rx.star false r)

/-- `r+`. -/
def rplus (r : Rx) : Rx := Rx.seq r (Rx.star false r)

/-- `r?` (greedy). -/
def ropt (r : Rx) : Rx := Rx.alt r Rx.eps

def rxDigit : Rx := Rx.cls Char.isDigit
def rxSpace : Rx := Rx.cls isPyWs
def rxAlnum : Rx := Rx.cls Char.isAlphanum
def rxAlphaI : Rx := Rx.cls Char.isAlpha
def rxDot : Rx := Rx.cls (fun c => !(c == '\n'))
def rxNonSpace : Rx := Rx.cls (fun c => !isPyWs c)
def rxNotAmpSpace : Rx := Rx.cls (fun c => !(c == '&' || isPyWs c))

/-! ### `url_cleaner.py` — `clean_html_entities` -/

/-- `html.unescape`, restricted to the named entities `lt`, `gt`, `amp`,
`quot`, `apos`, `nbsp` (with semicolon) and numeric `&#n;` / `&#xh;`
references; other ampersands pass through unchanged. -/
def unescA : Nat → List Char → List Char
  | 0, s => s
  | _ + 1, [] => []
  | n + 1, c :: r =>
    if c = '&' then
      if isPrefOf "lt;".data r then '<' :: unescA n (r.drop 3)
      else if isPrefOf "gt;".data r then '>' :: unescA n (r.drop 3)
      else if isPrefOf "amp;".data r then '&' :: unescA n (r.drop 4)
      else if isPrefOf "quot;".data r then '"' :: unescA n (r.drop 5)
      else if isPrefOf "apos;".data r then '\'' :: unescA n (r.drop 5)
      else if isPrefOf "nbsp;".data r then '\xa0' :: unescA n (r.drop 5)
      else if isPrefOf "#x".data r ∨ isPrefOf "#X".data r then
        let ds := (r.drop 2).takeWhile (fun c => (hexVal c).isSome)
        let rest := (r.drop 2).drop ds.length
        if ds ≠ [] ∧ rest.take 1 = [';'] then
          let v := ds.foldl (fun a c => 16 * a + ((hexVal c).getD 0)) 0
          (if v.isValidChar then Char.ofNat v else '�') ::
            unescA n (rest.drop 1)
        else '&' :: unescA n r
      else if isPrefOf "#".data r then
        let ds := (r.drop 1).takeWhile Char.isDigit
        let rest := (r.drop 1).drop ds.length
        if ds ≠ [] ∧ rest.take 1 = [';'] then
          let v := decodeDec ds
          (if v.isValidChar then Char.ofNat v else '�') ::
            unescA n (rest.drop 1)
        else '&' :: unescA n r
      else '&' :: unescA n r
    else c :: unescA n r

def unescape (s : List Char) : List Char := unescA (s.length + 1) s

/-- The five tracking-leak patterns of `clean_html_entities` (second copy
of the file, which is the one Python keeps). -/
def cheRxs : List Rx :=
  [Rx.seq (lit "&__cft__[0]=") (Rx.star false rxNotAmpSpace),
   Rx.seq (lit "&__tn__=") (Rx.star false rxNotAmpSpace),
   Rx.seq (lit "&__xts__[0]=") (Rx.star false rxNotAmpSpace),
   Rx.seq (lit "http") (Rx.seq (ropt (lit "s")) (Rx.seq (lit "://")
     (Rx.seq (Rx.star false rxNonSpace)
       (Rx.seq (Rx.cls (fun c => c == '?' || c == '&'))
         (Rx.seq (lit "__cft__") (Rx.star false rxNonSpace)))))),
   Rx.seq (lit "http") (Rx.seq (ropt (lit "s")) (Rx.seq (lit "://")
     (Rx.seq (Rx.star false rxNonSpace)
       (Rx.seq (Rx.cls (fun c => c == '?' || c == '&'))
         (Rx.seq (lit "__tn__") (Rx.star false rxNonSpace))))))]

/-- `url_cleaner.clean_html_entities`. -/
def cleanHtmlEntities (t : List Char) : List Char :=
  if t = [] then t
  else
    let t1 := cheRxs.foldl (fun t rx => rsub rx [] t) (unescape t)
    pstrip (rsub (rplus rxSpace) [' '] t1)

/-! ### `fb_scraper.py` — `_clean_post_text` -/

def translationRxs : List Rx :=
  [Rx.seq (ropt (Rx.cls (fun c => c == '·'))) (Rx.seq (Rx.star false rxSpace)
     (Rx.seq (liti "See original") (Rx.seq (Rx.star false rxSpace)
       (ropt (Rx.cls (fun c => c == '·')))))),
   Rx.seq (ropt (Rx.cls (fun c => c == '·'))) (Rx.seq (Rx.star false rxSpace)
     (Rx.seq (liti "Rate this translation") (Rx.seq (Rx.star false rxSpace)
       (ropt (Rx.cls (fun c => c == '·')))))),
   Rx.seq (ropt (Rx.cls (fun c => c == '·'))) (Rx.seq (Rx.star false rxSpace)
     (Rx.seq (liti "Translated by") (Rx.seq (Rx.star false rxSpace)
       (ropt (Rx.cls (fun c => c == '·')))))),
   Rx.seq (ropt (Rx.cls (fun c => c == '·'))) (Rx.seq (Rx.star false rxSpace)
     (Rx.seq (liti "Translate") (Rx.seq (Rx.star false rxSpace)
       (ropt (Rx.cls (fun c => c == '·')))))),
   Rx.seq (ropt (Rx.cls (fun c => c == '·'))) (Rx.seq (Rx.star false rxSpace)
     (Rx.seq (liti "Auto-translated") (Rx.seq (Rx.star false rxSpace)
       (ropt (Rx.cls (fun c => c == '·')))))),
   Rx.seq (liti "Automatically translated") (Rx.seq (Rx.star true rxDot)
     Rx.eos)]

/-- `(?:\s[a-zA-Z0-9]\s){6,}`. -/
def obf1Rx : Rx := atLeast 6 (Rx.seq rxSpace (Rx.seq rxAlnum rxSpace))

/-- `(?:^|\s)([a-zA-Z0-9]\s){6,}`. -/
def obf2Rx : Rx :=
  Rx.seq (Rx.alt Rx.bos rxSpace) (atLeast 6 (Rx.seq rxAlnum rxSpace))

/-- `\b[0-9]\s+[a-z]\s+[0-9]\s+[a-z]\s+[0-9]\b` (IGNORECASE). -/
def obf3Rx : Rx :=
  Rx.seq Rx.wb (Rx.seq rxDigit (Rx.seq (rplus rxSpace) (Rx.seq rxAlphaI
    (Rx.seq (rplus rxSpace) (Rx.seq rxDigit (Rx.seq (rplus rxSpace)
      (Rx.seq rxAlphaI (Rx.seq (rplus rxSpace) (Rx.seq rxDigit Rx.wb)))))))))

/-- `\b[a-z]\s[0-9]\s[a-z]\s[0-9]\s[a-z]\b` (IGNORECASE). -/
def obf4Rx : Rx :=
  Rx.seq Rx.wb (Rx.seq rxAlphaI (Rx.seq rxSpace (Rx.seq rxDigit
    (Rx.seq rxSpace (Rx.seq rxAlphaI (Rx.seq rxSpace (Rx.seq rxDigit
      (Rx.seq rxSpace (Rx.seq rxAlphaI Rx.wb)))))))))

def noiseRxs : List Rx :=
  [Rx.seq (liti "Find friends") (Rx.seq (Rx.star true rxDot)
     (Rx.seq (liti "notification") (ropt (liti "s")))),
   Rx.seq (liti "Number of unread") (Rx.seq (Rx.star true rxDot)
     (Rx.seq (liti "notification") (ropt (liti "s")))),
   liti "Search results",
   Rx.seq (liti "Filters") (Rx.seq (rplus rxSpace) (Rx.seq (liti "All")
     (Rx.seq (rplus rxSpace) (Rx.seq (liti "People") (Rx.seq (rplus rxSpace)
       (Rx.seq (liti "Reels") (Rx.seq (rplus rxSpace)
         (Rx.seq (liti "Marketplace") (Rx.seq (rplus rxSpace)
           (Rx.seq (liti "Pages") (Rx.seq (rplus rxSpace)
             (Rx.seq (liti "Groups") (Rx.seq (rplus rxSpace)
               (liti "Events")))))))))))))),
   atLeast 3 (Rx.seq (liti "Facebook") (Rx.star false rxSpace)),
   liti "Mark as read",
   Rx.seq (liti "Earlier") (Rx.seq (rplus rxSpace) (liti "Unread")),
   Rx.seq (liti "Welcome to Facebook!") (Rx.seq (Rx.star true rxDot)
     (liti "friends.")),
   liti "You might like",
   Rx.seq (liti "See all") (Rx.seq (rplus rxSpace) (liti "Unread")),
   Rx.seq (liti "All") (Rx.seq (rplus rxSpace) (Rx.seq (liti "Unread")
     (Rx.seq (rplus rxSpace) (liti "New")))),
   liti "Tap here to find people",
   liti "Verified account",
   liti "Click to expand",
   Rx.seq (rplus rxDigit) (Rx.seq (lit ":") (Rx.seq (rplus rxDigit)
     (Rx.seq (Rx.star false rxSpace) (Rx.seq (lit "/")
       (Rx.seq (Rx.star false rxSpace) (Rx.seq (rplus rxDigit)
         (Rx.seq (lit ":") (rplus rxDigit)))))))),
   liti "Shared with Public",
   liti "· Follow",
   Rx.seq (liti "Notifications") (rplus rxSpace),
   Rx.seq (liti "All reactions:") (Rx.seq (Rx.star false rxSpace)
     (rplus rxDigit)),
   Rx.seq (rplus rxDigit) (Rx.seq (rplus rxSpace) (Rx.seq (liti "comment")
     (Rx.seq (ropt (liti "s")) (Rx.seq (rplus rxSpace)
       (Rx.seq (rplus rxDigit) (Rx.seq (rplus rxSpace)
         (Rx.seq (liti "share") (ropt (liti "s"))))))))),
   Rx.seq (liti "Like") (Rx.seq (rplus rxSpace) (Rx.seq (liti "Comment")
     (Rx.seq (rplus rxSpace) (liti "Shar")))),
   Rx.seq Rx.wb (Rx.seq (liti "Sophie") Rx.wb),
   Rx.seq Rx.wb (Rx.seq (liti "Sophie Burns") Rx.wb),
   Rx.seq (liti "Turn on") (Rx.seq (rplus rxSpace) (Rx.seq (liti "Not now")
     (Rx.seq (rplus rxSpace) (Rx.seq (liti "New") (Rx.seq (rplus rxSpace)
       (liti "On Facebook")))))),
   Rx.seq (liti "All Unread") (Rx.seq (Rx.star true rxDot)
     (Rx.seq (liti "Turn on") (Rx.seq (Rx.star true rxDot)
       (liti "Not now")))),
   liti "See more",
   Rx.seq (liti "Fewer bubbles") (Rx.seq (Rx.star true rxDot) (liti "table")),
   lit "...·"]

/-- `^[A-Z][a-z]+(?:\s+[A-Z][a-z]+){0,2}\s*·\s*`. -/
def authorLeadRx : Rx :=
  let word := Rx.seq (Rx.cls Char.isUpper) (rplus (Rx.cls Char.isLower))
  let spWord := Rx.seq (rplus rxSpace) word
  Rx.seq Rx.bos (Rx.seq word (Rx.seq (ropt (Rx.seq spWord (ropt spWord)))
    (Rx.seq (Rx.star false rxSpace) (Rx.seq (Rx.cls (fun c => c == '·'))
      (Rx.star false rxSpace)))))

/-- `^\d+[hdmw]\s*·\s*`. -/
def tsLeadRx : Rx :=
  Rx.seq Rx.bos (Rx.seq (rplus rxDigit)
    (Rx.seq (Rx.cls (fun c => c == 'h' || c == 'd' || c == 'm' || c == 'w'))
      (Rx.seq (Rx.star false rxSpace) (Rx.seq (Rx.cls (fun c => c == '·'))
        (Rx.star false rxSpace)))))

/-- `\.{3,}`. -/
def dotsRx : Rx := atLeast 3 (Rx.cls (fun c => c == '.'))

/-- `\b[a-zA-Z0-9]{6,}\.com\b`. -/
def gibberishRx : Rx :=
  Rx.seq Rx.wb (Rx.seq (atLeast 6 rxAlnum) (Rx.seq (lit ".com") Rx.wb))

/-- `^·\s*`. -/
def leadSepRx : Rx :=
  Rx.seq Rx.bos (Rx.seq (Rx.cls (fun c => c == '·')) (Rx.star false rxSpace))

/-- `\s*·$`. -/
def trailSepRx : Rx :=
  Rx.seq (Rx.star false rxSpace) (Rx.seq (Rx.cls (fun c => c == '·')) Rx.eos)

/-- `fb_scraper._clean_post_text`. -/
def cleanPostText (t0 : List Char) : List Char :=
  let t1 := translationRxs.foldl (fun t rx => rsub rx [] t)
    (cleanHtmlEntities t0)
  let t2 := rsub obf1Rx [' '] t1
  let t3 := rsub obf2Rx [' '] t2
  let t4 := rsub obf3Rx [] t3
  let t5 := rsub obf4Rx [] t4
  let t6 := noiseRxs.foldl (fun t rx => rsub rx [] t) t5
  let t7 := pstrip (rsub (rplus rxSpace) [' '] t6)
  let t8 := rsub authorLeadRx [] t7
  let t9 := rsub tsLeadRx [] t8
  let t10 := rsub dotsRx ("...".data) t9
  let t11 := rsub gibberishRx [] t10
  let t12 := pstrip (rsub (rplus rxSpace) [' '] t11)
  let t13 := rsub leadSepRx [] t12
  let t14 := rsub trailSepRx [] t13
  pstrip t14

/-! ### `fb_scraper.py` — author, timestamp, and the extraction loop

BeautifulSoup's HTML parsing and DOM traversal are not modelled: a post
container is abstracted to the data the code reads off it — its joined
text (`get_text(separator=' ', strip=True)`) and the texts of its
`h3`/`h4` headers — and `_find_post_container` to the optional container
attached to each raw link.  The anchor-collection loop (step 2) and the
content loop (step 3) are translated faithfully over these inputs.
`seen_texts` stores Python's randomized `hash(clean_text[:200])`; it is
modelled as the 200-character prefix itself (hash equality identified with
prefix equality). -/

structure Container where
  rawText : List Char
  headers : List (List Char)
deriving DecidableEq, Repr

structure RawLink where
  href : List Char
  text : List Char
  container : Option Container
deriving DecidableEq, Repr

structure PostAnchor where
  url : List Char
  container : Option Container
  timestampHint : Option (List Char)
deriving DecidableEq, Repr

structure SPost where
  id : List Char
  text : List Char
  keyword : List Char
  author : List Char
  postUrl : List Char
  timestamp : Option (List Char)
deriving DecidableEq, Repr

/-- `config.MAX_POSTS_PER_PAGE`. -/
def maxPostsPerPage : Nat := 15

def uiNoise : List (List Char) :=
  ["notification", "sophie", "filters", "all", "see", "new", "earlier",
   "like", "share", "comment", "sponsored", "search"].map String.data

/-- `h_text.split('·')[0]`. -/
def takeBeforeMiddot (s : List Char) : List Char :=
  s.takeWhile (fun c => !(c == '·'))

/-- `author.rstrip('.')`. -/
def rstripDots (s : List Char) : List Char :=
  (s.reverse.dropWhile (fun c => c == '.')).reverse

/-- The status patterns stripped from a candidate author (IGNORECASE,
anchored at the end). -/
def statusRxs : List Rx :=
  [Rx.seq (liti "feeling ") (Rx.seq (rplus (Rx.cls (fun c =>
     c.isAlphanum || c == '_'))) (Rx.seq (ropt (Rx.cls (fun c => c == '.')))
     Rx.eos)),
   Rx.seq (liti "is at ") (Rx.seq (Rx.star false rxDot) Rx.eos),
   Rx.seq (liti "is with ") (Rx.seq (Rx.star false rxDot) Rx.eos),
   Rx.seq (liti "was live") (Rx.seq (ropt (Rx.cls (fun c => c == '.')))
     Rx.eos),
   Rx.seq (liti "added ") (Rx.seq (rplus rxDigit) (Rx.seq (liti " ")
     (Rx.seq (Rx.star false rxDot) Rx.eos))),
   Rx.seq (liti "shared a ") (Rx.seq (Rx.star false rxDot) Rx.eos),
   Rx.seq (liti "Verified account") Rx.eos,
   Rx.seq (liti "Verified") Rx.eos,
   Rx.seq (liti "Follow") Rx.eos]

/-- `fb_scraper._extract_author` over the container's `h3`/`h4` texts. -/
def extractAuthorGo : List (List Char) → Option (List Char)
  | [] => none
  | h :: rest =>
    if h = [] ∨ h.length < 2 then extractAuthorGo rest
    else if uiNoise.any (fun n => containsSub n (lowerL h)) then
      extractAuthorGo rest
    else
      let a0 := pstrip (takeBeforeMiddot h)
      let a1 := statusRxs.foldl (fun a rx => pstrip (rsub rx [] a)) a0
      let a2 := rstripDots a1
      if 2 ≤ a2.length ∧ a2.length ≤ 60 then some (cleanHtmlEntities a2)
      else extractAuthorGo rest

def extractAuthor (c : Container) : Option (List Char) :=
  extractAuthorGo c.headers

/-- The timestamp search patterns (IGNORECASE). -/
def tsRxs : List Rx :=
  [Rx.seq Rx.wb (Rx.seq (rplus rxDigit) (Rx.seq (Rx.cls (fun c =>
     c.toLower == 'h' || c.toLower == 'd' || c.toLower == 'm' ||
     c.toLower == 'w')) Rx.wb)),
   Rx.seq Rx.wb (Rx.seq (liti "Just now") Rx.wb),
   Rx.seq Rx.wb (Rx.seq (liti "Yesterday") Rx.wb),
   Rx.seq Rx.wb (Rx.seq (rplus rxDigit) (liti " hour")),
   Rx.seq Rx.wb (Rx.seq (rplus rxDigit) (liti " min")),
   Rx.seq Rx.wb (Rx.seq (rplus rxDigit) (liti " day")),
   Rx.seq Rx.wb (Rx.seq (rplus rxDigit) (liti " week"))]

def firstTsHit : List Rx → List Char → Option (List Char)
  | [], _ => none
  | rx :: rest, t =>
    match rfind rx t with
    | some m => some m
    | none => firstTsHit rest t

/-- `fb_scraper._extract_timestamp`. -/
def extractTimestamp (c : Container) : Option (List Char) :=
  firstTsHit tsRxs c.rawText

def hrefPatterns : List (List Char) :=
  ["/posts/", "/videos/", "/photos/", "/photo/", "story_fbid=",
   "/permalink/", "fbid="].map String.data

/-- `^\d+[hdmw]` (for `re.match` on the anchor text). -/
def anchorTsRx : Rx :=
  Rx.seq (rplus rxDigit)
    (Rx.cls (fun c => c == 'h' || c == 'd' || c == 'm' || c == 'w'))

/-- Step 2 of `_extract_posts_by_url_boundaries`: turn one raw link into a
post anchor, or drop it. -/
def buildAnchor (l : RawLink) : Option PostAnchor :=
  if hrefPatterns.any (fun p => containsSub p l.href) then
    if containsSub ("/search/".data) l.href ||
        containsSub ("/hashtag/".data) l.href then none
    else
      let fullUrl := if isPrefOf ("http".data) l.href then l.href
        else ("https://www.facebook.com".data) ++ l.href
      some ⟨cleanFacebookUrl fullUrl, l.container,
        if rxAccepts anchorTsRx l.text then some l.text else none⟩
  else none

/-- Step 3 of `_extract_posts_by_url_boundaries`: the content loop. -/
def extractGo (kw : List Char) : List PostAnchor → List (List Char) →
    List (List Char) → List SPost → List SPost
  | [], _, _, posts => posts
  | a :: rest, seenUrls, seenTexts, posts =>
    if maxPostsPerPage ≤ posts.length then posts
    else if a.url ∈ seenUrls then extractGo kw rest seenUrls seenTexts posts
    else
      match a.container with
      | none => extractGo kw rest seenUrls seenTexts posts
      | some cont =>
        let cleanText := cleanPostText cont.rawText
        if cleanText.length < 50 ∨
            ¬(containsSub (lowerL kw) (lowerL cleanText) = true) then
          extractGo kw rest seenUrls seenTexts posts
        else
          let th := cleanText.take 200
          if th ∈ seenTexts then extractGo kw rest seenUrls seenTexts posts
          else
            let author := match extractAuthor cont with
              | some a2 => if a2 = [] then "Unknown".data else a2
              | none => "Unknown".data
            let ts := match a.timestampHint with
              | some t => if t = [] then extractTimestamp cont else some t
              | none => extractTimestamp cont
            extractGo kw rest (a.url :: seenUrls) (th :: seenTexts)
              (posts ++ [⟨computeId cleanText a.url, cleanText.take 1000, kw,
                author, a.url, ts⟩])

/-- `fb_scraper._extract_posts_by_url_boundaries`. -/
def extractPostsByUrlBoundaries (kw : List Char) (links : List RawLink) :
    List SPost :=
  extractGo kw (links.filterMap buildAnchor) [] [] []

/-! ## Supporting lemmas -/

theorem isSeen_map_refresh (db : SeenData) (pid : String) (now : Nat) (x : String) :
    isSeen (db.map (fun e => if e.1 == pid then (pid, now) else e)) x = isSeen db x := by
  induction db with
  | nil => rfl
  | cons e r ih =>
    have hfst : (if e.1 == pid then (pid, now) else e).1 = e.1 := by
      by_cases h : e.1 == pid
      · have he : e.1 = pid := beq_iff_eq.mp h
        simp [h, he]
      · simp [h]
    show ((if e.1 == pid then (pid, now) else e).1 == x
        || isSeen (r.map (fun e => if e.1 == pid then (pid, now) else e)) x)
        = (e.1 == x || isSeen r x)
    rw [hfst, ih]

theorem isSeen_markSeen (db : SeenData) (pid : String) (now : Nat) (x : String) :
    isSeen (markSeen db pid now) x = (isSeen db x || pid == x) := by
  unfold markSeen
  by_cases h : db.any (fun e => e.1 == pid)
  · rw [if_pos h, isSeen_map_refresh]
    by_cases hpx : pid == x
    · have hx : pid = x := beq_iff_eq.mp hpx
      have : isSeen db x = true := by
        subst hx; exact h
      simp [this, hpx]
    · simp [hpx]
  · rw [if_neg h]
    simp [isSeen, List.any_append]

theorem isSeen_markSeen_mono (db : SeenData) (pid : String) (now : Nat) (x : String)
    (h : isSeen db x = true) : isSeen (markSeen db pid now) x = true := by
  rw [isSeen_markSeen, h]; rfl

theorem digitVal_digitChar (m : Nat) (hm : m < 10) : digitVal (Nat.digitChar m) = m := by
  interval_cases m <;> rfl

theorem digitChar_ne_colon_dash (m : Nat) (hm : m < 10) :
    Nat.digitChar m ≠ ':' ∧ Nat.digitChar m ≠ '-' := by
  interval_cases m <;> exact ⟨by decide, by decide⟩

theorem decodeDec_append_digit (xs : List Char) (c : Char) :
    decodeDec (xs ++ [c]) = 10 * decodeDec xs + digitVal c := by
  simp [decodeDec, List.foldl_append]

theorem decode_natReprAux : ∀ (fuel n : Nat), n < fuel → decodeDec (natReprAux fuel n) = n := by
  intro fuel
  induction fuel with
  | zero => intro n hn; omega
  | succ f ih =>
    intro n hn
    unfold natReprAux
    by_cases h : n < 10
    · rw [if_pos h]
      show decodeDec [Nat.digitChar n] = n
      have h1 : decodeDec [Nat.digitChar n] = digitVal (Nat.digitChar n) := by
        simp [decodeDec]
      rw [h1, digitVal_digitChar n h]
    · rw [if_neg h, decodeDec_append_digit]
      have hdiv : n / 10 < f := by
        have h1 : n / 10 < n := Nat.div_lt_self (by omega) (by omega)
        omega
      rw [ih (n / 10) hdiv, digitVal_digitChar (n % 10) (Nat.mod_lt _ (by omega))]
      omega

theorem decode_natReprL (n : Nat) : decodeDec (natReprL n) = n :=
  decode_natReprAux (n + 1) n (Nat.lt_succ_self n)

theorem natReprAux_ne_colon_dash : ∀ (fuel n : Nat), ∀ c ∈ natReprAux fuel n,
    c ≠ ':' ∧ c ≠ '-' := by
  intro fuel
  induction fuel with
  | zero => intro n c hc; simp [natReprAux] at hc
  | succ f ih =>
    intro n c hc
    unfold natReprAux at hc
    by_cases h : n < 10
    · rw [if_pos h] at hc
      simp at hc
      subst hc
      exact digitChar_ne_colon_dash n h
    · rw [if_neg h] at hc
      rcases List.mem_append.mp hc with h1 | h2
      · exact ih _ c h1
      · simp at h2
        subst h2
        exact digitChar_ne_colon_dash _ (Nat.mod_lt _ (by omega))

theorem natReprL_inj (n m : Nat) (h : natReprL n = natReprL m) : n = m := by
  have h1 := decode_natReprL n
  rw [h, decode_natReprL] at h1
  omega

theorem intReprL_no_colon (g : Int) : ∀ c ∈ intReprL g, c ≠ ':' := by
  cases g with
  | ofNat n => exact fun c hc => (natReprAux_ne_colon_dash _ _ c hc).1
  | negSucc n =>
    intro c hc
    rcases List.mem_cons.mp hc with h1 | h2
    · subst h1; decide
    · exact (natReprAux_ne_colon_dash _ _ c h2).1

theorem intReprL_inj (g g' : Int) (h : intReprL g = intReprL g') : g = g' := by
  cases g with
  | ofNat n =>
    cases g' with
    | ofNat m =>
      have h' : natReprL n = natReprL m := h
      rw [natReprL_inj n m h']
    | negSucc m =>
      exfalso
      have h' : natReprL n = '-' :: natReprL (m + 1) := h
      have hm : '-' ∈ natReprL n := by
        rw [h']
        exact List.mem_cons_self _ _
      exact (natReprAux_ne_colon_dash _ _ '-' hm).2 rfl
  | negSucc n =>
    cases g' with
    | ofNat m =>
      exfalso
      have h' : '-' :: natReprL (n + 1) = natReprL m := h
      have hm : '-' ∈ natReprL m := by
        rw [← h']
        exact List.mem_cons_self _ _
      exact (natReprAux_ne_colon_dash _ _ '-' hm).2 rfl
    | negSucc m =>
      have h' : '-' :: natReprL (n + 1) = '-' :: natReprL (m + 1) := h
      have h2 : natReprL (n + 1) = natReprL (m + 1) := by
        injection h'
      have h3 := natReprL_inj _ _ h2
      have h4 : n = m := by omega
      subst h4
      rfl

theorem append_colon_cancel : ∀ (a b t : List Char),
    (∀ c ∈ a, c ≠ ':') → (∀ c ∈ b, c ≠ ':') → a ++ ':' :: t = b ++ ':' :: t → a = b := by
  intro a
  induction a with
  | nil =>
    intro b t _ hb h
    cases b with
    | nil => rfl
    | cons y ys =>
      exfalso
      simp only [List.nil_append, List.cons_append] at h
      injection h with h1 _
      exact hb y (List.mem_cons_self _ _) h1.symm
  | cons x xs ih =>
    intro b t ha hb h
    cases b with
    | nil =>
      exfalso
      simp only [List.nil_append, List.cons_append] at h
      injection h with h1 _
      exact ha x (List.mem_cons_self _ _) h1
    | cons y ys =>
      simp only [List.cons_append] at h
      injection h with h1 h2
      subst h1
      rw [ih ys t (fun c hc => ha c (List.mem_cons_of_mem _ hc))
        (fun c hc => hb c (List.mem_cons_of_mem _ hc)) h2]

theorem initKey_group_inj (g g' : Int) (kw : String)
    (h : initKey g kw = initKey g' kw) : g = g' := by
  have hd : intReprL g ++ ':' :: kw.data = intReprL g' ++ ':' :: kw.data :=
    congrArg String.data h
  exact intReprL_inj _ _
    (append_colon_cancel _ _ _ (intReprL_no_colon g) (intReprL_no_colon g') hd)

theorem mem_insertOnce (l : List String) (s y : String) :
    y ∈ insertOnce l s ↔ (y ∈ l ∨ y = s) := by
  unfold insertOnce
  by_cases h : s ∈ l
  · rw [if_pos h]
    constructor
    · exact Or.inl
    · rintro (h1 | rfl)
      · exact h1
      · exact h
  · rw [if_neg h]
    simp

theorem bool_eq_false {b : Bool} (h : ¬ b = true) : b = false := by
  cases b
  · rfl
  · exact absurd rfl h

theorem isSeen_markSeen_self (db : SeenData) (pid : String) (now : Nat) :
    isSeen (markSeen db pid now) pid = true := by
  rw [isSeen_markSeen]
  simp

theorem pgState_init (st : MonState) (g : Int) :
    (pgState st g).initializedKeywords = st.initializedKeywords := rfl

theorem pgState_seen (st : MonState) (g : Int) : (pgState st g).seenDb = st.seenDb := rfl

theorem isFirstTime_false_iff (init : List String) (g : Int) (kw : String) :
    isFirstTime init g kw = false ↔ initKey g kw ∈ init := by
  simp [isFirstTime]

theorem isFirstTime_true_iff (init : List String) (g : Int) (kw : String) :
    isFirstTime init g kw = true ↔ initKey g kw ∉ init := by
  simp [isFirstTime]

theorem deltaStep_skip (deliver : Int → Post → Bool) (now : Nat) (g : Int)
    (acc : MonState × List DeliveryEvent) (p : Post)
    (hc : (p.id == "" || isSeen acc.1.seenDb p.id) = true) :
    deltaStep deliver now g acc p = acc := by
  unfold deltaStep
  rw [hc]
  rfl

theorem deltaStep_send (deliver : Int → Post → Bool) (now : Nat) (g : Int)
    (acc : MonState × List DeliveryEvent) (p : Post)
    (hc : (p.id == "" || isSeen acc.1.seenDb p.id) = false) :
    deltaStep deliver now g acc p =
      ({ acc.1 with
          seenDb := markSeen acc.1.seenDb p.id now
          processedItems := addProcessed acc.1.processedItems g p.id },
        acc.2 ++ [⟨g, p.id, deliver g p⟩]) := by
  unfold deltaStep
  rw [hc]
  rfl

theorem backfillStep_skip (deliver : Int → Post → Bool) (now : Nat) (g : Int)
    (acc : MonState × List DeliveryEvent) (p : Post) (hc : (p.id == "") = true) :
    backfillStep deliver now g acc p = acc := by
  unfold backfillStep
  rw [hc]
  rfl

theorem backfillStep_send (deliver : Int → Post → Bool) (now : Nat) (g : Int)
    (acc : MonState × List DeliveryEvent) (p : Post) (hc : (p.id == "") = false) :
    backfillStep deliver now g acc p =
      ({ acc.1 with
          seenDb := markSeen acc.1.seenDb p.id now
          processedItems := addProcessed acc.1.processedItems g p.id },
        acc.2 ++ [⟨g, p.id, deliver g p⟩]) := by
  unfold backfillStep
  rw [hc]
  rfl

theorem deltaFold_seen_mono (deliver : Int → Post → Bool) (now : Nat) (g : Int) :
    ∀ (posts : List Post) (acc : MonState × List DeliveryEvent) (x : String),
      isSeen acc.1.seenDb x = true →
      isSeen (posts.foldl (deltaStep deliver now g) acc).1.seenDb x = true := by
  intro posts
  induction posts with
  | nil => intro acc x h; exact h
  | cons p rest ih =>
    intro acc x h
    rw [List.foldl_cons]
    apply ih
    by_cases hc : (p.id == "" || isSeen acc.1.seenDb p.id) = true
    · rw [deltaStep_skip deliver now g acc p hc]; exact h
    · rw [deltaStep_send deliver now g acc p (bool_eq_false hc)]
      exact isSeen_markSeen_mono _ _ _ _ h

theorem deltaFold_init_eq (deliver : Int → Post → Bool) (now : Nat) (g : Int) :
    ∀ (posts : List Post) (acc : MonState × List DeliveryEvent),
      (posts.foldl (deltaStep deliver now g) acc).1.initializedKeywords
        = acc.1.initializedKeywords := by
  intro posts
  induction posts with
  | nil => intro acc; rfl
  | cons p rest ih =>
    intro acc
    rw [List.foldl_cons]
    by_cases hc : (p.id == "" || isSeen acc.1.seenDb p.id) = true
    · rw [deltaStep_skip deliver now g acc p hc, ih]
    · rw [deltaStep_send deliver now g acc p (bool_eq_false hc), ih]

theorem deltaFold_events_mono (deliver : Int → Post → Bool) (now : Nat) (g : Int) :
    ∀ (posts : List Post) (acc : MonState × List DeliveryEvent) (e : DeliveryEvent),
      e ∈ acc.2 → e ∈ (posts.foldl (deltaStep deliver now g) acc).2 := by
  intro posts
  induction posts with
  | nil => intro acc e h; exact h
  | cons p rest ih =>
    intro acc e h
    rw [List.foldl_cons]
    by_cases hc : (p.id == "" || isSeen acc.1.seenDb p.id) = true
    · rw [deltaStep_skip deliver now g acc p hc]; exact ih acc e h
    · rw [deltaStep_send deliver now g acc p (bool_eq_false hc)]
      exact ih _ e (List.mem_append_left _ h)

theorem deltaFold_no_new_seen (deliver : Int → Post → Bool) (now : Nat) (g : Int) :
    ∀ (posts : List Post) (acc : MonState × List DeliveryEvent) (x : String) (ok : Bool),
      (x = "" ∨ isSeen acc.1.seenDb x = true) →
      (⟨g, x, ok⟩ : DeliveryEvent) ∈ (posts.foldl (deltaStep deliver now g) acc).2 →
      (⟨g, x, ok⟩ : DeliveryEvent) ∈ acc.2 := by
  intro posts
  induction posts with
  | nil => intro acc x ok _ h; exact h
  | cons p rest ih =>
    intro acc x ok hx hev
    rw [List.foldl_cons] at hev
    by_cases hc : (p.id == "" || isSeen acc.1.seenDb p.id) = true
    · rw [deltaStep_skip deliver now g acc p hc] at hev
      exact ih acc x ok hx hev
    · have hc' := bool_eq_false hc
      rw [deltaStep_send deliver now g acc p hc'] at hev
      have hcf : (p.id == "") = false ∧ isSeen acc.1.seenDb p.id = false := by
        constructor
        · cases hpe : (p.id == "") <;> simp [hpe] at hc' ⊢
        · cases hps : isSeen acc.1.seenDb p.id <;> simp [hps] at hc' ⊢
      have hxid : x ≠ p.id := by
        intro he
        rcases hx with h1 | h1
        · rw [← he] at hcf
          rw [h1] at hcf
          simp at hcf
        · rw [he] at h1
          rw [h1] at hcf
          simp at hcf
      have hx' : x = "" ∨ isSeen (markSeen acc.1.seenDb p.id now) x = true := by
        rcases hx with h1 | h1
        · exact Or.inl h1
        · exact Or.inr (isSeen_markSeen_mono _ _ _ _ h1)
      have hmem := ih _ x ok hx' hev
      rcases List.mem_append.mp hmem with h1 | h1
      · exact h1
      · exfalso
        have h2 := List.mem_singleton.mp h1
        exact hxid (congrArg DeliveryEvent.postId h2)

theorem deltaFold_event_origin (deliver : Int → Post → Bool) (now : Nat) (g : Int) :
    ∀ (posts : List Post) (acc : MonState × List DeliveryEvent) (e : DeliveryEvent),
      e ∈ (posts.foldl (deltaStep deliver now g) acc).2 →
      e ∈ acc.2 ∨ (e.group = g ∧ e.postId ≠ "" ∧ isSeen acc.1.seenDb e.postId = false) := by
  intro posts
  induction posts with
  | nil => intro acc e h; exact Or.inl h
  | cons p rest ih =>
    intro acc e hev
    rw [List.foldl_cons] at hev
    by_cases hc : (p.id == "" || isSeen acc.1.seenDb p.id) = true
    · rw [deltaStep_skip deliver now g acc p hc] at hev
      exact ih acc e hev
    · have hc' := bool_eq_false hc
      rw [deltaStep_send deliver now g acc p hc'] at hev
      have hcf : (p.id == "") = false ∧ isSeen acc.1.seenDb p.id = false := by
        constructor
        · cases hpe : (p.id == "") <;> simp [hpe] at hc' ⊢
        · cases hps : isSeen acc.1.seenDb p.id <;> simp [hps] at hc' ⊢
      rcases ih _ e hev with h1 | h1
      · rcases List.mem_append.mp h1 with h2 | h2
        · exact Or.inl h2
        · have h3 := List.mem_singleton.mp h2
          subst h3
          refine Or.inr ⟨rfl, ?_, hcf.2⟩
          intro hne
          have hne' : p.id = "" := hne
          rw [hne'] at hcf
          simp at hcf
      · refine Or.inr ⟨h1.1, h1.2.1, ?_⟩
        by_cases hs : isSeen acc.1.seenDb e.postId = true
        · exfalso
          have := isSeen_markSeen_mono acc.1.seenDb p.id now e.postId hs
          rw [h1.2.2] at this
          exact Bool.false_ne_true this
        · exact bool_eq_false hs

theorem deltaFold_events_seen (deliver : Int → Post → Bool) (now : Nat) (g : Int) :
    ∀ (posts : List Post) (acc : MonState × List DeliveryEvent),
      (∀ e ∈ acc.2, isSeen acc.1.seenDb e.postId = true) →
      ∀ e ∈ (posts.foldl (deltaStep deliver now g) acc).2,
        isSeen (posts.foldl (deltaStep deliver now g) acc).1.seenDb e.postId = true := by
  intro posts
  induction posts with
  | nil => intro acc hinv e he; exact hinv e he
  | cons p rest ih =>
    intro acc hinv e he
    rw [List.foldl_cons] at he ⊢
    by_cases hc : (p.id == "" || isSeen acc.1.seenDb p.id) = true
    · rw [deltaStep_skip deliver now g acc p hc] at he ⊢
      exact ih acc hinv e he
    · rw [deltaStep_send deliver now g acc p (bool_eq_false hc)] at he ⊢
      refine ih _ ?_ e he
      intro e' he'
      rcases List.mem_append.mp he' with h1 | h1
      · exact isSeen_markSeen_mono _ _ _ _ (hinv e' h1)
      · have h2 := List.mem_singleton.mp h1
        subst h2
        exact isSeen_markSeen_self _ _ _

theorem backfillFold_events (deliver : Int → Post → Bool) (now : Nat) (g : Int) :
    ∀ (l : List Post) (acc : MonState × List DeliveryEvent),
      (l.foldl (backfillStep deliver now g) acc).2
        = acc.2 ++ l.filterMap
            (fun p => if p.id == "" then none else some ⟨g, p.id, deliver g p⟩) := by
  intro l
  induction l with
  | nil => intro acc; simp
  | cons p rest ih =>
    intro acc
    rw [List.foldl_cons]
    by_cases hc : (p.id == "") = true
    · rw [backfillStep_skip deliver now g acc p hc, ih]
      simp [List.filterMap_cons, beq_iff_eq.mp hc]
    · have hc' := bool_eq_false hc
      have hne : ¬ p.id = "" := by
        intro h
        rw [h] at hc'
        simp at hc'
      rw [backfillStep_send deliver now g acc p hc', ih]
      simp [List.filterMap_cons, hne]

theorem backfillFold_seen_mono (deliver : Int → Post → Bool) (now : Nat) (g : Int) :
    ∀ (l : List Post) (acc : MonState × List DeliveryEvent) (x : String),
      isSeen acc.1.seenDb x = true →
      isSeen (l.foldl (backfillStep deliver now g) acc).1.seenDb x = true := by
  intro l
  induction l with
  | nil => intro acc x h; exact h
  | cons p rest ih =>
    intro acc x h
    rw [List.foldl_cons]
    by_cases hc : (p.id == "") = true
    · rw [backfillStep_skip deliver now g acc p hc]; exact ih acc x h
    · rw [backfillStep_send deliver now g acc p (bool_eq_false hc)]
      exact ih _ x (isSeen_markSeen_mono _ _ _ _ h)

theorem backfillFold_init_eq (deliver : Int → Post → Bool) (now : Nat) (g : Int) :
    ∀ (l : List Post) (acc : MonState × List DeliveryEvent),
      (l.foldl (backfillStep deliver now g) acc).1.initializedKeywords
        = acc.1.initializedKeywords := by
  intro l
  induction l with
  | nil => intro acc; rfl
  | cons p rest ih =>
    intro acc
    rw [List.foldl_cons]
    by_cases hc : (p.id == "") = true
    · rw [backfillStep_skip deliver now g acc p hc, ih]
    · rw [backfillStep_send deliver now g acc p (bool_eq_false hc), ih]

theorem backfillFold_events_seen (deliver : Int → Post → Bool) (now : Nat) (g : Int) :
    ∀ (l : List Post) (acc : MonState × List DeliveryEvent),
      (∀ e ∈ acc.2, isSeen acc.1.seenDb e.postId = true) →
      ∀ e ∈ (l.foldl (backfillStep deliver now g) acc).2,
        isSeen (l.foldl (backfillStep deliver now g) acc).1.seenDb e.postId = true := by
  intro l
  induction l with
  | nil => intro acc hinv e he; exact hinv e he
  | cons p rest ih =>
    intro acc hinv e he
    rw [List.foldl_cons] at he ⊢
    by_cases hc : (p.id == "") = true
    · rw [backfillStep_skip deliver now g acc p hc] at he ⊢
      exact ih acc hinv e he
    · rw [backfillStep_send deliver now g acc p (bool_eq_false hc)] at he ⊢
      refine ih _ ?_ e he
      intro e' he'
      rcases List.mem_append.mp he' with h1 | h1
      · exact isSeen_markSeen_mono _ _ _ _ (hinv e' h1)
      · have h2 := List.mem_singleton.mp h1
        subst h2
        exact isSeen_markSeen_self _ _ _

theorem backfillRun_events (deliver : Int → Post → Bool) (now : Nat) (g : Int)
    (posts : List Post) (acc : MonState × List DeliveryEvent) :
    (backfillRun deliver now g posts acc).2
      = acc.2 ++ (posts.take initialBackfillCount).filterMap
          (fun p => if p.id == "" then none else some ⟨g, p.id, deliver g p⟩) :=
  backfillFold_events deliver now g (posts.take initialBackfillCount) (pgState acc.1 g, acc.2)

theorem backfillRun_init_eq (deliver : Int → Post → Bool) (now : Nat) (g : Int)
    (posts : List Post) (acc : MonState × List DeliveryEvent) :
    (backfillRun deliver now g posts acc).1.initializedKeywords
      = acc.1.initializedKeywords :=
  backfillFold_init_eq deliver now g (posts.take initialBackfillCount) (pgState acc.1 g, acc.2)

theorem backfillRun_seen_mono (deliver : Int → Post → Bool) (now : Nat) (g : Int)
    (posts : List Post) (acc : MonState × List DeliveryEvent) (x : String)
    (h : isSeen acc.1.seenDb x = true) :
    isSeen (backfillRun deliver now g posts acc).1.seenDb x = true :=
  backfillFold_seen_mono deliver now g (posts.take initialBackfillCount) (pgState acc.1 g, acc.2)
    x h

theorem backfillRun_events_seen (deliver : Int → Post → Bool) (now : Nat) (g : Int)
    (posts : List Post) (acc : MonState × List DeliveryEvent)
    (hinv : ∀ e ∈ acc.2, isSeen acc.1.seenDb e.postId = true) :
    ∀ e ∈ (backfillRun deliver now g posts acc).2,
      isSeen (backfillRun deliver now g posts acc).1.seenDb e.postId = true :=
  backfillFold_events_seen deliver now g (posts.take initialBackfillCount)
    (pgState acc.1 g, acc.2) hinv

theorem deltaRun_init_eq (deliver : Int → Post → Bool) (now : Nat) (g : Int)
    (posts : List Post) (acc : MonState × List DeliveryEvent) :
    (deltaRun deliver now g posts acc).1.initializedKeywords = acc.1.initializedKeywords :=
  deltaFold_init_eq deliver now g posts (pgState acc.1 g, acc.2)

theorem deltaRun_seen_mono (deliver : Int → Post → Bool) (now : Nat) (g : Int)
    (posts : List Post) (acc : MonState × List DeliveryEvent) (x : String)
    (h : isSeen acc.1.seenDb x = true) :
    isSeen (deltaRun deliver now g posts acc).1.seenDb x = true :=
  deltaFold_seen_mono deliver now g posts (pgState acc.1 g, acc.2) x h

theorem deltaRun_events_mono (deliver : Int → Post → Bool) (now : Nat) (g : Int)
    (posts : List Post) (acc : MonState × List DeliveryEvent) (e : DeliveryEvent)
    (h : e ∈ acc.2) : e ∈ (deltaRun deliver now g posts acc).2 :=
  deltaFold_events_mono deliver now g posts (pgState acc.1 g, acc.2) e h

theorem deltaRun_no_new_seen (deliver : Int → Post → Bool) (now : Nat) (g : Int)
    (posts : List Post) (acc : MonState × List DeliveryEvent) (x : String) (ok : Bool)
    (hx : x = "" ∨ isSeen acc.1.seenDb x = true)
    (hev : (⟨g, x, ok⟩ : DeliveryEvent) ∈ (deltaRun deliver now g posts acc).2) :
    (⟨g, x, ok⟩ : DeliveryEvent) ∈ acc.2 :=
  deltaFold_no_new_seen deliver now g posts (pgState acc.1 g, acc.2) x ok hx hev

theorem deltaRun_event_origin (deliver : Int → Post → Bool) (now : Nat) (g : Int)
    (posts : List Post) (acc : MonState × List DeliveryEvent) (e : DeliveryEvent)
    (hev : e ∈ (deltaRun deliver now g posts acc).2) :
    e ∈ acc.2 ∨ (e.group = g ∧ e.postId ≠ "" ∧ isSeen acc.1.seenDb e.postId = false) :=
  deltaFold_event_origin deliver now g posts (pgState acc.1 g, acc.2) e hev

theorem deltaRun_events_seen (deliver : Int → Post → Bool) (now : Nat) (g : Int)
    (posts : List Post) (acc : MonState × List DeliveryEvent)
    (hinv : ∀ e ∈ acc.2, isSeen acc.1.seenDb e.postId = true) :
    ∀ e ∈ (deltaRun deliver now g posts acc).2,
      isSeen (deltaRun deliver now g posts acc).1.seenDb e.postId = true :=
  deltaFold_events_seen deliver now g posts (pgState acc.1 g, acc.2) hinv

theorem processGroup_backfill_eq (deliver : Int → Post → Bool) (now : Nat) (kw : String)
    (posts : List Post) (acc : MonState × List DeliveryEvent) (g : Int)
    (hft : isFirstTime acc.1.initializedKeywords g kw = true) :
    processGroup deliver now kw posts acc g =
      ({ (backfillRun deliver now g posts acc).1 with
          initializedKeywords :=
            insertOnce (backfillRun deliver now g posts acc).1.initializedKeywords
              (initKey g kw) },
        (backfillRun deliver now g posts acc).2) := by
  unfold processGroup
  have hft' : isFirstTime (pgState acc.1 g).initializedKeywords g kw = true := hft
  rw [hft']
  rfl

theorem processGroup_delta_eq (deliver : Int → Post → Bool) (now : Nat) (kw : String)
    (posts : List Post) (acc : MonState × List DeliveryEvent) (g : Int)
    (hft : isFirstTime acc.1.initializedKeywords g kw = false) :
    processGroup deliver now kw posts acc g = deltaRun deliver now g posts acc := by
  unfold processGroup
  have hft' : isFirstTime (pgState acc.1 g).initializedKeywords g kw = false := hft
  rw [hft']
  rfl

theorem processGroup_init_eq (deliver : Int → Post → Bool) (now : Nat) (kw : String)
    (posts : List Post) (acc : MonState × List DeliveryEvent) (g : Int) :
    (processGroup deliver now kw posts acc g).1.initializedKeywords
      = if isFirstTime acc.1.initializedKeywords g kw
        then insertOnce acc.1.initializedKeywords (initKey g kw)
        else acc.1.initializedKeywords := by
  by_cases hft : isFirstTime acc.1.initializedKeywords g kw = true
  · rw [processGroup_backfill_eq deliver now kw posts acc g hft, hft]
    show insertOnce (backfillRun deliver now g posts acc).1.initializedKeywords (initKey g kw)
      = if true = true then insertOnce acc.1.initializedKeywords (initKey g kw)
        else acc.1.initializedKeywords
    rw [backfillRun_init_eq, if_pos rfl]
  · have hft' := bool_eq_false hft
    rw [processGroup_delta_eq deliver now kw posts acc g hft', hft']
    show (deltaRun deliver now g posts acc).1.initializedKeywords
      = if false = true then insertOnce acc.1.initializedKeywords (initKey g kw)
        else acc.1.initializedKeywords
    rw [deltaRun_init_eq, if_neg (by simp)]

theorem processGroup_init_mono (deliver : Int → Post → Bool) (now : Nat) (kw : String)
    (posts : List Post) (acc : MonState × List DeliveryEvent) (g : Int) (y : String)
    (hy : y ∈ acc.1.initializedKeywords) :
    y ∈ (processGroup deliver now kw posts acc g).1.initializedKeywords := by
  rw [processGroup_init_eq]
  by_cases hft : isFirstTime acc.1.initializedKeywords g kw = true
  · rw [hft, if_pos rfl]
    exact (mem_insertOnce _ _ _).mpr (Or.inl hy)
  · rw [bool_eq_false hft, if_neg (by simp)]
    exact hy

theorem processGroup_init_origin (deliver : Int → Post → Bool) (now : Nat) (kw : String)
    (posts : List Post) (acc : MonState × List DeliveryEvent) (g : Int) (y : String)
    (hy : y ∈ (processGroup deliver now kw posts acc g).1.initializedKeywords) :
    y ∈ acc.1.initializedKeywords ∨ y = initKey g kw := by
  rw [processGroup_init_eq] at hy
  by_cases hft : isFirstTime acc.1.initializedKeywords g kw = true
  · rw [hft, if_pos rfl] at hy
    exact (mem_insertOnce _ _ _).mp hy
  · rw [bool_eq_false hft, if_neg (by simp)] at hy
    exact Or.inl hy

theorem processGroup_init_self (deliver : Int → Post → Bool) (now : Nat) (kw : String)
    (posts : List Post) (acc : MonState × List DeliveryEvent) (g : Int) :
    initKey g kw ∈ (processGroup deliver now kw posts acc g).1.initializedKeywords := by
  rw [processGroup_init_eq]
  by_cases hft : isFirstTime acc.1.initializedKeywords g kw = true
  · rw [hft, if_pos rfl]
    exact (mem_insertOnce _ _ _).mpr (Or.inr rfl)
  · have hft' := bool_eq_false hft
    rw [hft', if_neg (by simp)]
    exact (isFirstTime_false_iff _ _ _).mp hft'

theorem processGroup_seen_mono (deliver : Int → Post → Bool) (now : Nat) (kw : String)
    (posts : List Post) (acc : MonState × List DeliveryEvent) (g : Int) (x : String)
    (h : isSeen acc.1.seenDb x = true) :
    isSeen (processGroup deliver now kw posts acc g).1.seenDb x = true := by
  by_cases hft : isFirstTime acc.1.initializedKeywords g kw = true
  · rw [processGroup_backfill_eq deliver now kw posts acc g hft]
    show isSeen (backfillRun deliver now g posts acc).1.seenDb x = true
    exact backfillRun_seen_mono deliver now g posts acc x h
  · rw [processGroup_delta_eq deliver now kw posts acc g (bool_eq_false hft)]
    exact deltaRun_seen_mono deliver now g posts acc x h

theorem processGroup_events_mono (deliver : Int → Post → Bool) (now : Nat) (kw : String)
    (posts : List Post) (acc : MonState × List DeliveryEvent) (g : Int) (e : DeliveryEvent)
    (h : e ∈ acc.2) : e ∈ (processGroup deliver now kw posts acc g).2 := by
  by_cases hft : isFirstTime acc.1.initializedKeywords g kw = true
  · rw [processGroup_backfill_eq deliver now kw posts acc g hft]
    show e ∈ (backfillRun deliver now g posts acc).2
    rw [backfillRun_events]
    exact List.mem_append_left _ h
  · rw [processGroup_delta_eq deliver now kw posts acc g (bool_eq_false hft)]
    exact deltaRun_events_mono deliver now g posts acc e h

theorem processGroup_event_origin (deliver : Int → Post → Bool) (now : Nat) (kw : String)
    (posts : List Post) (acc : MonState × List DeliveryEvent) (g : Int) (e : DeliveryEvent)
    (h : e ∈ (processGroup deliver now kw posts acc g).2) :
    e ∈ acc.2 ∨ e.group = g := by
  by_cases hft : isFirstTime acc.1.initializedKeywords g kw = true
  · rw [processGroup_backfill_eq deliver now kw posts acc g hft] at h
    have h' : e ∈ (backfillRun deliver now g posts acc).2 := h
    rw [backfillRun_events] at h'
    rcases List.mem_append.mp h' with h1 | h1
    · exact Or.inl h1
    · right
      rcases List.mem_filterMap.mp h1 with ⟨p, _, hpe⟩
      by_cases hid : (p.id == "") = true
      · rw [if_pos hid] at hpe
        exact Option.noConfusion hpe
      · rw [if_neg hid] at hpe
        have h2 := Option.some.inj hpe
        exact (congrArg DeliveryEvent.group h2).symm
  · rw [processGroup_delta_eq deliver now kw posts acc g (bool_eq_false hft)] at h
    rcases deltaRun_event_origin deliver now g posts acc e h with h1 | h1
    · exact Or.inl h1
    · exact Or.inr h1.1

theorem processGroup_events_seen (deliver : Int → Post → Bool) (now : Nat) (kw : String)
    (posts : List Post) (acc : MonState × List DeliveryEvent) (g : Int)
    (hinv : ∀ e ∈ acc.2, isSeen acc.1.seenDb e.postId = true) :
    ∀ e ∈ (processGroup deliver now kw posts acc g).2,
      isSeen (processGroup deliver now kw posts acc g).1.seenDb e.postId = true := by
  by_cases hft : isFirstTime acc.1.initializedKeywords g kw = true
  · rw [processGroup_backfill_eq deliver now kw posts acc g hft]
    intro e he
    show isSeen (backfillRun deliver now g posts acc).1.seenDb e.postId = true
    exact backfillRun_events_seen deliver now g posts acc hinv e he
  · rw [processGroup_delta_eq deliver now kw posts acc g (bool_eq_false hft)]
    exact deltaRun_events_seen deliver now g posts acc hinv

theorem processGroup_no_seen_delivery (deliver : Int → Post → Bool) (now : Nat) (kw : String)
    (posts : List Post) (acc : MonState × List DeliveryEvent) (g g' : Int) (x : String)
    (ok : Bool)
    (hinit : initKey g kw ∈ acc.1.initializedKeywords)
    (hx : x = "" ∨ isSeen acc.1.seenDb x = true)
    (hev : (⟨g, x, ok⟩ : DeliveryEvent) ∈ (processGroup deliver now kw posts acc g').2) :
    (⟨g, x, ok⟩ : DeliveryEvent) ∈ acc.2 := by
  by_cases hft : isFirstTime acc.1.initializedKeywords g' kw = true
  · rw [processGroup_backfill_eq deliver now kw posts acc g' hft] at hev
    have hev' : (⟨g, x, ok⟩ : DeliveryEvent) ∈ (backfillRun deliver now g' posts acc).2 := hev
    rw [backfillRun_events] at hev'
    rcases List.mem_append.mp hev' with h1 | h1
    · exact h1
    · exfalso
      rcases List.mem_filterMap.mp h1 with ⟨p, _, hpe⟩
      by_cases hid : (p.id == "") = true
      · rw [if_pos hid] at hpe
        exact Option.noConfusion hpe
      · rw [if_neg hid] at hpe
        have h2 := Option.some.inj hpe
        have hgg : g' = g := congrArg DeliveryEvent.group h2
        rw [hgg] at hft
        exact (isFirstTime_true_iff _ _ _).mp hft hinit
  · rw [processGroup_delta_eq deliver now kw posts acc g' (bool_eq_false hft)] at hev
    rcases deltaRun_event_origin deliver now g' posts acc ⟨g, x, ok⟩ hev with h1 | h1
    · exact h1
    · exfalso
      rcases hx with h2 | h2
      · exact h1.2.1 h2
      · have h3 : isSeen acc.1.seenDb x = false := h1.2.2
        rw [h2] at h3
        exact Bool.noConfusion h3

theorem processGroup_g_event_fresh (deliver : Int → Post → Bool) (now : Nat) (kw : String)
    (posts : List Post) (acc : MonState × List DeliveryEvent) (g g' : Int) (e : DeliveryEvent)
    (hinit : initKey g kw ∈ acc.1.initializedKeywords)
    (hev : e ∈ (processGroup deliver now kw posts acc g').2)
    (hg : e.group = g) :
    e ∈ acc.2 ∨ (e.postId ≠ "" ∧ isSeen acc.1.seenDb e.postId = false) := by
  by_cases hft : isFirstTime acc.1.initializedKeywords g' kw = true
  · rw [processGroup_backfill_eq deliver now kw posts acc g' hft] at hev
    have hev' : e ∈ (backfillRun deliver now g' posts acc).2 := hev
    rw [backfillRun_events] at hev'
    rcases List.mem_append.mp hev' with h1 | h1
    · exact Or.inl h1
    · exfalso
      rcases List.mem_filterMap.mp h1 with ⟨p, _, hpe⟩
      by_cases hid : (p.id == "") = true
      · rw [if_pos hid] at hpe
        exact Option.noConfusion hpe
      · rw [if_neg hid] at hpe
        have h2 := Option.some.inj hpe
        have hgg : g' = g := (congrArg DeliveryEvent.group h2).trans hg
        rw [hgg] at hft
        exact (isFirstTime_true_iff _ _ _).mp hft hinit
  · rw [processGroup_delta_eq deliver now kw posts acc g' (bool_eq_false hft)] at hev
    rcases deltaRun_event_origin deliver now g' posts acc e hev with h1 | h1
    · exact Or.inl h1
    · exact Or.inr ⟨h1.2.1, h1.2.2⟩

theorem deltaFold_events_append (deliver : Int → Post → Bool) (now : Nat) (g : Int) :
    ∀ (posts : List Post) (acc : MonState × List DeliveryEvent),
      ∃ new, (posts.foldl (deltaStep deliver now g) acc).2 = acc.2 ++ new ∧
        ∀ e ∈ new, e.group = g := by
  intro posts
  induction posts with
  | nil => intro acc; exact ⟨[], by simp, by simp⟩
  | cons p rest ih =>
    intro acc
    rw [List.foldl_cons]
    by_cases hc : (p.id == "" || isSeen acc.1.seenDb p.id) = true
    · rw [deltaStep_skip deliver now g acc p hc]
      exact ih acc
    · rw [deltaStep_send deliver now g acc p (bool_eq_false hc)]
      rcases ih _ with ⟨new, hnew, hgr⟩
      refine ⟨⟨g, p.id, deliver g p⟩ :: new, ?_, ?_⟩
      · rw [hnew, List.append_assoc]
        rfl
      · intro e he
        rcases List.mem_cons.mp he with h1 | h1
        · rw [h1]
        · exact hgr e h1

theorem processGroup_events_append (deliver : Int → Post → Bool) (now : Nat) (kw : String)
    (posts : List Post) (acc : MonState × List DeliveryEvent) (g : Int) :
    ∃ new, (processGroup deliver now kw posts acc g).2 = acc.2 ++ new ∧
      ∀ e ∈ new, e.group = g := by
  by_cases hft : isFirstTime acc.1.initializedKeywords g kw = true
  · refine ⟨(posts.take initialBackfillCount).filterMap
      (fun p => if p.id == "" then none else some ⟨g, p.id, deliver g p⟩), ?_, ?_⟩
    · rw [processGroup_backfill_eq deliver now kw posts acc g hft]
      exact backfillRun_events deliver now g posts acc
    · intro e he
      rcases List.mem_filterMap.mp he with ⟨p, _, hpe⟩
      by_cases hid : (p.id == "") = true
      · rw [if_pos hid] at hpe
        exact Option.noConfusion hpe
      · rw [if_neg hid] at hpe
        exact (congrArg DeliveryEvent.group (Option.some.inj hpe)).symm
  · rw [processGroup_delta_eq deliver now kw posts acc g (bool_eq_false hft)]
    exact deltaFold_events_append deliver now g posts (pgState acc.1 g, acc.2)

theorem groupsFold_init_mono (deliver : Int → Post → Bool) (now : Nat) (kw : String)
    (posts : List Post) :
    ∀ (gs : List Int) (acc : MonState × List DeliveryEvent) (y : String),
      y ∈ acc.1.initializedKeywords →
      y ∈ (gs.foldl (processGroup deliver now kw posts) acc).1.initializedKeywords := by
  intro gs
  induction gs with
  | nil => intro acc y h; exact h
  | cons g rest ih =>
    intro acc y h
    rw [List.foldl_cons]
    exact ih _ y (processGroup_init_mono deliver now kw posts acc g y h)

theorem groupsFold_init_origin (deliver : Int → Post → Bool) (now : Nat) (kw : String)
    (posts : List Post) :
    ∀ (gs : List Int) (acc : MonState × List DeliveryEvent) (y : String),
      y ∈ (gs.foldl (processGroup deliver now kw posts) acc).1.initializedKeywords →
      y ∈ acc.1.initializedKeywords ∨ ∃ g' ∈ gs, y = initKey g' kw := by
  intro gs
  induction gs with
  | nil => intro acc y h; exact Or.inl h
  | cons g rest ih =>
    intro acc y h
    rw [List.foldl_cons] at h
    rcases ih _ y h with h1 | ⟨g', hg', he⟩
    · rcases processGroup_init_origin deliver now kw posts acc g y h1 with h2 | h2
      · exact Or.inl h2
      · exact Or.inr ⟨g, List.mem_cons_self _ _, h2⟩
    · exact Or.inr ⟨g', List.mem_cons_of_mem _ hg', he⟩

theorem groupsFold_seen_mono (deliver : Int → Post → Bool) (now : Nat) (kw : String)
    (posts : List Post) :
    ∀ (gs : List Int) (acc : MonState × List DeliveryEvent) (x : String),
      isSeen acc.1.seenDb x = true →
      isSeen (gs.foldl (processGroup deliver now kw posts) acc).1.seenDb x = true := by
  intro gs
  induction gs with
  | nil => intro acc x h; exact h
  | cons g rest ih =>
    intro acc x h
    rw [List.foldl_cons]
    exact ih _ x (processGroup_seen_mono deliver now kw posts acc g x h)

theorem groupsFold_events_append (deliver : Int → Post → Bool) (now : Nat) (kw : String)
    (posts : List Post) :
    ∀ (gs : List Int) (acc : MonState × List DeliveryEvent),
      ∃ new, (gs.foldl (processGroup deliver now kw posts) acc).2 = acc.2 ++ new ∧
        ∀ e ∈ new, e.group ∈ gs := by
  intro gs
  induction gs with
  | nil => intro acc; exact ⟨[], by simp, by simp⟩
  | cons g rest ih =>
    intro acc
    rw [List.foldl_cons]
    rcases processGroup_events_append deliver now kw posts acc g with ⟨new1, hnew1, hg1⟩
    rcases ih (processGroup deliver now kw posts acc g) with ⟨new2, hnew2, hg2⟩
    refine ⟨new1 ++ new2, ?_, ?_⟩
    · rw [hnew2, hnew1, List.append_assoc]
    · intro e he
      rcases List.mem_append.mp he with h1 | h1
      · rw [hg1 e h1]
        exact List.mem_cons_self _ _
      · exact List.mem_cons_of_mem _ (hg2 e h1)

theorem groupsFold_no_seen_delivery (deliver : Int → Post → Bool) (now : Nat) (kw : String)
    (posts : List Post) :
    ∀ (gs : List Int) (acc : MonState × List DeliveryEvent) (g : Int) (x : String) (ok : Bool),
      initKey g kw ∈ acc.1.initializedKeywords →
      (x = "" ∨ isSeen acc.1.seenDb x = true) →
      (⟨g, x, ok⟩ : DeliveryEvent) ∈ (gs.foldl (processGroup deliver now kw posts) acc).2 →
      (⟨g, x, ok⟩ : DeliveryEvent) ∈ acc.2 := by
  intro gs
  induction gs with
  | nil => intro acc g x ok _ _ h; exact h
  | cons g' rest ih =>
    intro acc g x ok hinit hx hev
    rw [List.foldl_cons] at hev
    have hinit' : initKey g kw ∈ (processGroup deliver now kw posts acc g').1.initializedKeywords :=
      processGroup_init_mono deliver now kw posts acc g' _ hinit
    have hx' : x = "" ∨ isSeen (processGroup deliver now kw posts acc g').1.seenDb x = true := by
      rcases hx with h1 | h1
      · exact Or.inl h1
      · exact Or.inr (processGroup_seen_mono deliver now kw posts acc g' x h1)
    have h1 := ih _ g x ok hinit' hx' hev
    exact processGroup_no_seen_delivery deliver now kw posts acc g g' x ok hinit hx h1

theorem groupsFold_g_event_fresh (deliver : Int → Post → Bool) (now : Nat) (kw : String)
    (posts : List Post) :
    ∀ (gs : List Int) (acc : MonState × List DeliveryEvent) (g : Int) (e : DeliveryEvent),
      initKey g kw ∈ acc.1.initializedKeywords →
      e ∈ (gs.foldl (processGroup deliver now kw posts) acc).2 →
      e.group = g →
      e ∈ acc.2 ∨ (e.postId ≠ "" ∧ isSeen acc.1.seenDb e.postId = false) := by
  intro gs
  induction gs with
  | nil => intro acc g e _ h _; exact Or.inl h
  | cons g' rest ih =>
    intro acc g e hinit hev hg
    rw [List.foldl_cons] at hev
    have hinit' : initKey g kw ∈ (processGroup deliver now kw posts acc g').1.initializedKeywords :=
      processGroup_init_mono deliver now kw posts acc g' _ hinit
    rcases ih _ g e hinit' hev hg with h1 | h1
    · exact processGroup_g_event_fresh deliver now kw posts acc g g' e hinit h1 hg
    · refine Or.inr ⟨h1.1, ?_⟩
      by_cases hs : isSeen acc.1.seenDb e.postId = true
      · exfalso
        have h2 := processGroup_seen_mono deliver now kw posts acc g' e.postId hs
        rw [h1.2] at h2
        exact Bool.noConfusion h2
      · exact bool_eq_false hs

theorem groupsFold_events_seen (deliver : Int → Post → Bool) (now : Nat) (kw : String)
    (posts : List Post) :
    ∀ (gs : List Int) (acc : MonState × List DeliveryEvent),
      (∀ e ∈ acc.2, isSeen acc.1.seenDb e.postId = true) →
      ∀ e ∈ (gs.foldl (processGroup deliver now kw posts) acc).2,
        isSeen (gs.foldl (processGroup deliver now kw posts) acc).1.seenDb e.postId = true := by
  intro gs
  induction gs with
  | nil => intro acc hinv e he; exact hinv e he
  | cons g rest ih =>
    intro acc hinv e he
    rw [List.foldl_cons] at he ⊢
    exact ih _ (processGroup_events_seen deliver now kw posts acc g hinv) e he

theorem insertFold_mono (kw : String) :
    ∀ (gs : List Int) (ik : List String) (y : String),
      y ∈ ik → y ∈ gs.foldl (fun ik g => insertOnce ik (initKey g kw)) ik := by
  intro gs
  induction gs with
  | nil => intro ik y h; exact h
  | cons g rest ih =>
    intro ik y h
    rw [List.foldl_cons]
    exact ih _ y ((mem_insertOnce _ _ _).mpr (Or.inl h))

theorem insertFold_mem (kw : String) :
    ∀ (gs : List Int) (ik : List String) (g : Int), g ∈ gs →
      initKey g kw ∈ gs.foldl (fun ik g => insertOnce ik (initKey g kw)) ik := by
  intro gs
  induction gs with
  | nil => intro ik g h; exact absurd h (List.not_mem_nil _)
  | cons g' rest ih =>
    intro ik g h
    rw [List.foldl_cons]
    rcases List.mem_cons.mp h with h1 | h1
    · subst h1
      exact insertFold_mono kw rest _ _ ((mem_insertOnce _ _ _).mpr (Or.inr rfl))
    · exact ih _ g h1

/-! ## Claim C4 -/

/-- C4 counterexample: `mark_seen` on an already-seen id is not observably a
no-op.  Re-marking refreshes the stored timestamp, so a later expiry pass
(cutoff 5) keeps an entry that it would have removed had the second call not
happened: with the re-mark the id is still seen after cleanup, without it
the id is gone. -/
theorem c4_counterexample :
    isSeen (cleanupExpired (markSeen (markSeen ([] : SeenData) "a" 0) "a" 10) 5) "a" = true ∧
    isSeen (cleanupExpired (markSeen ([] : SeenData) "a" 0) 5) "a" = false := by
  constructor <;> rfl

/-- C4 (amended): marking an already-seen id again leaves `is_seen` results
and the entry count unchanged (and likewise for a batch marking of that id),
but it refreshes the entry's timestamp, so a later expiry pass need not
behave as if the call had not happened. -/
theorem c4_remark_preserves_membership_and_count :
    ∀ (db : SeenData) (pid : String) (now : Nat), isSeen db pid = true →
      (∀ x, isSeen (markSeen db pid now) x = isSeen db x) ∧
      getSeenCount (markSeen db pid now) = getSeenCount db ∧
      (∀ x, isSeen (markMultipleSeen db [pid] now) x = isSeen db x) ∧
      getSeenCount (markMultipleSeen db [pid] now) = getSeenCount db := by
  intro db pid now h
  have h' : (db.any fun e => e.1 == pid) = true := h
  have hm : markSeen db pid now = db.map (fun e => if e.1 == pid then (pid, now) else e) := by
    unfold markSeen
    rw [if_pos h']
  have hmem : ∀ x, isSeen (markSeen db pid now) x = isSeen db x := by
    intro x; rw [hm, isSeen_map_refresh]
  have hcnt : getSeenCount (markSeen db pid now) = getSeenCount db := by
    rw [hm]; simp [getSeenCount]
  have hbatch : markMultipleSeen db [pid] now = markSeen db pid now := rfl
  exact ⟨hmem, hcnt, fun x => by rw [hbatch]; exact hmem x, by rw [hbatch]; exact hcnt⟩

/-- C4 witness: the amended statement at a concrete store. -/
theorem c4_remark_witness :
    isSeen (markSeen [("a", 0)] "a" 5) "b" = isSeen [("a", 0)] "b" ∧
    getSeenCount (markSeen [("a", 0)] "a" 5) = getSeenCount [("a", 0)] := by
  have h := c4_remark_preserves_membership_and_count [("a", 0)] "a" 5 (by decide)
  exact ⟨h.1 "b", h.2.1⟩

/-! ## Claim C6 -/

/-- C6: removing a keyword from a group and re-adding it never touches the
set of initialized `(group, keyword)` pairs, so a pair that was initialized
stays initialized and the next cycle for it is not classified as
first-time (i.e. it runs in delta mode, not backfill). -/
theorem c6_init_state_survives_keyword_remove_readd :
    ∀ (b : BotData) (g : Int) (kw : String),
      (removeKeywordCmd b g kw).initializedKeywords = b.initializedKeywords ∧
      (addKeywordCmd b g kw).initializedKeywords = b.initializedKeywords ∧
      (initKey g kw ∈ b.initializedKeywords →
        isFirstTime (addKeywordCmd (removeKeywordCmd b g kw) g kw).initializedKeywords g kw
          = false) := by
  intro b g kw
  have hrem : ∀ b' : BotData, (removeKeywordCmd b' g kw).initializedKeywords
      = b'.initializedKeywords := by
    intro b'
    unfold removeKeywordCmd
    cases lookupGroup b'.groups g with
    | none => rfl
    | some gi => by_cases h : kw ∈ gi.keywords <;> simp [h]
  have hadd : ∀ b' : BotData, (addKeywordCmd b' g kw).initializedKeywords
      = b'.initializedKeywords := by
    intro b'
    unfold addKeywordCmd
    cases lookupGroup b'.groups g with
    | none => rfl
    | some gi => by_cases h : kw ∈ gi.keywords <;> simp [h]
  refine ⟨hrem b, hadd b, fun hmem => ?_⟩
  rw [hadd, hrem]
  simp [isFirstTime, hmem]

/-- C6 witness: concrete group with an initialized keyword. -/
theorem c6_witness :
    isFirstTime (BotData.initializedKeywords (addKeywordCmd
        (removeKeywordCmd ⟨[(1, ⟨"n", ["k"], true⟩)], [initKey 1 "k"]⟩ 1 "k") 1 "k"))
      1 "k" = false :=
  (c6_init_state_survives_keyword_remove_readd ⟨[(1, ⟨"n", ["k"], true⟩)], [initKey 1 "k"]⟩
    1 "k").2.2 (List.mem_singleton_self _)

/-! ## Claim C1 -/

/-- C1: for a `(group, keyword)` pair that is already in the initialization
state, the keyword pass runs in delta mode: a post whose id is already in
the global seen-set at the start of the pass (or whose id is empty) is never
delivered to that group, and every event delivered to that group carries a
non-empty id that was absent from the seen-set when the pass started (the
pass itself marks each delivered id seen, so re-extracted duplicates are
suppressed at the moment they are processed). -/
theorem c1_delta_only_unseen_delivered :
    ∀ (deliver : Int → Post → Bool) (now : Nat) (kw : String) (targetGroups : List Int)
      (posts : List Post) (st : MonState) (g : Int),
      initKey g kw ∈ st.initializedKeywords →
      ((∀ p ∈ posts, (p.id = "" ∨ isSeen st.seenDb p.id = true) →
          ∀ ok, (⟨g, p.id, ok⟩ : DeliveryEvent)
            ∉ (processKeyword deliver now kw targetGroups posts st).2) ∧
        (∀ e ∈ (processKeyword deliver now kw targetGroups posts st).2,
          e.group = g → e.postId ≠ "" ∧ isSeen st.seenDb e.postId = false)) := by
  intro deliver now kw tg posts st g hinit
  unfold processKeyword
  by_cases hp : posts = []
  · rw [if_pos hp]
    constructor
    · intro p _ _ ok hev
      exact List.not_mem_nil _ hev
    · intro e he
      exact absurd he (List.not_mem_nil _)
  · rw [if_neg hp]
    constructor
    · intro p _ hx ok hev
      have h := groupsFold_no_seen_delivery deliver now kw posts tg (st, []) g p.id ok
        hinit hx hev
      exact List.not_mem_nil _ h
    · intro e he hg
      rcases groupsFold_g_event_fresh deliver now kw posts tg (st, []) g e hinit he hg
        with h1 | h1
      · exact absurd h1 (List.not_mem_nil _)
      · exact h1

/-- C1 witness: a concrete delta pass never re-delivers the already-seen id. -/
theorem c1_witness :
    (⟨1, "x", true⟩ : DeliveryEvent)
      ∉ (processKeyword (fun _ _ => true) 5 "k" [1] [⟨"x", "t", "k", "a", "u", none⟩]
          ⟨[("x", 0)], [initKey 1 "k"], []⟩).2 :=
  ((c1_delta_only_unseen_delivered (fun _ _ => true) 5 "k" [1]
      [⟨"x", "t", "k", "a", "u", none⟩] ⟨[("x", 0)], [initKey 1 "k"], []⟩ 1
      (List.mem_singleton_self _)).1
    ⟨"x", "t", "k", "a", "u", none⟩ (List.mem_singleton_self _) (Or.inr (by decide)) true)

/-! ## Claim C5 -/

/-- C5 counterexample: the claim "a post whose delivery failed is never
delivered again in any later cycle" is false as stated.  Concretely: in
cycle 1 the initialized pair `(1, "k")` processes post `"x"` in delta mode,
the delivery fails (`ok = false`), and `"x"` is in the seen-set at the end
of the cycle; yet in a later cycle the not-yet-initialized pair `(2, "k")`
backfills and delivers the same post again (`ok = true`), because backfill
takes posts positionally without consulting the seen-set. -/
theorem c5_counterexample :
    (⟨1, "x", false⟩ : DeliveryEvent)
        ∈ (processKeyword (fun _ _ => false) 0 "k" [1] [⟨"x", "t", "k", "a", "u", none⟩]
            ⟨[], [initKey 1 "k"], []⟩).2 ∧
    isSeen (processKeyword (fun _ _ => false) 0 "k" [1] [⟨"x", "t", "k", "a", "u", none⟩]
        ⟨[], [initKey 1 "k"], []⟩).1.seenDb "x" = true ∧
    (⟨2, "x", true⟩ : DeliveryEvent)
        ∈ (processKeyword (fun _ _ => true) 1 "k" [2] [⟨"x", "t", "k", "a", "u", none⟩]
            (processKeyword (fun _ _ => false) 0 "k" [1] [⟨"x", "t", "k", "a", "u", none⟩]
              ⟨[], [initKey 1 "k"], []⟩).1).2 := by
  decide

/-- C5 (amended): every delivered post — the loop never inspects the
delivery outcome, so in particular every post whose delivery failed — has
its id in the global seen-set at the end of the keyword pass (it is marked
seen before the delivery attempt and the failure does not remove it), and
as long as the id stays in the seen-set it is never delivered again by a
delta pass (an already-initialized pair); a later backfill for a
newly-registered pair may still re-deliver it. -/
theorem c5_failed_delivery_marked_seen_and_delta_suppressed :
    ∀ (deliver : Int → Post → Bool) (now : Nat) (kw : String) (targetGroups : List Int)
      (posts : List Post) (st : MonState) (g : Int) (pid : String) (ok : Bool),
      (⟨g, pid, ok⟩ : DeliveryEvent) ∈ (processKeyword deliver now kw targetGroups posts st).2 →
      (isSeen (processKeyword deliver now kw targetGroups posts st).1.seenDb pid = true ∧
        ∀ (deliver2 : Int → Post → Bool) (now2 : Nat) (kw2 : String) (tg2 : List Int)
          (posts2 : List Post) (st2 : MonState) (g2 : Int) (ok2 : Bool),
          isSeen st2.seenDb pid = true → initKey g2 kw2 ∈ st2.initializedKeywords →
          (⟨g2, pid, ok2⟩ : DeliveryEvent)
            ∉ (processKeyword deliver2 now2 kw2 tg2 posts2 st2).2) := by
  intro deliver now kw tg posts st g pid ok hev
  constructor
  · unfold processKeyword at hev ⊢
    by_cases hp : posts = []
    · rw [if_pos hp] at hev
      exact absurd hev (List.not_mem_nil _)
    · rw [if_neg hp] at hev ⊢
      exact groupsFold_events_seen deliver now kw posts tg (st, [])
        (fun e he => absurd he (List.not_mem_nil _)) ⟨g, pid, ok⟩ hev
  · intro deliver2 now2 kw2 tg2 posts2 st2 g2 ok2 hseen hinit2 hev2
    unfold processKeyword at hev2
    by_cases hp : posts2 = []
    · rw [if_pos hp] at hev2
      exact absurd hev2 (List.not_mem_nil _)
    · rw [if_neg hp] at hev2
      have h := groupsFold_no_seen_delivery deliver2 now2 kw2 posts2 tg2 (st2, []) g2 pid ok2
        hinit2 (Or.inr hseen) hev2
      exact absurd h (List.not_mem_nil _)

/-- C5 witness: the amended statement at the concrete failed delivery of the
counterexample's first cycle. -/
theorem c5_witness :
    isSeen (processKeyword (fun _ _ => false) 0 "k" [1] [⟨"x", "t", "k", "a", "u", none⟩]
        ⟨[], [initKey 1 "k"], []⟩).1.seenDb "x" = true :=
  (c5_failed_delivery_marked_seen_and_delta_suppressed (fun _ _ => false) 0 "k" [1]
      [⟨"x", "t", "k", "a", "u", none⟩] ⟨[], [initKey 1 "k"], []⟩ 1 "x" false
      (by decide)).1

/-! ## Claim C3 -/

/-- C3: for a `(group, keyword)` pair not yet in the initialization state,
one keyword pass delivers at most `initial_backfill_count` (10) posts to
that group, no matter how many posts were extracted; and the pair is in the
initialization state at the end of the pass, also when the extraction
returned zero posts. -/
theorem c3_first_cycle_bounded_backfill_and_initialization :
    ∀ (deliver : Int → Post → Bool) (now : Nat) (kw : String) (targetGroups : List Int)
      (posts : List Post) (st : MonState) (g : Int),
      g ∈ targetGroups → targetGroups.Nodup →
      initKey g kw ∉ st.initializedKeywords →
      ((processKeyword deliver now kw targetGroups posts st).2.countP
          (fun e => e.group == g) ≤ initialBackfillCount ∧
        initKey g kw
          ∈ (processKeyword deliver now kw targetGroups posts st).1.initializedKeywords) := by
  intro deliver now kw tg posts st g hg hnd hni
  unfold processKeyword
  by_cases hp : posts = []
  · rw [if_pos hp]
    constructor
    · show List.countP (fun e => e.group == g) ([] : List DeliveryEvent) ≤ initialBackfillCount
      simp [initialBackfillCount]
    · exact insertFold_mem kw tg st.initializedKeywords g hg
  · rw [if_neg hp]
    rcases List.append_of_mem hg with ⟨l1, l2, rfl⟩
    have hnd' := List.nodup_middle.mp hnd
    have hgnm : g ∉ l1 ++ l2 := (List.nodup_cons.mp hnd').1
    have hgl1 : g ∉ l1 := fun hx => hgnm (List.mem_append_left _ hx)
    have hgl2 : g ∉ l2 := fun hx => hgnm (List.mem_append_right _ hx)
    rw [List.foldl_append, List.foldl_cons]
    obtain ⟨new1, hnew1, hgr1⟩ := groupsFold_events_append deliver now kw posts l1 (st, [])
    have hni1 : initKey g kw
        ∉ (l1.foldl (processGroup deliver now kw posts) (st, [])).1.initializedKeywords := by
      intro hmem
      rcases groupsFold_init_origin deliver now kw posts l1 (st, []) _ hmem with h1 | h1
      · exact hni h1
      · rcases h1 with ⟨g', hgmem, he⟩
        have hge : g = g' := initKey_group_inj g g' kw he
        exact hgl1 (hge ▸ hgmem)
    have hft : isFirstTime
        (l1.foldl (processGroup deliver now kw posts) (st, [])).1.initializedKeywords g kw
        = true := (isFirstTime_true_iff _ _ _).mpr hni1
    have hpg : (processGroup deliver now kw posts
          (l1.foldl (processGroup deliver now kw posts) (st, [])) g).2
        = (l1.foldl (processGroup deliver now kw posts) (st, [])).2
          ++ (posts.take initialBackfillCount).filterMap
              (fun p => if p.id == "" then none else some ⟨g, p.id, deliver g p⟩) := by
      rw [processGroup_backfill_eq deliver now kw posts _ g hft]
      exact backfillRun_events deliver now g posts _
    obtain ⟨new2, hnew2, hgr2⟩ := groupsFold_events_append deliver now kw posts l2
      (processGroup deliver now kw posts (l1.foldl (processGroup deliver now kw posts) (st, [])) g)
    constructor
    · rw [hnew2, hpg, hnew1, List.nil_append, List.countP_append, List.countP_append]
      have hc1 : new1.countP (fun e => e.group == g) = 0 := by
        rw [List.countP_eq_zero]
        intro e he hbe
        have hge : e.group = g := beq_iff_eq.mp hbe
        exact hgl1 (hge ▸ hgr1 e he)
      have hc2 : new2.countP (fun e => e.group == g) = 0 := by
        rw [List.countP_eq_zero]
        intro e he hbe
        have hge : e.group = g := beq_iff_eq.mp hbe
        exact hgl2 (hge ▸ hgr2 e he)
      have hc3 : ((posts.take initialBackfillCount).filterMap
          (fun p => if p.id == "" then none
            else some (⟨g, p.id, deliver g p⟩ : DeliveryEvent))).countP
            (fun e => e.group == g) ≤ initialBackfillCount :=
        calc ((posts.take initialBackfillCount).filterMap
            (fun p => if p.id == "" then none
              else some (⟨g, p.id, deliver g p⟩ : DeliveryEvent))).countP
              (fun e => e.group == g)
            ≤ ((posts.take initialBackfillCount).filterMap
                (fun p => if p.id == "" then none
                  else some (⟨g, p.id, deliver g p⟩ : DeliveryEvent))).length :=
              List.countP_le_length _
          _ ≤ (posts.take initialBackfillCount).length := List.length_filterMap_le _ _
          _ ≤ initialBackfillCount := List.length_take_le _ _
      omega
    · apply groupsFold_init_mono
      exact processGroup_init_self deliver now kw posts _ g

/-- C3 witness: a fresh pair with an empty extraction is still initialized
and receives zero deliveries. -/
theorem c3_witness :
    ((processKeyword (fun _ _ => true) 0 "k" [1] [] ⟨[], [], []⟩).2.countP
        (fun e => e.group == 1) ≤ initialBackfillCount) ∧
    initKey 1 "k"
      ∈ (processKeyword (fun _ _ => true) 0 "k" [1] [] ⟨[], [], []⟩).1.initializedKeywords :=
  c3_first_cycle_bounded_backfill_and_initialization (fun _ _ => true) 0 "k" [1] []
    ⟨[], [], []⟩ 1 (List.mem_singleton_self 1) (List.nodup_singleton 1) (List.not_mem_nil _)

/-! ## Claim C10 -/

/-- C10: in backfill mode the fan-out is strictly positional: for an
uninitialized pair the events delivered to that group are exactly the first
`initial_backfill_count` extracted posts with a non-empty id, in extraction
order, with no reference to the seen-set — so a post whose id is already
globally seen still consumes a slot and is delivered again (second
conjunct). -/
theorem c10_backfill_positional_ignores_seen :
    ∀ (deliver : Int → Post → Bool) (now : Nat) (kw : String) (targetGroups : List Int)
      (posts : List Post) (st : MonState) (g : Int),
      g ∈ targetGroups → targetGroups.Nodup →
      initKey g kw ∉ st.initializedKeywords →
      (((processKeyword deliver now kw targetGroups posts st).2.filter
            (fun e => e.group == g)
          = (posts.take initialBackfillCount).filterMap
              (fun p => if p.id == "" then none else some ⟨g, p.id, deliver g p⟩)) ∧
        (∀ p ∈ posts.take initialBackfillCount, p.id ≠ "" →
          (⟨g, p.id, deliver g p⟩ : DeliveryEvent)
            ∈ (processKeyword deliver now kw targetGroups posts st).2)) := by
  intro deliver now kw tg posts st g hg hnd hni
  by_cases hp : posts = []
  · subst hp
    constructor
    · rfl
    · intro p hp2
      exact absurd hp2 (List.not_mem_nil _)
  · unfold processKeyword
    rw [if_neg hp]
    rcases List.append_of_mem hg with ⟨l1, l2, rfl⟩
    have hnd' := List.nodup_middle.mp hnd
    have hgnm : g ∉ l1 ++ l2 := (List.nodup_cons.mp hnd').1
    have hgl1 : g ∉ l1 := fun hx => hgnm (List.mem_append_left _ hx)
    have hgl2 : g ∉ l2 := fun hx => hgnm (List.mem_append_right _ hx)
    rw [List.foldl_append, List.foldl_cons]
    obtain ⟨new1, hnew1, hgr1⟩ := groupsFold_events_append deliver now kw posts l1 (st, [])
    have hni1 : initKey g kw
        ∉ (l1.foldl (processGroup deliver now kw posts) (st, [])).1.initializedKeywords := by
      intro hmem
      rcases groupsFold_init_origin deliver now kw posts l1 (st, []) _ hmem with h1 | h1
      · exact hni h1
      · rcases h1 with ⟨g', hgmem, he⟩
        have hge : g = g' := initKey_group_inj g g' kw he
        exact hgl1 (hge ▸ hgmem)
    have hft : isFirstTime
        (l1.foldl (processGroup deliver now kw posts) (st, [])).1.initializedKeywords g kw
        = true := (isFirstTime_true_iff _ _ _).mpr hni1
    have hpg : (processGroup deliver now kw posts
          (l1.foldl (processGroup deliver now kw posts) (st, [])) g).2
        = (l1.foldl (processGroup deliver now kw posts) (st, [])).2
          ++ (posts.take initialBackfillCount).filterMap
              (fun p => if p.id == "" then none else some ⟨g, p.id, deliver g p⟩) := by
      rw [processGroup_backfill_eq deliver now kw posts _ g hft]
      exact backfillRun_events deliver now g posts _
    obtain ⟨new2, hnew2, hgr2⟩ := groupsFold_events_append deliver now kw posts l2
      (processGroup deliver now kw posts (l1.foldl (processGroup deliver now kw posts) (st, [])) g)
    constructor
    · rw [hnew2, hpg, hnew1, List.nil_append, List.filter_append, List.filter_append]
      have hf1 : new1.filter (fun e => e.group == g) = [] := by
        rw [List.filter_eq_nil_iff]
        intro e he hbe
        have hge : e.group = g := beq_iff_eq.mp hbe
        exact hgl1 (hge ▸ hgr1 e he)
      have hf2 : new2.filter (fun e => e.group == g) = [] := by
        rw [List.filter_eq_nil_iff]
        intro e he hbe
        have hge : e.group = g := beq_iff_eq.mp hbe
        exact hgl2 (hge ▸ hgr2 e he)
      have hf3 : ((posts.take initialBackfillCount).filterMap
            (fun p => if p.id == "" then none
              else some (⟨g, p.id, deliver g p⟩ : DeliveryEvent))).filter
              (fun e => e.group == g)
          = (posts.take initialBackfillCount).filterMap
              (fun p => if p.id == "" then none
                else some (⟨g, p.id, deliver g p⟩ : DeliveryEvent)) := by
        rw [List.filter_eq_self]
        intro e he
        rcases List.mem_filterMap.mp he with ⟨p, _, hpe⟩
        by_cases hid : (p.id == "") = true
        · rw [if_pos hid] at hpe
          exact Option.noConfusion hpe
        · rw [if_neg hid] at hpe
          have h2 := Option.some.inj hpe
          have hge : e.group = g := (congrArg DeliveryEvent.group h2).symm
          rw [hge]
          exact beq_self_eq_true g
      rw [hf1, hf2, hf3, List.append_nil, List.nil_append]
    · intro p hpmem hpid
      have hin : (⟨g, p.id, deliver g p⟩ : DeliveryEvent)
          ∈ (posts.take initialBackfillCount).filterMap
              (fun p => if p.id == "" then none else some ⟨g, p.id, deliver g p⟩) :=
        List.mem_filterMap.mpr ⟨p, hpmem, by
          rw [if_neg (fun h => hpid (beq_iff_eq.mp h))]⟩
      rw [hnew2, hpg]
      exact List.mem_append_left _ (List.mem_append_right _ hin)

/-- C10 witness: a post whose id is already in the seen-set is still
delivered by a concrete backfill pass. -/
theorem c10_witness :
    (processKeyword (fun _ _ => true) 0 "k" [1] [⟨"x", "t", "k", "a", "u", none⟩]
        ⟨[("x", 0)], [], []⟩).2.filter (fun e => e.group == 1)
      = ([(⟨"x", "t", "k", "a", "u", none⟩ : Post)].take initialBackfillCount).filterMap
          (fun p => if p.id == "" then none else some ⟨1, p.id, true⟩) :=
  (c10_backfill_positional_ignores_seen (fun _ _ => true) 0 "k" [1]
      [⟨"x", "t", "k", "a", "u", none⟩] ⟨[("x", 0)], [], []⟩ 1
      (List.mem_singleton_self 1) (List.nodup_singleton 1) (List.not_mem_nil _)).1

/-! ## Claim C2 -/

/-- C2: the post identity is a pure, deterministic function of the first
150 characters of the cleaned text and the normalized URL — two
computations on inputs agreeing there produce the same id (so equal inputs
always give equal ids, in any run) — and the id is a fixed-length (20
character) truncation of the content hash. -/
theorem c2_compute_id_deterministic :
    ∀ (t1 u1 t2 u2 : List Char), t1.take 150 = t2.take 150 → u1 = u2 →
      (computeId t1 u1 = computeId t2 u2 ∧ (computeId t1 u1).length = 20) := by
  intro t1 u1 t2 u2 h1 h2
  constructor
  · unfold computeId
    rw [h1, h2]
  · have hlen : ∀ m : List Nat, (sha256Hex m).length = 64 := by
      intro m
      simp [sha256Hex, wordHex]
    unfold computeId
    rw [List.length_take, hlen]
    rfl

/-- C2 witness: the determinism statement at concrete inputs. -/
theorem c2_witness :
    computeId "post text".data "https://www.facebook.com/posts/1".data
        = computeId "post text".data "https://www.facebook.com/posts/1".data ∧
    (computeId "post text".data "https://www.facebook.com/posts/1".data).length = 20 :=
  c2_compute_id_deterministic "post text".data "https://www.facebook.com/posts/1".data
    "post text".data "https://www.facebook.com/posts/1".data rfl rfl

/-! ### C7 groundwork: occurrence splittings and scanning lemmas -/

theorem splitFirst_none_iff {sep : Char} : ∀ {z : List Char},
    splitFirst sep z = none ↔ sep ∉ z
  | [] => by simp [splitFirst]
  | d :: r => by
    by_cases hd : d = sep
    · subst hd; simp [splitFirst]
    · have ih := @splitFirst_none_iff sep r
      simp only [splitFirst, if_neg hd]
      cases hr : splitFirst sep r with
      | none =>
        simp only [hr, true_iff] at ih ⊢
        simp only [List.mem_cons, not_or]
        exact ⟨fun h => hd h.symm, ih⟩
      | some ab =>
        have hmem : sep ∈ r := by
          by_contra hno
          rw [ih.mpr hno] at hr; exact Option.noConfusion hr
        simp [hr, List.mem_cons, hmem]

theorem splitFirst_decomp {sep : Char} : ∀ {z a b : List Char},
    splitFirst sep z = some (a, b) → z = a ++ sep :: b ∧ sep ∉ a
  | [], _, _ => by simp [splitFirst]
  | d :: r, a, b => by
    by_cases hd : d = sep
    · subst hd
      simp only [splitFirst, if_pos rfl]
      intro h
      obtain ⟨h1, h2⟩ := Prod.mk.injEq .. ▸ Option.some.injEq .. ▸ h
      subst h1; subst h2; simp
    · simp only [splitFirst, if_neg hd]
      cases hr : splitFirst sep r with
      | none => intro h; exact Option.noConfusion h
      | some ab =>
        obtain ⟨a', b'⟩ := ab
        intro h
        obtain ⟨ha, hb⟩ := Prod.mk.injEq .. ▸ Option.some.injEq .. ▸ h
        obtain ⟨hz, hnot⟩ := splitFirst_decomp hr
        subst ha; subst hb
        constructor
        · simp [hz]
        · simp only [List.mem_cons, not_or]
          exact ⟨fun h => hd h.symm, hnot⟩

theorem splitFirst_append {sep : Char} : ∀ {a : List Char}, sep ∉ a →
    ∀ b, splitFirst sep (a ++ sep :: b) = some (a, b)
  | [], _, b => by simp [splitFirst]
  | d :: a', h, b => by
    have hd : d ≠ sep := fun hh => h (hh ▸ List.mem_cons_self d a')
    have ih := splitFirst_append (fun hh => h (List.mem_cons_of_mem d hh)) b
    simp [splitFirst, hd, ih]

theorem mem_first_decomp {sep : Char} {z : List Char} (h : sep ∈ z) :
    ∃ a b, z = a ++ sep :: b ∧ sep ∉ a := by
  cases hs : splitFirst sep z with
  | none => exact absurd (splitFirst_none_iff.mp hs) (by simp [h])
  | some ab => exact ⟨ab.1, ab.2, splitFirst_decomp hs⟩

theorem mem_last_decomp {sep : Char} {z : List Char} (h : sep ∈ z) :
    ∃ a b, z = a ++ sep :: b ∧ sep ∉ b := by
  have hrev : sep ∈ z.reverse := List.mem_reverse.mpr h
  obtain ⟨a, b, hz, hna⟩ := mem_first_decomp hrev
  refine ⟨b.reverse, a.reverse, ?_, by simpa using hna⟩
  have : z.reverse.reverse = (a ++ sep :: b).reverse := by rw [hz]
  simpa using this

theorem takeWhile_append_stop {p : Char → Bool} : ∀ {a : List Char},
    (∀ c ∈ a, p c = true) → ∀ {b : List Char},
    (b = [] ∨ ∃ h t, b = h :: t ∧ p h = false) →
    (a ++ b).takeWhile p = a ∧ (a ++ b).dropWhile p = b
  | [], _, b, hb => by
    rcases hb with rfl | ⟨h, t, rfl, hph⟩
    · simp
    · simp [List.takeWhile, List.dropWhile, hph]
  | d :: a', ha, b, hb => by
    have hd : p d = true := ha d (List.mem_cons_self d a')
    have ih := takeWhile_append_stop (fun c hc => ha c (List.mem_cons_of_mem d hc)) hb
    simp [List.takeWhile, List.dropWhile, hd, ih.1, ih.2]

theorem interCh_mem {sep : Char} : ∀ {L : List (List Char)} {c : Char},
    c ∈ interCh sep L → c = sep ∨ ∃ x ∈ L, c ∈ x
  | [], c => by simp [interCh]
  | [x], c => by
    intro h
    simp only [interCh] at h
    exact Or.inr ⟨x, by simp, h⟩
  | x :: y :: ys, c => by
    intro h
    simp only [interCh, List.mem_append, List.mem_cons] at h
    rcases h with hx | rfl | hr
    · exact Or.inr ⟨x, by simp, hx⟩
    · exact Or.inl rfl
    · rcases interCh_mem hr with rfl | ⟨w, hw, hcw⟩
      · exact Or.inl rfl
      · exact Or.inr ⟨w, by simp [hw], hcw⟩

theorem getLast?_ne_of_not_mem {z : List Char} {c : Char} (h : c ∉ z) :
    z.getLast? ≠ some c := by
  intro hl
  cases z with
  | nil => exact Option.noConfusion hl
  | cons d r =>
    exact h (List.mem_of_mem_getLast? hl)

theorem findIdx_eq_of_decomp {c : Char} : ∀ {a : List Char}, c ∉ a →
    ∀ (b : List Char) (i : Nat),
    (a ++ c :: b).findIdx? (fun x => x == c) i = some (i + a.length)
  | [], _, b, i => by simp [List.findIdx?_cons]
  | d :: a', h, b, i => by
    have hd : (d == c) = false := by
      simp only [beq_eq_false_iff_ne, ne_eq]
      exact fun hh => h (hh ▸ List.mem_cons_self d a')
    have ih := findIdx_eq_of_decomp (c := c) (a := a')
      (fun hh => h (List.mem_cons_of_mem d hh)) b (i + 1)
    rw [List.cons_append, List.findIdx?_cons, if_neg (by simp [hd]), ih]
    congr 1
    rw [List.length_cons]
    omega

theorem findIdx_none_of_not_mem {c : Char} {z : List Char} (h : c ∉ z) :
    z.findIdx? (fun x => x == c) = none := by
  rw [List.findIdx?_eq_none_iff]
  intro x hx
  simp only [beq_eq_false_iff_ne, ne_eq]
  exact fun hh => h (hh ▸ hx)

theorem rfindPos_eq_of_decomp {a b : List Char} (h : '/' ∉ b) :
    rfindPos '/' (a ++ '/' :: b) = some a.length := by
  have hnb : '/' ∉ b.reverse := by simpa using h
  have hidx : ((a ++ '/' :: b).reverse).findIdx? (fun x => x == '/') =
      some b.length := by
    have hrev : (a ++ '/' :: b).reverse = b.reverse ++ '/' :: a.reverse := by
      simp
    rw [hrev, findIdx_eq_of_decomp hnb a.reverse 0]
    simp
  unfold rfindPos
  rw [hidx]
  show some ((a ++ '/' :: b).length - 1 - b.length) = some a.length
  simp only [List.length_append, List.length_cons, Option.some.injEq]
  omega

theorem findPosFrom_none_of_decomp {c : Char} {g w : List Char} {k : Nat}
    (hg : g.length = k) (h : c ∉ w) :
    findPosFrom c (g ++ w) k = none := by
  unfold findPosFrom
  rw [List.drop_left' hg, findIdx_none_of_not_mem h]

theorem findPosFrom_some_of_decomp {c : Char} {g p r : List Char} {k : Nat}
    (hg : g.length = k) (h : c ∉ p) :
    findPosFrom c (g ++ (p ++ c :: r)) k = some (k + p.length) := by
  unfold findPosFrom
  rw [List.drop_left' hg, findIdx_eq_of_decomp h r 0]
  simp

theorem spl_noslash_none {z : List Char} (h1 : '/' ∉ z) (h2 : ';' ∉ z) :
    splitParams z = (z, []) := by
  have hfp : findPosFrom ';' z 0 = none := by
    have hh := findPosFrom_none_of_decomp (c := ';') (g := []) (w := z)
      List.length_nil h2
    simpa using hh
  unfold splitParams
  simp [h1, hfp]

theorem spl_noslash_some {p b : List Char} (h1 : '/' ∉ p ++ ';' :: b)
    (h2 : ';' ∉ p) : splitParams (p ++ ';' :: b) = (p, b) := by
  have hfp : findPosFrom ';' (p ++ ';' :: b) 0 = some p.length := by
    have hh := findPosFrom_some_of_decomp (c := ';') (g := []) (p := p) (r := b)
      List.length_nil h2
    simpa using hh
  unfold splitParams
  simp only [h1, if_false, hfp]
  rw [Prod.mk.injEq]
  constructor
  · exact List.take_left' rfl
  · have hb2 : p ++ ';' :: b = (p ++ [';']) ++ b := by simp
    rw [hb2]
    exact List.drop_left' (by simp)

theorem spl_slash_none {g d : List Char} (h1 : '/' ∉ d) (h2 : ';' ∉ d) :
    splitParams (g ++ '/' :: d) = (g ++ '/' :: d, []) := by
  have hmem : '/' ∈ g ++ '/' :: d := by simp
  have hrf := rfindPos_eq_of_decomp (a := g) h1
  have hr : findPosFrom ';' (g ++ '/' :: d) g.length = none :=
    findPosFrom_none_of_decomp rfl (by simp [h2])
  unfold splitParams
  simp [hmem, hrf, hr]

theorem spl_slash_some {g p b : List Char} (hp : '/' ∉ p) (hb : '/' ∉ b)
    (hsp : ';' ∉ p) :
    splitParams (g ++ '/' :: (p ++ ';' :: b)) = (g ++ '/' :: p, b) := by
  have hmem : '/' ∈ g ++ '/' :: (p ++ ';' :: b) := by simp
  have hnd : '/' ∉ p ++ ';' :: b := by simp [hp, hb]
  have hrf := rfindPos_eq_of_decomp (a := g) hnd
  have hfp : findPosFrom ';' (g ++ '/' :: (p ++ ';' :: b)) g.length =
      some (g.length + ('/' :: p).length) := by
    have hre : g ++ '/' :: (p ++ ';' :: b) = g ++ (('/' :: p) ++ ';' :: b) := by
      simp
    rw [hre]
    exact findPosFrom_some_of_decomp rfl (by simp [hsp])
  unfold splitParams
  simp only [hmem, if_true, hrf, hfp]
  rw [Prod.mk.injEq]
  constructor
  · have he : g ++ '/' :: (p ++ ';' :: b) = (g ++ '/' :: p) ++ ';' :: b := by simp
    rw [he]
    exact List.take_left' (by simp)
  · have he : g ++ '/' :: (p ++ ';' :: b) = ((g ++ '/' :: p) ++ [';']) ++ b := by
      simp
    rw [he]
    exact List.drop_left' (by simp; omega)

theorem pjoin_nil (pa : List Char) : pjoin pa [] = pa := by simp [pjoin]

theorem pjoin_ne_nil {pa pr : List Char} (h : pr ≠ []) :
    pjoin pa pr = pa ++ ';' :: pr := by simp [pjoin, h]

theorem parseParams_neg {s z : List Char} (h : ¬(s ∈ usesParams ∧ ';' ∈ z)) :
    parseParams s z = (z, []) := by
  unfold parseParams; rw [if_neg h]

theorem parseParams_pos {s z : List Char} (h : s ∈ usesParams ∧ ';' ∈ z) :
    parseParams s z = splitParams z := by
  unfold parseParams; rw [if_pos h]

/-- One parse/unparse round leaves the path either unchanged or cut just
before a `;`. -/
theorem pfix_shape (s x : List Char) :
    pfix s x = x ∨ ∃ y r, pfix s x = y ∧ x = y ++ ';' :: r := by
  by_cases hc : s ∈ usesParams ∧ ';' ∈ x
  · by_cases hsl : '/' ∈ x
    · obtain ⟨g, d, hx, hnd⟩ := mem_last_decomp hsl
      subst hx
      by_cases hsc : ';' ∈ d
      · obtain ⟨p, b, hd2, hnp⟩ := mem_first_decomp hsc
        subst hd2
        have hp : '/' ∉ p := fun hh => hnd (by simp [hh])
        have hb : '/' ∉ b := fun hh => hnd (by simp [hh])
        have hpp : parseParams s (g ++ '/' :: (p ++ ';' :: b)) =
            (g ++ '/' :: p, b) := by
          rw [parseParams_pos hc, spl_slash_some hp hb hnp]
        cases b with
        | nil =>
          refine Or.inr ⟨g ++ '/' :: p, [], ?_, by simp⟩
          unfold pfix; rw [hpp, pjoin_nil]
        | cons b0 bt =>
          refine Or.inl ?_
          unfold pfix; rw [hpp, pjoin_ne_nil (by simp)]
          simp
      · have hpp : parseParams s (g ++ '/' :: d) = (g ++ '/' :: d, []) := by
          rw [parseParams_pos hc, spl_slash_none hnd hsc]
        exact Or.inl (by unfold pfix; rw [hpp, pjoin_nil])
    · obtain ⟨p, b, hx, hnp⟩ := mem_first_decomp hc.2
      subst hx
      have hpp : parseParams s (p ++ ';' :: b) = (p, b) := by
        rw [parseParams_pos hc, spl_noslash_some hsl hnp]
      cases b with
      | nil =>
        refine Or.inr ⟨p, [], ?_, rfl⟩
        unfold pfix; rw [hpp, pjoin_nil]
      | cons b0 bt =>
        refine Or.inl ?_
        unfold pfix; rw [hpp, pjoin_ne_nil (by simp)]
  · exact Or.inl (by unfold pfix; rw [parseParams_neg hc, pjoin_nil])

/-- A second params split of an already split-and-rejoined path is the
identity. -/
theorem pfix_stable (s x : List Char) : pfix s (pfix s x) = pfix s x := by
  by_cases hc : s ∈ usesParams ∧ ';' ∈ x
  · by_cases hsl : '/' ∈ x
    · obtain ⟨g, d, hx, hnd⟩ := mem_last_decomp hsl
      subst hx
      by_cases hsc : ';' ∈ d
      · obtain ⟨p, b, hd2, hnp⟩ := mem_first_decomp hsc
        subst hd2
        have hp : '/' ∉ p := fun hh => hnd (by simp [hh])
        have hb : '/' ∉ b := fun hh => hnd (by simp [hh])
        have hpp : parseParams s (g ++ '/' :: (p ++ ';' :: b)) =
            (g ++ '/' :: p, b) := by
          rw [parseParams_pos hc, spl_slash_some hp hb hnp]
        cases b with
        | nil =>
          have h2 : pfix s (g ++ '/' :: (p ++ ';' :: [])) = g ++ '/' :: p := by
            unfold pfix; rw [hpp, pjoin_nil]
          rw [h2]
          by_cases hc2 : s ∈ usesParams ∧ ';' ∈ g ++ '/' :: p
          · have hpp2 : parseParams s (g ++ '/' :: p) = (g ++ '/' :: p, []) := by
              rw [parseParams_pos hc2, spl_slash_none hp hnp]
            unfold pfix; rw [hpp2, pjoin_nil]
          · unfold pfix; rw [parseParams_neg hc2, pjoin_nil]
        | cons b0 bt =>
          have h2 : pfix s (g ++ '/' :: (p ++ ';' :: (b0 :: bt))) =
              g ++ '/' :: (p ++ ';' :: (b0 :: bt)) := by
            unfold pfix; rw [hpp, pjoin_ne_nil (by simp)]
            simp
          rw [h2, h2]
      · have hpp : parseParams s (g ++ '/' :: d) = (g ++ '/' :: d, []) := by
          rw [parseParams_pos hc, spl_slash_none hnd hsc]
        have h2 : pfix s (g ++ '/' :: d) = g ++ '/' :: d := by
          unfold pfix; rw [hpp, pjoin_nil]
        rw [h2, h2]
    · obtain ⟨p, b, hx, hnp⟩ := mem_first_decomp hc.2
      subst hx
      have hpp : parseParams s (p ++ ';' :: b) = (p, b) := by
        rw [parseParams_pos hc, spl_noslash_some hsl hnp]
      cases b with
      | nil =>
        have h2 : pfix s (p ++ ';' :: []) = p := by
          unfold pfix; rw [hpp, pjoin_nil]
        rw [h2]
        have hc2 : ¬(s ∈ usesParams ∧ ';' ∈ p) := fun hh => hnp hh.2
        unfold pfix; rw [parseParams_neg hc2, pjoin_nil]
      | cons b0 bt =>
        have h2 : pfix s (p ++ ';' :: (b0 :: bt)) = p ++ ';' :: (b0 :: bt) := by
          unfold pfix; rw [hpp, pjoin_ne_nil (by simp)]
        rw [h2, h2]
  · have h2 : pfix s x = x := by
      unfold pfix; rw [parseParams_neg hc, pjoin_nil]
    rw [h2, h2]

theorem pfix_nil (s : List Char) : pfix s [] = [] := by
  unfold pfix
  rw [parseParams_neg (by simp), pjoin_nil]

theorem pfix_subset {s x : List Char} {c : Char} (h : c ∈ pfix s x) : c ∈ x := by
  rcases pfix_shape s x with he | ⟨y, r, he, hx⟩
  · exact he ▸ h
  · rw [hx]; simp [he ▸ h]

theorem pfix_head_slash {s x : List Char} (h : x.head? = some '/') :
    (pfix s x).head? = some '/' := by
  rcases pfix_shape s x with he | ⟨y, r, he, hx⟩
  · rw [he]; exact h
  · rw [he]
    cases y with
    | nil => rw [hx] at h; simp at h
    | cons y0 yt =>
      rw [hx] at h
      simpa using h

theorem urlsplitM_params_nil (url : List Char) : (urlsplitM url).params = [] := rfl

theorem urlparseM_d (url : List Char) :
    urlparseM url = ⟨(urlsplitM url).scheme, (urlsplitM url).netloc,
      (parseParams (urlsplitM url).scheme (urlsplitM url).path).1,
      (parseParams (urlsplitM url).scheme (urlsplitM url).path).2,
      (urlsplitM url).query, (urlsplitM url).fragment⟩ := by
  have hpr : (urlsplitM url).params = [] := rfl
  show (if (urlsplitM url).scheme ∈ usesParams ∧ ';' ∈ (urlsplitM url).path then
      (⟨(urlsplitM url).scheme, (urlsplitM url).netloc,
        (splitParams (urlsplitM url).path).1, (splitParams (urlsplitM url).path).2,
        (urlsplitM url).query, (urlsplitM url).fragment⟩ : UrlParts)
    else urlsplitM url) = _
  by_cases hc : (urlsplitM url).scheme ∈ usesParams ∧ ';' ∈ (urlsplitM url).path
  · rw [if_pos hc, parseParams_pos hc]
  · rw [if_neg hc, parseParams_neg hc]
    show urlsplitM url = ⟨(urlsplitM url).scheme, (urlsplitM url).netloc,
      (urlsplitM url).path, [], (urlsplitM url).query, (urlsplitM url).fragment⟩
    conv_rhs => rw [← hpr]

/-! ### C7 groundwork: character class facts -/

theorem toNat_ofNat_valid {n : Nat} (h : n.isValidChar) :
    (Char.ofNat n).toNat = n := by
  unfold Char.ofNat
  rw [dif_pos h]
  unfold Char.ofNatAux
  rfl

theorem char_ne_of_toNat {c d : Char} (h : c.toNat ≠ d.toNat) : c ≠ d :=
  fun he => h (he ▸ rfl)

theorem char_isUpper_toNat {c : Char} (h : c.isUpper = true) :
    65 ≤ c.toNat ∧ c.toNat ≤ 90 := by
  simp only [Char.isUpper, Bool.and_eq_true, decide_eq_true_eq] at h
  exact ⟨h.1, h.2⟩

theorem char_isLower_toNat {c : Char} (h : c.isLower = true) :
    97 ≤ c.toNat ∧ c.toNat ≤ 122 := by
  simp only [Char.isLower, Bool.and_eq_true, decide_eq_true_eq] at h
  exact ⟨h.1, h.2⟩

theorem char_isDigit_toNat {c : Char} (h : c.isDigit = true) :
    48 ≤ c.toNat ∧ c.toNat ≤ 57 := by
  simp only [Char.isDigit, Bool.and_eq_true, decide_eq_true_eq] at h
  exact ⟨h.1, h.2⟩

theorem char_isLower_of_toNat {c : Char} (h1 : 97 ≤ c.toNat)
    (h2 : c.toNat ≤ 122) : c.isLower = true := by
  simp only [Char.isLower, Bool.and_eq_true, decide_eq_true_eq]
  exact ⟨h1, h2⟩

theorem char_isAlpha_toNat {c : Char} (h : c.isAlpha = true) :
    (65 ≤ c.toNat ∧ c.toNat ≤ 90) ∨ (97 ≤ c.toNat ∧ c.toNat ≤ 122) := by
  simp only [Char.isAlpha, Bool.or_eq_true] at h
  rcases h with h | h
  · exact Or.inl (char_isUpper_toNat h)
  · exact Or.inr (char_isLower_toNat h)

/-- Characters emitted by `quote_plus` are printable and free of the URL
separators the reassembly relies on. -/
theorem safeChar_facts {c : Char} (h : safeChar c = true) :
    32 < c.toNat ∧ c ≠ '&' ∧ c ≠ '=' ∧ c ≠ '?' ∧ c ≠ '#' ∧ c ≠ '%' ∧
    c ≠ '+' ∧ c ≠ ':' := by
  have h38 : ('&').toNat = 38 := rfl
  have h61 : ('=').toNat = 61 := rfl
  have h63 : ('?').toNat = 63 := rfl
  have h35 : ('#').toNat = 35 := rfl
  have h37 : ('%').toNat = 37 := rfl
  have h43 : ('+').toNat = 43 := rfl
  have h58 : (':').toNat = 58 := rfl
  unfold safeChar at h
  simp only [Bool.or_eq_true, decide_eq_true_eq] at h
  have hb : (65 ≤ c.toNat ∧ c.toNat ≤ 90) ∨ (97 ≤ c.toNat ∧ c.toNat ≤ 122) ∨
      (48 ≤ c.toNat ∧ c.toNat ≤ 57) ∨ c.toNat = 95 ∨ c.toNat = 46 ∨
      c.toNat = 45 ∨ c.toNat = 126 := by
    rcases h with ((((h | h) | h) | h) | h) | h
    · rcases char_isAlpha_toNat h with h' | h'
      · exact Or.inl h'
      · exact Or.inr (Or.inl h')
    · exact Or.inr (Or.inr (Or.inl (char_isDigit_toNat h)))
    · subst h; simp
    · subst h; simp
    · subst h; simp
    · subst h; simp
  refine ⟨by omega, char_ne_of_toNat (by omega), char_ne_of_toNat (by omega),
    char_ne_of_toNat (by omega), char_ne_of_toNat (by omega),
    char_ne_of_toNat (by omega), char_ne_of_toNat (by omega),
    char_ne_of_toNat (by omega)⟩

theorem hexUpDigit_facts {m : Nat} (h : m < 16) :
    32 < (hexUpDigit m).toNat ∧ hexUpDigit m ≠ '&' ∧ hexUpDigit m ≠ '=' ∧
    hexUpDigit m ≠ '?' ∧ hexUpDigit m ≠ '#' ∧ hexUpDigit m ≠ '%' ∧
    hexUpDigit m ≠ '+' ∧ hexUpDigit m ≠ ':' := by
  interval_cases m <;> exact (by decide)

theorem hexVal_hexUpDigit {m : Nat} (h : m < 16) :
    hexVal (hexUpDigit m) = some m := by
  interval_cases m <;> exact (by decide)

theorem quoteChar_facts {c c' : Char} (h : c' ∈ quoteChar c) :
    32 < c'.toNat ∧ c' ≠ '&' ∧ c' ≠ '=' ∧ c' ≠ '?' ∧ c' ≠ '#' ∧ c' ≠ ':' := by
  unfold quoteChar at h
  by_cases h1 : c = ' '
  · rw [if_pos h1] at h
    simp only [List.mem_singleton] at h
    subst h; exact ⟨by decide, by decide, by decide, by decide, by decide,
      by decide⟩
  · rw [if_neg h1] at h
    by_cases h2 : safeChar c = true
    · rw [if_pos h2] at h
      simp only [List.mem_singleton] at h
      subst h
      obtain ⟨f1, f2, f3, f4, f5, _, _, f8⟩ := safeChar_facts h2
      exact ⟨f1, f2, f3, f4, f5, f8⟩
    · rw [if_neg h2] at h
      by_cases h3 : c.toNat < 256
      · rw [if_pos h3] at h
        simp only [List.mem_cons, List.not_mem_nil, or_false] at h
        rcases h with rfl | rfl | rfl
        · exact ⟨by decide, by decide, by decide, by decide, by decide,
            by decide⟩
        · obtain ⟨f1, f2, f3, f4, f5, _, _, f8⟩ :=
            hexUpDigit_facts (m := c.toNat / 16) (by omega)
          exact ⟨f1, f2, f3, f4, f5, f8⟩
        · obtain ⟨f1, f2, f3, f4, f5, _, _, f8⟩ :=
            hexUpDigit_facts (m := c.toNat % 16) (by omega)
          exact ⟨f1, f2, f3, f4, f5, f8⟩
      · rw [if_neg h3] at h
        simp only [List.mem_singleton] at h
        subst h
        have h38 : ('&').toNat = 38 := rfl
        have h61 : ('=').toNat = 61 := rfl
        have h63 : ('?').toNat = 63 := rfl
        have h35 : ('#').toNat = 35 := rfl
        have h58 : (':').toNat = 58 := rfl
        exact ⟨by omega, char_ne_of_toNat (by omega),
          char_ne_of_toNat (by omega), char_ne_of_toNat (by omega),
          char_ne_of_toNat (by omega), char_ne_of_toNat (by omega)⟩

theorem schemeChar_facts {c : Char} (h : schemeChar c = true) :
    32 < c.toNat ∧ c ≠ ':' ∧ c ≠ '?' ∧ c ≠ '#' ∧ c ≠ '/' := by
  have h58 : (':').toNat = 58 := rfl
  have h63 : ('?').toNat = 63 := rfl
  have h35 : ('#').toNat = 35 := rfl
  have h47 : ('/').toNat = 47 := rfl
  unfold schemeChar at h
  simp only [Char.isAlphanum, Bool.or_eq_true, decide_eq_true_eq] at h
  have hb : (65 ≤ c.toNat ∧ c.toNat ≤ 90) ∨ (97 ≤ c.toNat ∧ c.toNat ≤ 122) ∨
      (48 ≤ c.toNat ∧ c.toNat ≤ 57) ∨ c.toNat = 43 ∨ c.toNat = 45 ∨
      c.toNat = 46 := by
    rcases h with (((h | h) | h) | h) | h
    · rcases char_isAlpha_toNat h with h' | h'
      · exact Or.inl h'
      · exact Or.inr (Or.inl h')
    · exact Or.inr (Or.inr (Or.inl (char_isDigit_toNat h)))
    · subst h; simp
    · subst h; simp
    · subst h; simp
  exact ⟨by omega, char_ne_of_toNat (by omega), char_ne_of_toNat (by omega),
    char_ne_of_toNat (by omega), char_ne_of_toNat (by omega)⟩

theorem toLower_of_upper_range {c : Char} (h : c.toNat ≥ 65 ∧ c.toNat ≤ 90) :
    c.toLower = Char.ofNat (c.toNat + 32) := by
  unfold Char.toLower
  rw [if_pos h]

theorem toLower_of_not_upper_range {c : Char}
    (h : ¬(c.toNat ≥ 65 ∧ c.toNat ≤ 90)) : c.toLower = c := by
  unfold Char.toLower
  rw [if_neg h]

theorem toLower_toNat_upper {c : Char} (h : c.toNat ≥ 65 ∧ c.toNat ≤ 90) :
    c.toLower.toNat = c.toNat + 32 := by
  rw [toLower_of_upper_range h]
  exact toNat_ofNat_valid (Or.inl (by omega))

/-- `toLower` keeps scheme characters inside the class, is idempotent on
them, and keeps them printable. -/
theorem schemeChar_toLower {c : Char} (h : schemeChar c = true) :
    schemeChar c.toLower = true ∧ c.toLower.toLower = c.toLower ∧
    32 < c.toLower.toNat := by
  by_cases hu : c.toNat ≥ 65 ∧ c.toNat ≤ 90
  · have ht := toLower_toNat_upper hu
    have hlo : c.toLower.isLower = true :=
      char_isLower_of_toNat (by omega) (by omega)
    refine ⟨?_, ?_, by omega⟩
    · unfold schemeChar
      simp [Char.isAlphanum, Char.isAlpha, hlo]
    · exact toLower_of_not_upper_range (by omega)
  · rw [toLower_of_not_upper_range hu]
    exact ⟨h, toLower_of_not_upper_range hu, (schemeChar_facts h).1⟩

theorem isAlpha_toLower {c : Char} (h : c.isAlpha = true) :
    c.toLower.isAlpha = true := by
  by_cases hu : c.toNat ≥ 65 ∧ c.toNat ≤ 90
  · have ht := toLower_toNat_upper hu
    have hlo : c.toLower.isLower = true :=
      char_isLower_of_toNat (by omega) (by omega)
    simp [Char.isAlpha, hlo]
  · rw [toLower_of_not_upper_range hu]
    exact h

/-! ### C7 groundwork: the quote/unquote round trip -/

theorem map_eq_self_of_pointwise {f : Char → Char} : ∀ {l : List Char},
    (∀ x ∈ l, f x = x) → l.map f = l
  | [], _ => rfl
  | c :: r, h => by
    rw [List.map_cons, h c (List.mem_cons_self c r),
      map_eq_self_of_pointwise (fun x hx => h x (List.mem_cons_of_mem c hx))]

theorem plusSp_eq_self {l : List Char} (h : '+' ∉ l) : plusSp l = l := by
  unfold plusSp
  refine map_eq_self_of_pointwise (fun x hx => ?_)
  have he : x ≠ '+' := fun hp => h (hp ▸ hx)
  rw [if_neg he]

theorem quoteChar_no_plus {c : Char} (h : c ≠ ' ') : '+' ∉ quoteChar c := by
  unfold quoteChar
  rw [if_neg h]
  by_cases h2 : safeChar c = true
  · rw [if_pos h2]
    simpa using ((safeChar_facts h2).2.2.2.2.2.2.1).symm
  · rw [if_neg h2]
    by_cases h3 : c.toNat < 256
    · rw [if_pos h3]
      have hd1 := (hexUpDigit_facts (m := c.toNat / 16) (by omega)).2.2.2.2.2.2.1
      have hd2 := (hexUpDigit_facts (m := c.toNat % 16) (by omega)).2.2.2.2.2.2.1
      simp only [List.mem_cons, List.not_mem_nil, or_false]
      push_neg
      exact ⟨by decide, Ne.symm hd1, Ne.symm hd2⟩
    · rw [if_neg h3]
      have h43 : ('+').toNat = 43 := rfl
      simpa using (char_ne_of_toNat (by omega) : c ≠ '+').symm

theorem plusSp_quoteChar (c : Char) : plusSp (quoteChar c) = qChunk c := by
  by_cases h : c = ' '
  · subst h
    rfl
  · unfold qChunk
    rw [if_neg h, plusSp_eq_self (quoteChar_no_plus h)]

theorem plusSp_quotePlus (s : List Char) :
    plusSp (quotePlus s) = (s.map qChunk).flatten := by
  unfold quotePlus plusSp
  rw [List.map_flatten, List.map_map]
  congr 1
  exact List.map_congr_left (fun c _ => plusSp_quoteChar c)

theorem splitOnChar_ne_nil {sep : Char} : ∀ (z : List Char),
    splitOnChar sep z ≠ []
  | [] => by simp [splitOnChar]
  | c :: r => by
    simp only [splitOnChar]
    cases hr : splitOnChar sep r with
    | nil => simp
    | cons h t =>
      by_cases hc : c = sep
      · simp [hc]
      · simp [hc]

theorem splitOnChar_cons_of_ne {sep c : Char} (hc : c ≠ sep) {r : List Char}
    {h : List Char} {t : List (List Char)}
    (hr : splitOnChar sep r = h :: t) :
    splitOnChar sep (c :: r) = (c :: h) :: t := by
  simp [splitOnChar, hr, hc]

theorem splitOnChar_cons_of_eq {sep : Char} (r : List Char) :
    splitOnChar sep (sep :: r) = [] :: splitOnChar sep r := by
  cases hr : splitOnChar sep r with
  | nil => exact absurd hr (splitOnChar_ne_nil r)
  | cons h t =>
    simp [splitOnChar, hr]

theorem splitOnChar_no_sep {sep : Char} : ∀ {x : List Char}, sep ∉ x →
    splitOnChar sep x = [x]
  | [], _ => rfl
  | c :: r, h => by
    have hc : c ≠ sep := fun he => h (he ▸ List.mem_cons_self c r)
    have ih := splitOnChar_no_sep (fun hh => h (List.mem_cons_of_mem c hh))
    exact splitOnChar_cons_of_ne hc ih

theorem splitOnChar_append {sep : Char} : ∀ {x : List Char}, sep ∉ x →
    ∀ rest, splitOnChar sep (x ++ sep :: rest) = x :: splitOnChar sep rest
  | [], _, rest => by
    simpa using @splitOnChar_cons_of_eq sep rest
  | c :: x', h, rest => by
    have hc : c ≠ sep := fun he => h (he ▸ List.mem_cons_self c x')
    have ih := splitOnChar_append (fun hh => h (List.mem_cons_of_mem c hh)) rest
    exact splitOnChar_cons_of_ne hc ih

theorem unqDec_nil : unqDec [] = [] := rfl

theorem unqDec_cons_of_ne {c : Char} (hc : c ≠ '%') (r : List Char) :
    unqDec (c :: r) = c :: unqDec r := by
  cases hr : splitOnChar '%' r with
  | nil => exact absurd hr (splitOnChar_ne_nil r)
  | cons h t =>
    unfold unqDec
    rw [splitOnChar_cons_of_ne hc hr, hr]
    simp

theorem unqDec_esc {h1 h2 : Char} {x y : Nat} (e1 : h1 ≠ '%') (e2 : h2 ≠ '%')
    (v1 : hexVal h1 = some x) (v2 : hexVal h2 = some y) (r : List Char) :
    unqDec ('%' :: h1 :: h2 :: r) = Char.ofNat (16 * x + y) :: unqDec r := by
  cases hr : splitOnChar '%' r with
  | nil => exact absurd hr (splitOnChar_ne_nil r)
  | cons h t =>
    have s2 : splitOnChar '%' (h2 :: r) = (h2 :: h) :: t :=
      splitOnChar_cons_of_ne e2 hr
    have s1 : splitOnChar '%' (h1 :: h2 :: r) = (h1 :: h2 :: h) :: t :=
      splitOnChar_cons_of_ne e1 s2
    have s0 : splitOnChar '%' ('%' :: h1 :: h2 :: r) =
        [] :: (h1 :: h2 :: h) :: t := by
      rw [splitOnChar_cons_of_eq, s1]
    have hdp : decodePiece (h1 :: h2 :: h) = Char.ofNat (16 * x + y) :: h := by
      simp [decodePiece, v1, v2]
    unfold unqDec
    rw [s0, hr]
    simp [hdp]

theorem unqDec_qChunk (c : Char) (rest : List Char) :
    unqDec (qChunk c ++ rest) = c :: unqDec rest := by
  by_cases h : c = ' '
  · subst h
    exact unqDec_cons_of_ne (by decide) rest
  · unfold qChunk quoteChar
    rw [if_neg h, if_neg h]
    by_cases h2 : safeChar c = true
    · rw [if_pos h2]
      exact unqDec_cons_of_ne (safeChar_facts h2).2.2.2.2.2.1 rest
    · rw [if_neg h2]
      by_cases h3 : c.toNat < 256
      · rw [if_pos h3]
        have e1 := (hexUpDigit_facts (m := c.toNat / 16) (by omega)).2.2.2.2.2.1
        have e2 := (hexUpDigit_facts (m := c.toNat % 16) (by omega)).2.2.2.2.2.1
        have v1 := hexVal_hexUpDigit (m := c.toNat / 16) (by omega)
        have v2 := hexVal_hexUpDigit (m := c.toNat % 16) (by omega)
        have := unqDec_esc e1 e2 v1 v2 rest
        simpa [Nat.div_add_mod, Char.ofNat_toNat] using this
      · rw [if_neg h3]
        have h37 : ('%').toNat = 37 := rfl
        exact unqDec_cons_of_ne (char_ne_of_toNat (by omega)) rest

/-- `unquote_plus` is a left inverse of `quote_plus`. -/
theorem unquotePlus_quotePlus (s : List Char) :
    unquotePlus (quotePlus s) = s := by
  unfold unquotePlus
  rw [plusSp_quotePlus]
  induction s with
  | nil => rfl
  | cons c s' ih =>
    rw [List.map_cons, List.flatten_cons, unqDec_qChunk, ih]

theorem quotePlus_facts {k : List Char} {c : Char} (h : c ∈ quotePlus k) :
    32 < c.toNat ∧ c ≠ '&' ∧ c ≠ '=' ∧ c ≠ '?' ∧ c ≠ '#' ∧ c ≠ ':' := by
  unfold quotePlus at h
  rw [List.mem_flatten] at h
  obtain ⟨l, hl, hc⟩ := h
  rw [List.mem_map] at hl
  obtain ⟨d, _, rfl⟩ := hl
  exact quoteChar_facts hc

theorem urlencodeQs_facts {d : List (List Char × List (List Char))} {c : Char}
    (h : c ∈ urlencodeQs d) : 32 < c.toNat ∧ c ≠ '?' ∧ c ≠ '#' ∧ c ≠ ':' := by
  unfold urlencodeQs qsChunks at h
  rcases interCh_mem h with rfl | ⟨x, hx, hcx⟩
  · exact ⟨by decide, by decide, by decide, by decide⟩
  · rw [List.mem_flatten] at hx
    obtain ⟨l, hl, hxl⟩ := hx
    rw [List.mem_map] at hl
    obtain ⟨kv, _, rfl⟩ := hl
    rw [List.mem_map] at hxl
    obtain ⟨v, _, rfl⟩ := hxl
    rw [List.mem_append] at hcx
    rcases hcx with hk | hv
    · obtain ⟨f1, _, _, f4, f5, f6⟩ := quotePlus_facts hk
      exact ⟨f1, f4, f5, f6⟩
    · rw [List.mem_cons] at hv
      rcases hv with rfl | hv
      · exact ⟨by decide, by decide, by decide, by decide⟩
      · obtain ⟨f1, _, _, f4, f5, f6⟩ := quotePlus_facts hv
        exact ⟨f1, f4, f5, f6⟩

/-! ### C7 groundwork: the parse_qs / urlencode round trip -/

theorem map_eq_self_pointwise {α : Type} {f : α → α} : ∀ {l : List α},
    (∀ x ∈ l, f x = x) → l.map f = l
  | [], _ => rfl
  | c :: r, h => by
    rw [List.map_cons, h c (List.mem_cons_self c r),
      map_eq_self_pointwise (fun x hx => h x (List.mem_cons_of_mem c hx))]

theorem filterMap_eq_map_pointwise {α β : Type} {F : α → Option β}
    {G : α → β} : ∀ {l : List α}, (∀ x ∈ l, F x = some (G x)) →
    l.filterMap F = l.map G
  | [], _ => rfl
  | c :: r, h => by
    have ih := filterMap_eq_map_pointwise
      (fun x hx => h x (List.mem_cons_of_mem c hx))
    simp [List.filterMap_cons, h c (List.mem_cons_self c r), ih]

theorem qsChunks_mem {d : List (List Char × List (List Char))} {e : List Char}
    (h : e ∈ qsChunks d) : ∃ k v, e = quotePlus k ++ '=' :: quotePlus v := by
  unfold qsChunks at h
  rw [List.mem_flatten] at h
  obtain ⟨l, hl, hel⟩ := h
  rw [List.mem_map] at hl
  obtain ⟨kv, _, rfl⟩ := hl
  rw [List.mem_map] at hel
  obtain ⟨v, _, rfl⟩ := hel
  exact ⟨kv.1, v, rfl⟩

theorem qsChunk_props {k v : List Char} :
    quotePlus k ++ '=' :: quotePlus v ≠ [] ∧
    '&' ∉ quotePlus k ++ '=' :: quotePlus v := by
  constructor
  · simp
  · intro hm
    rw [List.mem_append] at hm
    rcases hm with hm | hm
    · exact (quotePlus_facts hm).2.1 rfl
    · rw [List.mem_cons] at hm
      rcases hm with he | hm
      · exact absurd he (by decide)
      · exact (quotePlus_facts hm).2.1 rfl

theorem splitOnChar_interCh {sep : Char} : ∀ {L : List (List Char)},
    (∀ x ∈ L, sep ∉ x) → L ≠ [] →
    splitOnChar sep (interCh sep L) = L
  | [], _, hne => absurd rfl hne
  | [x], h, _ => by
    simp only [interCh]
    exact splitOnChar_no_sep (h x (by simp))
  | x :: y :: ys, h, _ => by
    simp only [interCh]
    rw [splitOnChar_append (h x (by simp)) _]
    rw [splitOnChar_interCh (fun z hz => h z (by simp [hz])) (by simp)]

theorem qsPiece_chunk (k v : List Char) :
    qsPiece (quotePlus k ++ '=' :: quotePlus v) = some (k, v) := by
  have hne := (qsChunk_props (k := k) (v := v)).1
  have hsp := @splitFirst_append '=' (quotePlus k)
    (fun hm => (quotePlus_facts hm).2.2.1 rfl) (quotePlus v)
  simp [qsPiece, hne, hsp, unquotePlus_quotePlus]

theorem filterMap_qsPiece_qsChunks :
    ∀ (d : List (List Char × List (List Char))),
    (qsChunks d).filterMap qsPiece = flatkv d
  | [] => rfl
  | (k, vs) :: d' => by
    have ih := filterMap_qsPiece_qsChunks d'
    unfold qsChunks flatkv at ih ⊢
    simp only [List.map_cons, List.flatten_cons, List.filterMap_append]
    have h1 : ((vs.map (fun v => quotePlus k ++ '=' :: quotePlus v)).filterMap
        qsPiece) = vs.map (fun v => (k, v)) := by
      rw [List.filterMap_map]
      exact filterMap_eq_map_pointwise (fun v _ => qsPiece_chunk k v)
    rw [h1, ih]

theorem parseQsl_urlencodeQs (d : List (List Char × List (List Char))) :
    parseQsl (urlencodeQs d) = flatkv d := by
  by_cases hc : qsChunks d = []
  · have hfl : flatkv d = [] := by
      unfold qsChunks at hc
      unfold flatkv
      rw [List.flatten_eq_nil_iff] at hc ⊢
      intro l hl
      rw [List.mem_map] at hl
      obtain ⟨kv, hkv, rfl⟩ := hl
      have h2 := hc (kv.2.map (fun v => quotePlus kv.1 ++ '=' :: quotePlus v))
        (List.mem_map_of_mem _ hkv)
      rw [List.map_eq_nil_iff] at h2 ⊢
      exact h2
    rw [hfl]
    unfold urlencodeQs
    rw [hc]
    rfl
  · have hfree : ∀ x ∈ qsChunks d, '&' ∉ x := by
      intro x hx
      obtain ⟨k, v, rfl⟩ := qsChunks_mem hx
      exact (qsChunk_props (k := k) (v := v)).2
    unfold urlencodeQs parseQsl
    rw [splitOnChar_interCh hfree hc]
    exact filterMap_qsPiece_qsChunks d

theorem foldl_addQsPair_same_key : ∀ (vs : List (List Char))
    (acc : List (List Char × List (List Char))) (k : List Char)
    (w : List (List Char)), k ∉ acc.map Prod.fst →
    ((vs.map (fun v => (k, v))).foldl addQsPair (acc ++ [(k, w)])) =
      acc ++ [(k, w ++ vs)]
  | [], acc, k, w, _ => by simp
  | v :: vs', acc, k, w, hk => by
    have hstep : addQsPair (acc ++ [(k, w)]) (k, v) = acc ++ [(k, w ++ [v])] := by
      have hany : (acc ++ [(k, w)]).any (fun e => e.1 == k) = true := by
        rw [List.any_append]
        simp
      simp only [addQsPair]
      rw [if_pos hany, List.map_append]
      congr 1
      · refine map_eq_self_pointwise (fun e he => ?_)
        have hek : e.1 ≠ k := fun hek => hk (hek ▸ List.mem_map_of_mem Prod.fst he)
        simp [hek]
      · simp
    rw [List.map_cons, List.foldl_cons, hstep]
    rw [foldl_addQsPair_same_key vs' acc k (w ++ [v]) hk]
    simp

theorem foldl_addQsPair_new_key {acc : List (List Char × List (List Char))}
    {k : List Char} {vs : List (List Char)} (hk : k ∉ acc.map Prod.fst)
    (hvs : vs ≠ []) :
    (vs.map (fun v => (k, v))).foldl addQsPair acc = acc ++ [(k, vs)] := by
  cases vs with
  | nil => exact absurd rfl hvs
  | cons v0 vs' =>
    have hstep : addQsPair acc (k, v0) = acc ++ [(k, [v0])] := by
      have hany : ¬(acc.any (fun e => e.1 == k) = true) := by
        rw [List.any_eq_true]
        rintro ⟨e, he, heq⟩
        exact hk ((eq_of_beq heq) ▸ List.mem_map_of_mem Prod.fst he)
      simp only [addQsPair]
      rw [if_neg hany]
    rw [List.map_cons, List.foldl_cons, hstep]
    rw [foldl_addQsPair_same_key vs' acc k [v0] hk]
    simp

theorem foldl_addQsPair_flatkv : ∀ (d : List (List Char × List (List Char)))
    (acc : List (List Char × List (List Char))),
    (acc.map Prod.fst).Disjoint (d.map Prod.fst) →
    (d.map Prod.fst).Nodup → (∀ kv ∈ d, kv.2 ≠ []) →
    (flatkv d).foldl addQsPair acc = acc ++ d
  | [], acc, _, _, _ => by simp [flatkv]
  | (k, vs) :: d', acc, hdisj, hnd, hne => by
    unfold flatkv
    simp only [List.map_cons, List.flatten_cons]
    rw [List.foldl_append]
    have hk : k ∉ acc.map Prod.fst := fun hm => hdisj hm (by simp)
    have hvs : vs ≠ [] := hne (k, vs) (by simp)
    rw [foldl_addQsPair_new_key hk hvs]
    have hnd2 : (d'.map Prod.fst).Nodup := by
      simp only [List.map_cons, List.nodup_cons] at hnd
      exact hnd.2
    have hkd : k ∉ d'.map Prod.fst := by
      simp only [List.map_cons, List.nodup_cons] at hnd
      exact hnd.1
    have hdisj2 : ((acc ++ [(k, vs)]).map Prod.fst).Disjoint
        (d'.map Prod.fst) := by
      intro x hx hx2
      rw [List.map_append, List.mem_append] at hx
      rcases hx with hx | hx
      · exact hdisj hx (by simp [hx2])
      · simp at hx
        subst hx
        exact hkd hx2
    have ih := foldl_addQsPair_flatkv d' (acc ++ [(k, vs)]) hdisj2 hnd2
      (fun kv hkv => hne kv (List.mem_cons_of_mem _ hkv))
    unfold flatkv at ih
    rw [ih]
    simp

theorem parseQs_urlencodeQs {d : List (List Char × List (List Char))}
    (h : qsWf d) : parseQs (urlencodeQs d) = d := by
  unfold parseQs
  rw [parseQsl_urlencodeQs]
  have h2 := foldl_addQsPair_flatkv d [] (by intro x hx; simp at hx) h.1 h.2
  simpa using h2

theorem addQsPair_wf {acc : List (List Char × List (List Char))}
    {kv : List Char × List Char}
    (h : (acc.map Prod.fst).Nodup ∧ ∀ e ∈ acc, e.2 ≠ []) :
    ((addQsPair acc kv).map Prod.fst).Nodup ∧
      ∀ e ∈ addQsPair acc kv, e.2 ≠ [] := by
  unfold addQsPair
  by_cases hany : acc.any (fun e => e.1 == kv.1) = true
  · rw [if_pos hany]
    constructor
    · have hmap : ((acc.map (fun e =>
          if e.1 == kv.1 then (e.1, e.2 ++ [kv.2]) else e)).map Prod.fst) =
          acc.map Prod.fst := by
        rw [List.map_map]
        refine List.map_congr_left (fun e _ => ?_)
        by_cases he : e.1 = kv.1
        · simp [he]
        · simp [he]
      rw [hmap]
      exact h.1
    · intro e he
      rw [List.mem_map] at he
      obtain ⟨e0, he0, rfl⟩ := he
      by_cases he1 : e0.1 = kv.1
      · simp [he1]
      · have hid : (if e0.1 == kv.1 then (e0.1, e0.2 ++ [kv.2]) else e0) = e0 := by
          simp [he1]
        rw [hid]
        exact h.2 e0 he0
  · rw [if_neg hany]
    rw [List.any_eq_true] at hany
    constructor
    · rw [List.map_append, List.nodup_append]
      refine ⟨h.1, by simp, ?_⟩
      intro x hx hx2
      simp at hx2
      subst hx2
      rw [List.mem_map] at hx
      obtain ⟨e, he, hfst⟩ := hx
      exact hany ⟨e, he, beq_iff_eq.mpr hfst⟩
    · intro e he
      rw [List.mem_append] at he
      rcases he with he | he
      · exact h.2 e he
      · simp at he
        subst he
        simp

theorem foldl_addQsPair_wf : ∀ (l : List (List Char × List Char))
    (acc : List (List Char × List (List Char))),
    ((acc.map Prod.fst).Nodup ∧ ∀ e ∈ acc, e.2 ≠ []) →
    (((l.foldl addQsPair acc).map Prod.fst).Nodup ∧
      ∀ e ∈ l.foldl addQsPair acc, e.2 ≠ [])
  | [], _, h => h
  | kv :: l', acc, h => foldl_addQsPair_wf l' (addQsPair acc kv) (addQsPair_wf h)

theorem parseQs_wf (q : List Char) : qsWf (parseQs q) := by
  unfold qsWf parseQs
  exact foldl_addQsPair_wf (parseQsl q) [] (by constructor <;> simp)

theorem qsWf_filter {d : List (List Char × List (List Char))}
    (p : List Char × List (List Char) → Bool) (h : qsWf d) :
    qsWf (d.filter p) := by
  constructor
  · exact List.Nodup.sublist (List.Sublist.map Prod.fst (List.filter_sublist d))
      h.1
  · intro kv hkv
    exact h.2 kv (List.mem_of_mem_filter hkv)

theorem filter_filter_self {d : List (List Char × List (List Char))}
    (p : List Char × List (List Char) → Bool) :
    (d.filter p).filter p = d.filter p :=
  List.filter_eq_self.mpr (fun _ ha => List.of_mem_filter ha)

/-- Re-encoding the filtered parse of an already cleaned query is the
identity. -/
theorem urlencode_filter_fix (p : List Char × List (List Char) → Bool)
    (q : List Char) :
    urlencodeQs ((parseQs (urlencodeQs ((parseQs q).filter p))).filter p) =
      urlencodeQs ((parseQs q).filter p) := by
  rw [parseQs_urlencodeQs (qsWf_filter p (parseQs_wf q)), filter_filter_self]

/-! ### C7 groundwork: urlsplit components -/

theorem urlsplitM_scheme (url : List Char) :
    (urlsplitM url).scheme = (splitScheme (removeTabsNl url)).1 := rfl

theorem urlsplitM_netloc (url : List Char) :
    (urlsplitM url).netloc =
      (splitNetloc (splitScheme (removeTabsNl url)).2).1 := rfl

theorem urlsplitM_path (url : List Char) :
    (urlsplitM url).path =
      (qsplit (fsplit (splitNetloc (splitScheme (removeTabsNl url)).2).2).1).1 :=
  rfl

theorem urlsplitM_query (url : List Char) :
    (urlsplitM url).query =
      (qsplit (fsplit (splitNetloc (splitScheme (removeTabsNl url)).2).2).1).2 :=
  rfl

theorem urlsplitM_fragment (url : List Char) :
    (urlsplitM url).fragment =
      (fsplit (splitNetloc (splitScheme (removeTabsNl url)).2).2).2 := rfl

theorem fsplit_no_frag {z : List Char} (h : '#' ∉ z) : fsplit z = (z, []) := by
  unfold fsplit
  rw [splitFirst_none_iff.mpr h]

theorem qsplit_none {z : List Char} (h : '?' ∉ z) : qsplit z = (z, []) := by
  unfold qsplit
  rw [splitFirst_none_iff.mpr h]

theorem qsplit_split {a : List Char} (h : '?' ∉ a) (b : List Char) :
    qsplit (a ++ '?' :: b) = (a, b) := by
  unfold qsplit
  rw [splitFirst_append h b]

/-- The pre-`?` part is a `?`-free prefix. -/
theorem qsplit_spec (z : List Char) :
    '?' ∉ (qsplit z).1 ∧ ∃ w, z = (qsplit z).1 ++ w := by
  unfold qsplit
  cases hsp : splitFirst '?' z with
  | none => exact ⟨splitFirst_none_iff.mp hsp, [], by simp⟩
  | some ab =>
    obtain ⟨hz, hna⟩ := splitFirst_decomp hsp
    exact ⟨hna, '?' :: ab.2, hz⟩

theorem splitNetloc_of_ne_nil {m : List Char} (h : (splitNetloc m).1 ≠ []) :
    splitNetloc m = ((m.drop 2).takeWhile notNetlocEnd,
      (m.drop 2).dropWhile notNetlocEnd) := by
  unfold splitNetloc at h ⊢
  by_cases hc : m.take 2 = ['/', '/']
  · rw [if_pos hc]
  · rw [if_neg hc] at h
    simp at h

theorem splitScheme_eq_none {z : List Char} (h : splitFirst ':' z = none) :
    splitScheme z = ([], z) := by
  unfold splitScheme
  rw [h]

theorem splitScheme_eq_accept {z post : List Char} {c0 : Char} {p2 : List Char}
    (hsp : splitFirst ':' z = some (c0 :: p2, post))
    (hacc : (c0.isAlpha && (c0 :: p2).all schemeChar) = true) :
    splitScheme z = (lowerL (c0 :: p2), post) := by
  unfold splitScheme
  rw [hsp]
  show (if (c0.isAlpha && (c0 :: p2).all schemeChar) = true
      then (lowerL (c0 :: p2), post) else ([], z)) = (lowerL (c0 :: p2), post)
  rw [if_pos hacc]

/-- A nonempty parsed scheme arises exactly from an accepted `:`-split. -/
theorem splitScheme_of_ne_nil {z : List Char} (h : (splitScheme z).1 ≠ []) :
    ∃ c0 p2 post, splitFirst ':' z = some (c0 :: p2, post) ∧
      (c0.isAlpha && (c0 :: p2).all schemeChar) = true ∧
      splitScheme z = (lowerL (c0 :: p2), post) := by
  cases hsp : splitFirst ':' z with
  | none => exact absurd (congrArg Prod.fst (splitScheme_eq_none hsp)) h
  | some ab =>
    obtain ⟨pre, post⟩ := ab
    cases pre with
    | nil =>
      have he : splitScheme z = ([], z) := by
        unfold splitScheme
        rw [hsp]
      exact absurd (congrArg Prod.fst he) h
    | cons c0 p2 =>
      by_cases hacc : (c0.isAlpha && (c0 :: p2).all schemeChar) = true
      · exact ⟨c0, p2, post, rfl, hacc, splitScheme_eq_accept hsp hacc⟩
      · have he : splitScheme z = ([], z) := by
          unfold splitScheme
          rw [hsp]
          show (if (c0.isAlpha && (c0 :: p2).all schemeChar) = true
              then (lowerL (c0 :: p2), post) else ([], z)) = ([], z)
          rw [if_neg hacc]
        exact absurd (congrArg Prod.fst he) h

theorem dropWhile_head_fails {p : Char → Bool} : ∀ {u : List Char} {c : Char}
    {t : List Char}, u.dropWhile p = c :: t → p c = false
  | [], c, t => by simp [List.dropWhile]
  | d :: r, c, t => by
    rw [List.dropWhile_cons]
    by_cases hd : p d = true
    · rw [if_pos hd]
      exact dropWhile_head_fails
    · rw [if_neg hd]
      intro h
      injection h with h1 _
      subst h1
      simpa using hd

theorem removeTabsNl_subset {u : List Char} {c : Char}
    (h : c ∈ removeTabsNl u) : c ∈ u := by
  unfold removeTabsNl at h
  exact (List.dropWhile_sublist _).subset (List.mem_of_mem_filter h)

theorem removeTabsNl_no_tcn {u : List Char} {c : Char}
    (h : c ∈ removeTabsNl u) : ¬(c = '\t' ∨ c = '\r' ∨ c = '\n') := by
  unfold removeTabsNl at h
  have h2 := List.of_mem_filter h
  intro hc
  rcases hc with rfl | rfl | rfl <;> simp at h2

theorem removeTabsNl_head_gt32 {u : List Char} {c : Char} {t : List Char}
    (h : removeTabsNl u = c :: t) : 32 < c.toNat := by
  unfold removeTabsNl at h
  cases hw : u.dropWhile (fun c => c.toNat ≤ 32) with
  | nil => rw [hw] at h; simp at h
  | cons h0 t0 =>
    rw [hw] at h
    have hh0 : ¬(h0.toNat ≤ 32) := by
      have hf := dropWhile_head_fails hw
      simpa using hf
    have h9 : ('\t').toNat = 9 := rfl
    have h13 : ('\r').toNat = 13 := rfl
    have h10 : ('\n').toNat = 10 := rfl
    have hne1 : h0 ≠ '\t' := char_ne_of_toNat (by omega)
    have hne2 : h0 ≠ '\r' := char_ne_of_toNat (by omega)
    have hne3 : h0 ≠ '\n' := char_ne_of_toNat (by omega)
    have hkeep : (!(h0 == '\t' || h0 == '\r' || h0 == '\n')) = true := by
      simp [hne1, hne2, hne3]
    rw [List.filter_cons, if_pos hkeep] at h
    injection h with h1 _
    subst h1
    omega

theorem lowerL_scheme_props {pre : List Char} (h : pre.all schemeChar = true) :
    (lowerL pre).all schemeChar = true ∧ lowerL (lowerL pre) = lowerL pre ∧
    ∀ c ∈ lowerL pre, 32 < c.toNat := by
  rw [List.all_eq_true] at h
  refine ⟨?_, ?_, ?_⟩
  · rw [List.all_eq_true]
    intro c hc
    unfold lowerL at hc
    rw [List.mem_map] at hc
    obtain ⟨c0, hc0, rfl⟩ := hc
    exact (schemeChar_toLower (h c0 hc0)).1
  · unfold lowerL
    rw [List.map_map]
    exact List.map_congr_left (fun c hc => (schemeChar_toLower (h c hc)).2.1)
  · intro c hc
    unfold lowerL at hc
    rw [List.mem_map] at hc
    obtain ⟨c0, hc0, rfl⟩ := hc
    exact (schemeChar_toLower (h c0 hc0)).2.2

theorem urlunparseM_pjoin (s nl pa pr q f : List Char) :
    urlunparseM ⟨s, nl, pa, pr, q, f⟩ = urlunsplitM s nl (pjoin pa pr) q f :=
  rfl

/-- Expansion of `urlunsplit` for a nonempty scheme and authority and an
absolute (or empty) path, with no fragment. -/
theorem urlunsplitM_std {s nl p2 q : List Char} (hs : s ≠ []) (hnl : nl ≠ [])
    (hp2 : p2 = [] ∨ p2.head? = some '/') :
    urlunsplitM s nl p2 q [] =
      s ++ ':' :: '/' :: '/' ::
        (nl ++ (p2 ++ (if q = [] then [] else '?' :: q))) := by
  have hcond : nl ≠ [] ∨ (s ≠ [] ∧ s ∈ usesNetloc ∧ p2.take 2 ≠ ['/', '/']) :=
    Or.inl hnl
  have hpre : ¬(p2 ≠ [] ∧ p2.take 1 ≠ ['/']) := by
    rcases hp2 with rfl | hh
    · simp
    · cases p2 with
      | nil => simp
      | cons c t =>
        simp only [List.head?_cons, Option.some.injEq] at hh
        subst hh
        simp
  simp only [urlunsplitM]
  rw [if_pos hcond, if_neg hpre, if_pos hs]
  by_cases hq : q = []
  · subst hq
    rw [if_neg (by simp), if_neg (by simp), if_pos rfl]
    simp
  · rw [if_pos hq, if_neg (by simp), if_neg hq]
    simp

/-- Re-parsing the canonical reassembled URL recovers its components. -/
theorem urlsplitM_reparse {s nl path2 cq : List Char}
    (hhead : ∃ d t, s = d :: t ∧ d.isAlpha = true)
    (hs_sc : ∀ c ∈ s, schemeChar c = true)
    (hs_low : lowerL s = s)
    (hnl : ∀ c ∈ nl, notNetlocEnd c = true)
    (hnl_cl : ∀ c ∈ nl, ¬(c = '\t' ∨ c = '\r' ∨ c = '\n'))
    (hp2 : path2 = [] ∨ path2.head? = some '/')
    (hp2_cl : ∀ c ∈ path2, ¬(c = '\t' ∨ c = '\r' ∨ c = '\n'))
    (hp2_nf : '#' ∉ path2) (hp2_nq : '?' ∉ path2)
    (hcq : ∀ c ∈ cq, 32 < c.toNat ∧ c ≠ '?' ∧ c ≠ '#') :
    urlsplitM (s ++ ':' :: '/' :: '/' ::
        (nl ++ (path2 ++ (if cq = [] then [] else '?' :: cq)))) =
      ⟨s, nl, path2, [], cq, []⟩ := by
  obtain ⟨c0, s2, rfl, halpha⟩ := hhead
  have h9 : ('\t').toNat = 9 := rfl
  have h13 : ('\r').toNat = 13 := rfl
  have h10 : ('\n').toNat = 10 := rfl
  have not_tcn_of_32 : ∀ {c : Char}, 32 < c.toNat →
      ¬(c = '\t' ∨ c = '\r' ∨ c = '\n') := by
    intro c h32 hc
    rcases hc with rfl | rfl | rfl <;> omega
  have hqs_facts : ∀ c ∈ (if cq = [] then ([] : List Char) else '?' :: cq),
      32 < c.toNat ∧ c ≠ '#' := by
    by_cases hcqe : cq = []
    · simp [hcqe]
    · rw [if_neg hcqe]
      intro c hc
      rcases List.mem_cons.mp hc with rfl | hc
      · exact ⟨by decide, by decide⟩
      · exact ⟨(hcq c hc).1, (hcq c hc).2.2⟩
  have h32s : ∀ c ∈ c0 :: s2, 32 < c.toNat :=
    fun c hc => (schemeChar_facts (hs_sc c hc)).1
  -- step 0: the stripping pass leaves the reassembled URL unchanged
  have e0 : removeTabsNl ((c0 :: s2) ++ ':' :: '/' :: '/' ::
      (nl ++ (path2 ++ (if cq = [] then [] else '?' :: cq)))) =
      (c0 :: s2) ++ ':' :: '/' :: '/' ::
      (nl ++ (path2 ++ (if cq = [] then [] else '?' :: cq))) := by
    unfold removeTabsNl
    have hc0 : ¬(c0.toNat ≤ 32) := by
      have := h32s c0 (List.mem_cons_self c0 s2)
      omega
    rw [List.cons_append, List.dropWhile_cons, if_neg (by simpa using hc0)]
    refine List.filter_eq_self.mpr (fun c hc => ?_)
    have hnottcn : ¬(c = '\t' ∨ c = '\r' ∨ c = '\n') := by
      simp only [List.mem_cons, List.mem_append, List.mem_cons] at hc
      rcases hc with rfl | hc
      · exact not_tcn_of_32 (h32s _ (List.mem_cons_self _ _))
      rcases hc with hc | hc
      · exact not_tcn_of_32 (h32s c (List.mem_cons_of_mem _ hc))
      rcases hc with rfl | hc
      · exact not_tcn_of_32 (by decide)
      rcases hc with rfl | hc
      · exact not_tcn_of_32 (by decide)
      rcases hc with rfl | hc
      · exact not_tcn_of_32 (by decide)
      rcases hc with hc | hc
      · exact hnl_cl c hc
      rcases hc with hc | hc
      · exact hp2_cl c hc
      · exact not_tcn_of_32 (hqs_facts c hc).1
    push_neg at hnottcn
    simp [hnottcn.1, hnottcn.2.1, hnottcn.2.2]
  -- step 1: the scheme is recovered
  have hns : ':' ∉ c0 :: s2 := fun hm => (schemeChar_facts (hs_sc _ hm)).2.1 rfl
  have hacc : (c0.isAlpha && (c0 :: s2).all schemeChar) = true := by
    rw [Bool.and_eq_true]
    exact ⟨halpha, List.all_eq_true.mpr hs_sc⟩
  have e1 : splitScheme ((c0 :: s2) ++ ':' :: '/' :: '/' ::
      (nl ++ (path2 ++ (if cq = [] then [] else '?' :: cq)))) =
      (c0 :: s2, '/' :: '/' ::
        (nl ++ (path2 ++ (if cq = [] then [] else '?' :: cq)))) := by
    have h1 := splitScheme_eq_accept (splitFirst_append hns ('/' :: '/' ::
      (nl ++ (path2 ++ (if cq = [] then [] else '?' :: cq))))) hacc
    rw [hs_low] at h1
    exact h1
  -- step 2: the netloc is recovered
  have hstop : (path2 ++ (if cq = [] then [] else '?' :: cq)) = [] ∨
      ∃ h t, (path2 ++ (if cq = [] then [] else '?' :: cq)) = h :: t ∧
        notNetlocEnd h = false := by
    rcases hp2 with rfl | hh
    · by_cases hcqe : cq = []
      · exact Or.inl (by simp [hcqe])
      · exact Or.inr ⟨'?', cq, by simp [hcqe], by decide⟩
    · cases path2 with
      | nil => simp at hh
      | cons c t =>
        simp only [List.head?_cons, Option.some.injEq] at hh
        subst hh
        exact Or.inr ⟨'/', t ++ (if cq = [] then [] else '?' :: cq),
          by simp, by decide⟩
  have htw := takeWhile_append_stop (p := notNetlocEnd) hnl hstop
  have e2 : splitNetloc ('/' :: '/' ::
      (nl ++ (path2 ++ (if cq = [] then [] else '?' :: cq)))) =
      (nl, path2 ++ (if cq = [] then [] else '?' :: cq)) := by
    unfold splitNetloc
    rw [if_pos (show List.take 2 ('/' :: '/' ::
      (nl ++ (path2 ++ (if cq = [] then [] else '?' :: cq)))) = ['/', '/']
      from rfl)]
    simp only [List.drop_succ_cons, List.drop_zero]
    rw [Prod.mk.injEq]
    exact ⟨htw.1, htw.2⟩
  -- step 3: no fragment
  have e3 : fsplit (path2 ++ (if cq = [] then [] else '?' :: cq)) =
      (path2 ++ (if cq = [] then [] else '?' :: cq), []) := by
    refine fsplit_no_frag (fun hm => ?_)
    rw [List.mem_append] at hm
    rcases hm with hm | hm
    · exact hp2_nf hm
    · exact (hqs_facts '#' hm).2 rfl
  -- step 4: the query is recovered
  have e4 : qsplit (path2 ++ (if cq = [] then [] else '?' :: cq)) =
      (path2, cq) := by
    by_cases hcqe : cq = []
    · subst hcqe
      rw [if_pos rfl]
      rw [List.append_nil]
      exact qsplit_none hp2_nq
    · rw [if_neg hcqe]
      exact qsplit_split hp2_nq cq
  simp only [urlsplitM, e0, e1, e2, e3, e4]

theorem cleanFacebookUrl_expand (u : List Char) (hu : u ≠ []) :
    cleanFacebookUrl u =
      (if (urlunsplitM (urlparseM u).scheme (urlparseM u).netloc
          (pjoin (urlparseM u).path (urlparseM u).params)
          (urlencodeQs ((parseQs (urlparseM u).query).filter
            (fun kv => !isTrackedKey kv.1))) (urlparseM u).fragment).getLast? =
          some '?' then
        (urlunsplitM (urlparseM u).scheme (urlparseM u).netloc
          (pjoin (urlparseM u).path (urlparseM u).params)
          (urlencodeQs ((parseQs (urlparseM u).query).filter
            (fun kv => !isTrackedKey kv.1))) (urlparseM u).fragment).dropLast
      else
        urlunsplitM (urlparseM u).scheme (urlparseM u).netloc
          (pjoin (urlparseM u).path (urlparseM u).params)
          (urlencodeQs ((parseQs (urlparseM u).query).filter
            (fun kv => !isTrackedKey kv.1))) (urlparseM u).fragment) := by
  unfold cleanFacebookUrl urlunparseM pjoin
  rw [if_neg hu]

/-- The path recovered after the netloc split is empty or absolute. -/
theorem qsplit_shape_after_netloc {m : List Char}
    (hnf : '#' ∉ m.dropWhile notNetlocEnd) :
    (qsplit (m.dropWhile notNetlocEnd)).1 = [] ∨
      (qsplit (m.dropWhile notNetlocEnd)).1.head? = some '/' := by
  obtain ⟨hq, w, hw⟩ := qsplit_spec (m.dropWhile notNetlocEnd)
  cases hnp2 : m.dropWhile notNetlocEnd with
  | nil =>
    exact Or.inl (by rw [qsplit_none (z := ([] : List Char)) (by decide)])
  | cons cN tN =>
    have hfail : notNetlocEnd cN = false := dropWhile_head_fails hnp2
    have hcN : cN = '/' ∨ cN = '?' ∨ cN = '#' := by
      simp [notNetlocEnd] at hfail
      tauto
    rcases hcN with rfl | rfl | rfl
    · rw [hnp2] at hw
      cases hP : (qsplit ('/' :: tN)).1 with
      | nil => exact Or.inl rfl
      | cons pc pt =>
        right
        rw [hP, List.cons_append] at hw
        injection hw with hw1 _
        rw [← hw1]
        rfl
    · left
      have hq0 := qsplit_split (a := []) (by simp) tN
      simp only [List.nil_append] at hq0
      rw [hq0]
    · rw [hnp2] at hnf
      exact absurd (List.mem_cons_self _ _) hnf

/-- C7 (amended): on inputs without `#` that parse with a nonempty scheme
and a nonempty authority — in particular every absolute `http(s)` URL the
scraper produces — `clean_facebook_url` is idempotent. -/
theorem c7_clean_facebook_url_idempotent_on_authority_urls (u : List Char)
    (h1 : '#' ∉ u) (h2 : (urlparseM u).scheme ≠ [])
    (h3 : (urlparseM u).netloc ≠ []) :
    cleanFacebookUrl (cleanFacebookUrl u) = cleanFacebookUrl u := by
  have hps : (urlparseM u).scheme = (urlsplitM u).scheme := by rw [urlparseM_d u]
  have hpn : (urlparseM u).netloc = (urlsplitM u).netloc := by rw [urlparseM_d u]
  have hpq : (urlparseM u).query = (urlsplitM u).query := by rw [urlparseM_d u]
  have hpf : (urlparseM u).fragment = (urlsplitM u).fragment := by
    rw [urlparseM_d u]
  have hpj : pjoin (urlparseM u).path (urlparseM u).params =
      pfix (urlsplitM u).scheme (urlsplitM u).path := by
    rw [urlparseM_d u]
    rfl
  have hQs_ne : (urlsplitM u).scheme ≠ [] := hps ▸ h2
  have hQn_ne : (urlsplitM u).netloc ≠ [] := hpn ▸ h3
  obtain ⟨c0, p2, post, hsp, hacc, hss⟩ :=
    splitScheme_of_ne_nil (z := removeTabsNl u)
      (by rw [urlsplitM_scheme] at hQs_ne; exact hQs_ne)
  rw [Bool.and_eq_true] at hacc
  obtain ⟨halpha0, hall0⟩ := hacc
  have hlp := lowerL_scheme_props hall0
  set S := lowerL (c0 :: p2) with hSdef
  have hs_all : ∀ c ∈ S, schemeChar c = true := List.all_eq_true.mp hlp.1
  have hs_cons : S = c0.toLower :: lowerL p2 := by
    rw [hSdef]
    unfold lowerL
    rw [List.map_cons]
  have halphaL : (c0.toLower).isAlpha = true := isAlpha_toLower halpha0
  have hS_ne : S ≠ [] := by rw [hs_cons]; simp
  have hs_eq : (urlsplitM u).scheme = S := by rw [urlsplitM_scheme, hss]
  -- netloc of the first parse
  have hQn_ne2 : (splitNetloc post).1 ≠ [] := by
    rw [urlsplitM_netloc, hss] at hQn_ne
    exact hQn_ne
  have hnp := splitNetloc_of_ne_nil hQn_ne2
  set NL := (post.drop 2).takeWhile notNetlocEnd with hNLdef
  set NP2 := (post.drop 2).dropWhile notNetlocEnd with hNP2def
  have hnl_eq : (urlsplitM u).netloc = NL := by
    rw [urlsplitM_netloc, hss, hnp]
  have hNL_ne : NL ≠ [] := hnl_eq ▸ hQn_ne
  have hnl_all : ∀ c ∈ NL, notNetlocEnd c = true := by
    rw [hNLdef]
    exact fun c hc => List.mem_takeWhile_imp hc
  -- membership chains
  have hdec := (splitFirst_decomp hsp).1
  have hpost_sub : ∀ c, c ∈ post → c ∈ removeTabsNl u := by
    intro c hc
    rw [hdec]
    simp [hc]
  have hnp2_sub : ∀ c, c ∈ NP2 → c ∈ post := by
    rw [hNP2def]
    intro c hc
    exact List.drop_subset _ _ ((List.dropWhile_sublist _).subset hc)
  have hnl_sub : ∀ c, c ∈ NL → c ∈ post := by
    rw [hNLdef]
    intro c hc
    exact List.drop_subset _ _ ((List.takeWhile_sublist _).subset hc)
  have hu0_nf : '#' ∉ removeTabsNl u := fun hm => h1 (removeTabsNl_subset hm)
  have hfr : '#' ∉ NP2 := fun hm => hu0_nf (hpost_sub _ (hnp2_sub _ hm))
  have hfs : fsplit NP2 = (NP2, []) := fsplit_no_frag hfr
  -- path and query of the first parse
  set PATH := (qsplit NP2).1 with hPATHdef
  set QRY := (qsplit NP2).2 with hQRYdef
  have hpath_eq : (urlsplitM u).path = PATH := by
    rw [urlsplitM_path, hss, hnp, hfs]
  have hqry_eq : (urlsplitM u).query = QRY := by
    rw [urlsplitM_query, hss, hnp, hfs]
  have hfrag_eq : (urlsplitM u).fragment = [] := by
    rw [urlsplitM_fragment, hss, hnp, hfs]
  obtain ⟨hP_nq, w, hw⟩ := qsplit_spec NP2
  have hPATH_sub : ∀ c, c ∈ PATH → c ∈ NP2 := by
    intro c hc
    rw [hw]
    simp [hc]
  have hpath_shape : PATH = [] ∨ PATH.head? = some '/' := by
    rw [hPATHdef, hNP2def]
    exact qsplit_shape_after_netloc (m := post.drop 2) (hNP2def ▸ hfr)
  -- the cleaned query and path
  set P2 := pfix S PATH with hP2def
  set CQ := urlencodeQs ((parseQs QRY).filter (fun kv => !isTrackedKey kv.1))
    with hCQdef
  have hp2_shape : P2 = [] ∨ P2.head? = some '/' := by
    rcases hpath_shape with hh | hh
    · left
      rw [hP2def, hh, pfix_nil]
    · right
      rw [hP2def]
      exact pfix_head_slash hh
  have hp2_sub : ∀ c, c ∈ P2 → c ∈ PATH := by
    rw [hP2def]
    exact fun c hc => pfix_subset hc
  have hp2_cl : ∀ c ∈ P2, ¬(c = '\t' ∨ c = '\r' ∨ c = '\n') :=
    fun c hc => removeTabsNl_no_tcn
      (hpost_sub _ (hnp2_sub _ (hPATH_sub _ (hp2_sub _ hc))))
  have hnl_cl : ∀ c ∈ NL, ¬(c = '\t' ∨ c = '\r' ∨ c = '\n') :=
    fun c hc => removeTabsNl_no_tcn (hpost_sub _ (hnl_sub _ hc))
  have hp2_nf : '#' ∉ P2 := fun hm => hfr (hPATH_sub _ (hp2_sub _ hm))
  have hp2_nq : '?' ∉ P2 := fun hm => hP_nq (hp2_sub _ hm)
  have hcqf : ∀ c ∈ CQ, 32 < c.toNat ∧ c ≠ '?' ∧ c ≠ '#' := by
    rw [hCQdef]
    intro c hc
    have hf := urlencodeQs_facts hc
    exact ⟨hf.1, hf.2.1, hf.2.2.1⟩
  -- the first application
  have hune : u ≠ [] := by
    intro he
    apply hQn_ne
    rw [he]
    rfl
  rw [cleanFacebookUrl_expand u hune, hps, hpn, hpq, hpf, hpj, hs_eq, hnl_eq,
    hpath_eq, hqry_eq, hfrag_eq, ← hP2def, ← hCQdef,
    urlunsplitM_std hS_ne hNL_ne hp2_shape]
  have hnostrip : (S ++ ':' :: '/' :: '/' ::
      (NL ++ (P2 ++ (if CQ = [] then [] else '?' :: CQ)))).getLast? ≠
      some '?' := by
    by_cases hcqe : CQ = []
    · rw [if_pos hcqe]
      refine getLast?_ne_of_not_mem (fun hm => ?_)
      simp only [List.append_nil, List.mem_append, List.mem_cons] at hm
      rcases hm with hm | hm
      · exact (schemeChar_facts (hs_all _ hm)).2.2.1 rfl
      rcases hm with hm | hm
      · exact absurd hm (by decide)
      rcases hm with hm | hm
      · exact absurd hm (by decide)
      rcases hm with hm | hm
      · exact absurd hm (by decide)
      rcases hm with hm | hm
      · exact absurd (hnl_all _ hm) (by decide)
      · exact hp2_nq hm
    · rw [if_neg hcqe]
      have hre : S ++ ':' :: '/' :: '/' :: (NL ++ (P2 ++ '?' :: CQ)) =
          (S ++ ':' :: '/' :: '/' :: (NL ++ P2)) ++ '?' :: CQ := by
        simp
      rw [hre, List.getLast?_append_of_ne_nil _ (by simp),
        show ('?' :: CQ) = ['?'] ++ CQ from rfl,
        List.getLast?_append_of_ne_nil _ hcqe]
      refine getLast?_ne_of_not_mem (fun hm => ?_)
      rw [hCQdef] at hm
      exact (urlencodeQs_facts hm).2.1 rfl
  rw [if_neg hnostrip]
  -- the second application
  have hRne : S ++ ':' :: '/' :: '/' ::
      (NL ++ (P2 ++ (if CQ = [] then [] else '?' :: CQ))) ≠ [] := by
    rw [hs_cons]
    simp
  have hsplitR : urlsplitM (S ++ ':' :: '/' :: '/' ::
      (NL ++ (P2 ++ (if CQ = [] then [] else '?' :: CQ)))) =
      ⟨S, NL, P2, [], CQ, []⟩ :=
    urlsplitM_reparse ⟨c0.toLower, lowerL p2, hs_cons, halphaL⟩ hs_all
      (by rw [hSdef]; exact hlp.2.1) hnl_all hnl_cl hp2_shape hp2_cl hp2_nf
      hp2_nq hcqf
  have hRs : (urlparseM (S ++ ':' :: '/' :: '/' ::
      (NL ++ (P2 ++ (if CQ = [] then [] else '?' :: CQ))))).scheme = S := by
    rw [urlparseM_d, hsplitR]
  have hRn : (urlparseM (S ++ ':' :: '/' :: '/' ::
      (NL ++ (P2 ++ (if CQ = [] then [] else '?' :: CQ))))).netloc = NL := by
    rw [urlparseM_d, hsplitR]
  have hRq : (urlparseM (S ++ ':' :: '/' :: '/' ::
      (NL ++ (P2 ++ (if CQ = [] then [] else '?' :: CQ))))).query = CQ := by
    rw [urlparseM_d, hsplitR]
  have hRf : (urlparseM (S ++ ':' :: '/' :: '/' ::
      (NL ++ (P2 ++ (if CQ = [] then [] else '?' :: CQ))))).fragment = [] := by
    rw [urlparseM_d, hsplitR]
  have hRpj : pjoin (urlparseM (S ++ ':' :: '/' :: '/' ::
        (NL ++ (P2 ++ (if CQ = [] then [] else '?' :: CQ))))).path
      (urlparseM (S ++ ':' :: '/' :: '/' ::
        (NL ++ (P2 ++ (if CQ = [] then [] else '?' :: CQ))))).params =
      pfix S P2 := by
    rw [urlparseM_d, hsplitR]
    rfl
  have hstab : pfix S P2 = P2 := by
    rw [hP2def]
    exact pfix_stable S PATH
  have hCQ2 : urlencodeQs ((parseQs CQ).filter
      (fun kv => !isTrackedKey kv.1)) = CQ := by
    rw [hCQdef]
    exact urlencode_filter_fix (fun kv => !isTrackedKey kv.1) QRY
  rw [cleanFacebookUrl_expand _ hRne, hRs, hRn, hRq, hRf, hRpj, hstab, hCQ2,
    urlunsplitM_std hS_ne hNL_ne hp2_shape, if_neg hnostrip]

/-- C7 counterexample: the URL-cleaning function is not idempotent on all
inputs. On `"#?"` one pass yields `"#"` (the empty fragment survives as a
bare `#` whose trailing `?` was stripped), while a second pass drops the
now-empty fragment entirely and yields `""`. -/
theorem c7_counterexample :
    cleanFacebookUrl (cleanFacebookUrl ['#', '?']) ≠
      cleanFacebookUrl ['#', '?'] := by
  decide

/-- C7 witness: the amended idempotence statement at a concrete Facebook
URL carrying one tracking parameter. -/
theorem c7_witness :
    ('#' ∉ ("http://fb.com/x?fbclid=1&a=2".data) ∧
      (urlparseM ("http://fb.com/x?fbclid=1&a=2".data)).scheme ≠ [] ∧
      (urlparseM ("http://fb.com/x?fbclid=1&a=2".data)).netloc ≠ []) ∧
    cleanFacebookUrl (cleanFacebookUrl ("http://fb.com/x?fbclid=1&a=2".data)) =
      cleanFacebookUrl ("http://fb.com/x?fbclid=1&a=2".data) := by
  refine ⟨⟨by decide, by decide, by decide⟩, ?_⟩
  exact c7_clean_facebook_url_idempotent_on_authority_urls _ (by decide)
    (by decide) (by decide)

/-! ## Claim C8 -/

/-- The `text` field of a built post literal. -/
theorem SPost_text_mk (i t k au u : List Char) (ts : Option (List Char)) :
    (SPost.mk i t k au u ts).text = t := rfl

/-- Invariant of the extraction loop: if every accumulated post's text is
the 1000-character truncation of some cleaned text that is at least 50
characters long and contains the keyword case-insensitively, then so is
every post in the loop's final output. -/
theorem extractGo_inv (kw : List Char) (anchors : List PostAnchor) :
    ∀ (seenUrls seenTexts : List (List Char)) (posts : List SPost),
      (∀ q ∈ posts, ∃ t, 50 ≤ t.length ∧
          containsSub (lowerL kw) (lowerL t) = true ∧ q.text = t.take 1000) →
      ∀ p ∈ extractGo kw anchors seenUrls seenTexts posts,
        ∃ t, 50 ≤ t.length ∧ containsSub (lowerL kw) (lowerL t) = true ∧
          p.text = t.take 1000 := by
  induction anchors with
  | nil =>
    intro seenUrls seenTexts posts hinv p hp
    rw [extractGo] at hp
    exact hinv p hp
  | cons a rest ih =>
    intro seenUrls seenTexts posts hinv p hp
    rw [extractGo] at hp
    by_cases h1 : maxPostsPerPage ≤ posts.length
    · rw [if_pos h1] at hp
      exact hinv p hp
    · rw [if_neg h1] at hp
      by_cases h2 : a.url ∈ seenUrls
      · rw [if_pos h2] at hp
        exact ih _ _ _ hinv p hp
      · rw [if_neg h2] at hp
        cases hc : a.container with
        | none =>
          rw [hc] at hp
          exact ih _ _ _ hinv p hp
        | some cont =>
          rw [hc] at hp
          simp only at hp
          by_cases hf : (cleanPostText cont.rawText).length < 50 ∨
              ¬(containsSub (lowerL kw) (lowerL (cleanPostText cont.rawText))
                = true)
          · rw [if_pos hf] at hp
            exact ih _ _ _ hinv p hp
          · rw [if_neg hf] at hp
            push_neg at hf
            obtain ⟨hlen, hsub⟩ := hf
            by_cases ht : (cleanPostText cont.rawText).take 200 ∈ seenTexts
            · rw [if_pos ht] at hp
              exact ih _ _ _ hinv p hp
            · rw [if_neg ht] at hp
              refine ih _ _ _ ?_ p hp
              intro q hq
              rcases List.mem_append.mp hq with hq0 | hq1
              · exact hinv q hq0
              · rcases List.mem_singleton.mp hq1 with rfl
                refine ⟨cleanPostText cont.rawText, by omega, hsub, ?_⟩
                exact SPost_text_mk _ _ _ _ _ _

/-- C8: every post returned by the extractor has as its text the
1000-character truncation of a cleaned text of length at least 50 that
contains the keyword as a case-insensitive substring — candidates whose
cleaned text fails the length threshold or lacks the keyword are never
included in the output. -/
theorem c8_extracted_posts_pass_length_and_keyword_filter
    (kw : List Char) (links : List RawLink) (p : SPost)
    (hp : p ∈ extractPostsByUrlBoundaries kw links) :
    ∃ t, 50 ≤ t.length ∧ containsSub (lowerL kw) (lowerL t) = true ∧
      p.text = t.take 1000 := by
  rw [extractPostsByUrlBoundaries] at hp
  exact extractGo_inv kw (links.filterMap buildAnchor) [] [] []
    (fun q hq => absurd hq (List.not_mem_nil q)) p hp

set_option maxRecDepth 10000 in
/-- C8 witness: the filter statement at a concrete link whose container
text is fifty letters long and contains the keyword. -/
theorem c8_witness :
    ∃ t, 50 ≤ t.length ∧
      containsSub (lowerL ("a".data)) (lowerL t) = true ∧
      (SPost.mk ("925559f0c87fc44ee121".data) (List.replicate 50 'a')
        ("a".data) ("Unknown".data)
        ("https://www.facebook.com/posts/1".data) none).text = t.take 1000 :=
  c8_extracted_posts_pass_length_and_keyword_filter ("a".data)
    [⟨"/posts/1".data, [], some ⟨List.replicate 50 'a', []⟩⟩] _ (by decide)

/-! ## Claim C9 -/

/-- Shape of a successful author extraction over a header list: the result
is the entity-decoding of a candidate that passed the `[2, 60]` length
check — the length bounds hold for the candidate before decoding, not for
the returned string. -/
theorem extractAuthorGo_shape (hs : List (List Char)) :
    ∀ r, extractAuthorGo hs = some r →
      ∃ a, 2 ≤ a.length ∧ a.length ≤ 60 ∧ r = cleanHtmlEntities a := by
  induction hs with
  | nil =>
    intro r hr
    rw [extractAuthorGo] at hr
    exact absurd hr (by simp)
  | cons h rest ih =>
    intro r hr
    rw [extractAuthorGo] at hr
    by_cases h1 : h = [] ∨ h.length < 2
    · rw [if_pos h1] at hr
      exact ih r hr
    · rw [if_neg h1] at hr
      by_cases h2 : uiNoise.any (fun n => containsSub n (lowerL h)) = true
      · rw [if_pos h2] at hr
        exact ih r hr
      · rw [if_neg h2] at hr
        simp only at hr
        by_cases h3 : 2 ≤ (rstripDots (statusRxs.foldl
              (fun a rx => pstrip (rsub rx [] a))
              (pstrip (takeBeforeMiddot h)))).length ∧
            (rstripDots (statusRxs.foldl (fun a rx => pstrip (rsub rx [] a))
              (pstrip (takeBeforeMiddot h)))).length ≤ 60
        · rw [if_pos h3] at hr
          exact ⟨_, h3.1, h3.2, (Option.some.inj hr).symm⟩
        · rw [if_neg h3] at hr
          exact ih r hr

/-- C9 counterexample: on a container whose single heading is the four
characters of an HTML less-than entity, author extraction returns a
one-character string — a length outside `[2, 60]`. -/
theorem c9_counterexample :
    ∃ r, extractAuthor ⟨[], ["&lt;".data]⟩ = some r ∧ r.length < 2 :=
  ⟨['<'], by decide, by decide⟩

/-- C9 (amended): when author extraction returns a string, that string is
the HTML-entity decoding of a candidate whose length lay in `[2, 60]`; the
decoding runs after the length check, so the returned string itself can be
shorter than 2 characters. -/
theorem c9_author_length_check_precedes_entity_decoding
    (c : Container) (r : List Char) (hr : extractAuthor c = some r) :
    ∃ a, 2 ≤ a.length ∧ a.length ≤ 60 ∧ r = cleanHtmlEntities a := by
  rw [extractAuthor] at hr
  exact extractAuthorGo_shape c.headers r hr

set_option maxRecDepth 10000 in
/-- C9 witness: the amended statement at a container whose heading is a
two-letter name. -/
theorem c9_witness :
    ∃ a, 2 ≤ a.length ∧ a.length ≤ 60 ∧ ("Ab".data) = cleanHtmlEntities a :=
  c9_author_length_check_precedes_entity_decoding
    ⟨[], ["Ab".data]⟩ ("Ab".data) (by decide)

end Fblstner
